import Mathlib

/-!
# ALAC encoder (`src/encoders/alac.c`): shallow embedding

Conventions of the embedding.

* A bit sink is represented by the list of bits written to it, first bit first; a function
  that writes to a sink returns the bits it appends.  A `BitstreamRecorder` is the list of bits
  it holds, `bits_written` is its length and `copy` appends it to the target.
* C `int` values are `Int`, C `unsigned` values are `Nat`.  Signed arithmetic, whose overflow
  is undefined in C, is carried out in `Int`; conversions between `int`, `int64_t` and
  `unsigned` and unsigned arithmetic that can wrap are written out with `int32` / `uint32`.
* `longjmp(encoder->residual_overflow, 1)` is the result `Outcome.residual_overflow`; a failed
  `assert` and a division by zero are the result `Outcome.abort`.
* The floating-point analysis inside `compute_coefficients` (`window_signal`, `autocorrelate`,
  `compute_lp_coefficients`, `quantize_coefficients`) enters the frame writers as a parameter
  of type `lpc_analysis` (its integer results), and every theorem about them holds for all
  such results.  Two parts of it are embedded on their own: `window_signal` with its cache,
  over an abstract type of doubles, and `quantize_coefficients`, over exact rationals.
* Scratch buffers that the code resets before each use are not state of the embedding.  The
  two that are not reset are explicit: the cache `tukey_window` and the recorder
  `best_interlaced_frame`.
-/

namespace Alac

/-- A sequence of bits in the order they are written. -/
abbrev Bits := List Bool

/-- Result of code that may leave through `longjmp(encoder->residual_overflow, 1)` or stop at
a failed `assert` / division by zero. -/
inductive Outcome (α : Type) where
  | ok (a : α)
  | residual_overflow
  | abort
deriving DecidableEq, Repr

/-- Sequencing of two steps: the first exceptional result wins. -/
def Outcome.bind {α β : Type} : Outcome α → (α → Outcome β) → Outcome β
  | .ok a, f => f a
  | .residual_overflow, _ => .residual_overflow
  | .abort, _ => .abort

/-- Value of the C conversion of an integer to `unsigned` (32 bits). -/
def uint32 (x : Int) : Nat := (x % 4294967296).toNat

/-- Value of the C conversion of an integer to `int` (32 bits, two's complement). -/
def int32 (x : Int) : Int := (x + 2147483648) % 4294967296 - 2147483648

/-- The constant `UINT_MAX` of a 32-bit `unsigned`. -/
def UINT_MAX : Nat := 4294967295

/-- Modelled from the spec: `bs->write(bs, n, value)` of the bit sink (spec 4.1), which is not
part of `alac.c`: the low `n` bits of `value`, most significant bit first. -/
def write (n : Nat) (value : Nat) : Bits :=
  (List.range n).map (fun i => value.testBit (n - 1 - i))

/-- Modelled from the spec: `bs->write_signed(bs, n, value)` of the bit sink (spec 4.1):
`n` bits of a signed value in two's complement. -/
def write_signed (n : Nat) (value : Int) : Bits :=
  write n (value % 2 ^ n).toNat

/-- Modelled from the spec: `bs->write_unary(bs, stop_bit, count)` of the bit sink (spec 4.1):
`count` bits equal to the complement of `stop_bit`, followed by `stop_bit`. -/
def write_unary (stop_bit : Nat) (count : Nat) : Bits :=
  List.replicate count (decide (stop_bit = 0)) ++ [decide (stop_bit ≠ 0)]

/-- Modelled from the spec: `bs->byte_align(bs)` of the bit sink (spec 4.1): the zero bits that
pad a sink holding `pos` bits to the next byte boundary. -/
def byte_align (pos : Nat) : Bits :=
  List.replicate ((8 - pos % 8) % 8) false

/-- Modelled from the spec: `recorder->bits_written(recorder)` (spec 4.1): the number of bits
the recorder holds. -/
def bits_written (recorder : Bits) : Nat := recorder.length

/-- Modelled from the spec: the encoder options (spec 3), whose declaration in `alac.h` is not
part of `alac.c`; the fields are those `alac.c` reads from `encoder->options`. -/
structure alac_encoding_options where
  block_size : Nat
  initial_history : Nat
  history_multiplier : Nat
  maximum_k : Nat
  minimum_interlacing_leftweight : Nat
  maximum_interlacing_leftweight : Nat
deriving DecidableEq, Repr

/-- Modelled from the spec: the part of `struct alac_context` (declared in `alac.h`, spec 5)
that the frame writers read: the options, the sample width, and the bits the recorder
`best_interlaced_frame` holds from its previous use (`write_compressed_frame` does not reset
it). -/
structure alac_context where
  options : alac_encoding_options
  bits_per_sample : Nat
  best_interlaced_frame : Bits
deriving DecidableEq, Repr

/-- The two coefficient lists `quantize_coefficients` builds at orders 4 and 8; its loop
appends exactly `order` entries. -/
structure qlp_orders where
  qlp_coefficients4 : List Int
  qlp_coefficients8 : List Int
  length4 : qlp_coefficients4.length = 4
  length8 : qlp_coefficients8.length = 8

/-- Result of the floating-point analysis of `compute_coefficients` for a channel: `none` when
`autocorrelation_values->_[0] != 0.0` fails, else the quantised coefficients. -/
abbrev lpc_analysis := List Int → Option qlp_orders

/-! ## Residual coder -/

/-- The `while (value)` loop of `LOG2`; at most `fuel` iterations. -/
def LOG2_loop : Nat → Nat → Nat → Nat
  | 0, _, bits => bits
  | fuel + 1, value, bits =>
    if value = 0 then bits else LOG2_loop fuel (value >>> 1) (bits + 1)

/-- Embedding of `LOG2`: the `assert(value > 0)` stops the program on 0; the loop runs once per significant
bit of `value`, which is never more than `value` times. -/
def LOG2 (value : Nat) : Outcome Nat :=
  if value > 0 then .ok (LOG2_loop value value 0 - 1) else .abort

/-- Embedding of `write_residual`. -/
def write_residual (value k sample_size : Nat) : Outcome Bits :=
  let divisor := (1 <<< k) - 1
  if divisor = 0 then .abort
  else
    let MSB := value / divisor
    let LSB := value % divisor
    if MSB > 8 then
      .ok (write 9 0x1FF ++ write sample_size value)
    else
      .ok (write_unary 0 MSB ++
        (if k > 1 then (if LSB > 0 then write k (LSB + 1) else write (k - 1) 0) else []))

/-- The value `unsigned_i` computed from `residuals->_[i]` in `encode_residuals`:
`(unsigned)(r << 1)`, or `(unsigned)(-r << 1) - 1` in unsigned arithmetic. -/
def fold_residual (r : Int) : Nat :=
  if r ≥ 0 then uint32 (r * 2) else uint32 ((uint32 ((-r) * 2) : Int) - 1)

/-- The outer `while (i < residuals->len)` loop of `encode_residuals`; `remaining` is
`residuals[i..]`, and each iteration consumes at least one residual, so `fuel` iterations
suffice when `fuel` is the number of remaining residuals. -/
def encode_residuals_loop (o : alac_encoding_options) (sample_size : Nat) :
    Nat → Int → Nat → List Int → Outcome Bits
  | 0, _, _, _ => .ok []
  | _ + 1, _, _, [] => .ok []
  | fuel + 1, history, sign_modifier, r :: rest =>
    let unsigned_i := fold_residual r
    if unsigned_i ≥ 1 <<< sample_size then .residual_overflow
    else
      (LOG2 (uint32 ((history >>> (9 : Nat)) + 3))).bind fun l =>
      let k := min l o.maximum_k
      (write_residual (uint32 ((unsigned_i : Int) - sign_modifier)) k sample_size).bind fun code =>
      if unsigned_i ≤ 0xFFFF then
        let history1 := history +
          (int32 ((unsigned_i * o.history_multiplier : Nat) : Int) -
            ((history * int32 o.history_multiplier) >>> (9 : Nat)))
        if history1 < 128 ∧ rest ≠ [] then
          (LOG2 (uint32 history1)).bind fun l0 =>
          let k0 := min (uint32 (7 - (l0 : Int) + (uint32 ((history1 + 16) >>> (6 : Nat)) : Int)))
            o.maximum_k
          let zeroes := (rest.takeWhile (fun x => decide (x = 0))).length
          (write_residual zeroes k0 16).bind fun run =>
          (encode_residuals_loop o sample_size fuel 0 (if zeroes < 0xFFFF then 1 else 0)
            (rest.dropWhile (fun x => decide (x = 0)))).bind fun tail =>
          .ok (code ++ run ++ tail)
        else
          (encode_residuals_loop o sample_size fuel history1 0 rest).bind fun tail =>
          .ok (code ++ tail)
      else
        (encode_residuals_loop o sample_size fuel 0xFFFF 0 rest).bind fun tail =>
        .ok (code ++ tail)

/-- Embedding of `encode_residuals`: the bits written to `residual_block`. -/
def encode_residuals (o : alac_encoding_options) (sample_size : Nat) (residuals : List Int) :
    Outcome Bits :=
  encode_residuals_loop o sample_size residuals.length (int32 o.initial_history) 0 residuals

/-! ## LPC residualizer -/

/-- Embedding of `SIGN_ONLY`. -/
def SIGN_ONLY (value : Int) : Int :=
  if value > 0 then 1 else if value < 0 then -1 else 0

/-- Embedding of `TRUNCATE_BITS`: `value & ((1 << bits) - 1)` is `value % 2 ^ bits`. -/
def TRUNCATE_BITS (value : Int) (bits : Nat) : Int :=
  let truncated := value % 2 ^ bits
  if truncated.toNat.testBit (bits - 1) then truncated - 2 ^ bits else truncated

/-- The `for (j = 0; j < coeff_count; j++)` accumulation of `lpc_sum`, started at `1 << 8`. -/
def lpc_sum (samples coefficients : List Int) (i coeff_count : Nat) (base_sample : Int) : Int :=
  (List.range coeff_count).foldl
    (fun acc j => acc + coefficients.getD j 0 * (samples.getD (i - j - 1) 0 - base_sample))
    256

/-- The refinement loop of `calculate_residuals` taken when `error > 0`, from index `j`, with
`n` iterations left; returns the coefficients. -/
def refine_positive (samples : List Int) (i coeff_count : Nat) (base_sample : Int) :
    Nat → Nat → Int → List Int → List Int
  | 0, _, _, coefficients => coefficients
  | n + 1, j, error, coefficients =>
    let diff := base_sample - samples.getD (i - coeff_count + j) 0
    let sign := SIGN_ONLY diff
    let coefficients1 := coefficients.set (coeff_count - j - 1)
      (coefficients.getD (coeff_count - j - 1) 0 - sign)
    let error1 := int32 (error - ((diff * sign) >>> (9 : Nat)) * ((j + 1 : Nat) : Int))
    if error1 ≤ 0 then coefficients1
    else refine_positive samples i coeff_count base_sample n (j + 1) error1 coefficients1

/-- The refinement loop of `calculate_residuals` taken when `error < 0`. -/
def refine_negative (samples : List Int) (i coeff_count : Nat) (base_sample : Int) :
    Nat → Nat → Int → List Int → List Int
  | 0, _, _, coefficients => coefficients
  | n + 1, j, error, coefficients =>
    let diff := base_sample - samples.getD (i - coeff_count + j) 0
    let sign := SIGN_ONLY diff
    let coefficients1 := coefficients.set (coeff_count - j - 1)
      (coefficients.getD (coeff_count - j - 1) 0 + sign)
    let error1 := int32 (error - ((diff * -sign) >>> (9 : Nat)) * ((j + 1 : Nat) : Int))
    if error1 ≥ 0 then coefficients1
    else refine_negative samples i coeff_count base_sample n (j + 1) error1 coefficients1

/-- The second loop of `calculate_residuals` (`for (; i < samples->len; i++)` with the adaptive
coefficients), `n` iterations from index `i`; returns the residuals it appends. -/
def calculate_residuals_loop (samples : List Int) (sample_size coeff_count : Nat) :
    Nat → Nat → List Int → List Int
  | 0, _, _ => []
  | n + 1, i, coefficients =>
    let base_sample := samples.getD (i - coeff_count - 1) 0
    let sum := lpc_sum samples coefficients i coeff_count base_sample >>> (9 : Nat)
    let error := TRUNCATE_BITS (samples.getD i 0 - base_sample - int32 sum) sample_size
    let coefficients1 :=
      if error > 0 then
        refine_positive samples i coeff_count base_sample coeff_count 0 error coefficients
      else if error < 0 then
        refine_negative samples i coeff_count base_sample coeff_count 0 error coefficients
      else coefficients
    error :: calculate_residuals_loop samples sample_size coeff_count n (i + 1) coefficients1

/-- Embedding of `calculate_residuals`: the list `residuals` it builds.  A read outside `samples` (excluded
by the length guard of `write_frame`) yields 0 here. -/
def calculate_residuals (samples : List Int) (sample_size : Nat) (qlp_coefficients : List Int) :
    List Int :=
  let coeff_count := qlp_coefficients.length
  if coeff_count < 31 then
    samples.getD 0 0 ::
      ((List.range coeff_count).map fun t =>
          TRUNCATE_BITS (samples.getD (t + 1) 0 - samples.getD t 0) sample_size) ++
        calculate_residuals_loop samples sample_size coeff_count
          (samples.length - (coeff_count + 1)) (coeff_count + 1) qlp_coefficients
  else
    samples.getD 0 0 ::
      (List.range (samples.length - 1)).map fun t =>
        TRUNCATE_BITS (samples.getD (t + 1) 0 - samples.getD t 0) sample_size

/-! ## Sub-frame and frame writers -/

/-- Embedding of `compute_coefficients`: the coefficients copied to `qlp_coefficients` and the bits written
to `residual`.  `analysis samples` stands for the windowing, autocorrelation, Levinson-Durbin
and quantisation steps; `bits_written(...) + 64` is unsigned arithmetic. -/
def compute_coefficients (o : alac_encoding_options) (analysis : lpc_analysis)
    (samples : List Int) (sample_size : Nat) : Outcome (List Int × Bits) :=
  match analysis samples with
  | some q =>
    let residual_values4 := calculate_residuals samples sample_size q.qlp_coefficients4
    let residual_values8 := calculate_residuals samples sample_size q.qlp_coefficients8
    (encode_residuals o sample_size residual_values4).bind fun residual_block4 =>
    (encode_residuals o sample_size residual_values8).bind fun residual_block8 =>
    if bits_written residual_block4 < (bits_written residual_block8 + 64) % 4294967296 then
      .ok (q.qlp_coefficients4, residual_block4)
    else
      .ok (q.qlp_coefficients8, residual_block8)
  | none =>
    let qlp_coefficients := List.replicate 4 (0 : Int)
    let residual_values4 := calculate_residuals samples sample_size qlp_coefficients
    (encode_residuals o sample_size residual_values4).bind fun residual =>
    .ok (qlp_coefficients, residual)

/-- Embedding of `write_subframe_header`. -/
def write_subframe_header (qlp_coefficients : List Int) : Bits :=
  write 4 0 ++ write 4 9 ++ write 3 4 ++ write 5 qlp_coefficients.length ++
    qlp_coefficients.flatMap fun c => write_signed 16 c

/-- The loop `for (i = 0; i < LSBs->len; i++) bs->write(bs, uncompressed_LSBs * 8, LSBs->_[i])`
under its guard `uncompressed_LSBs > 0`. -/
def write_LSBs (uncompressed_LSBs : Nat) (LSBs : List Int) : Bits :=
  if uncompressed_LSBs > 0 then
    LSBs.flatMap fun v => write (uncompressed_LSBs * 8) (uint32 v)
  else []

/-- Embedding of `correlate_channels`: the two lists of `correlated_channels`; both `assert`s are kept. -/
def correlate_channels (channels : List (List Int))
    (interlacing_shift interlacing_leftweight : Nat) : Outcome (List (List Int)) :=
  if channels.length ≠ 2 then .abort
  else if (channels.getD 0 []).length ≠ (channels.getD 1 []).length then .abort
  else
    let channel0 := channels.getD 0 []
    let channel1 := channels.getD 1 []
    let frame_count := channel0.length
    if interlacing_leftweight > 0 then
      .ok [ (List.range frame_count).map (fun i =>
              channel1.getD i 0 +
                int32 (((channel0.getD i 0 - channel1.getD i 0) * (interlacing_leftweight : Int))
                  >>> interlacing_shift)),
            (List.range frame_count).map (fun i => channel0.getD i 0 - channel1.getD i 0) ]
    else
      .ok [channel0, channel1]

/-- Embedding of `write_non_interlaced_frame`: the bits written to `bs`. -/
def write_non_interlaced_frame (e : alac_context) (analysis : lpc_analysis)
    (uncompressed_LSBs : Nat) (LSBs : List Int) (channels : List (List Int)) : Outcome Bits :=
  if channels.length ≠ 1 then .abort
  else
    let channel0 := channels.getD 0 []
    let header :=
      write 16 0 ++
      (if channel0.length = e.options.block_size then write 1 0 else write 1 1) ++
      write 2 uncompressed_LSBs ++
      write 1 0 ++
      (if channel0.length ≠ e.options.block_size then write 32 channel0.length else []) ++
      write 8 0 ++
      write 8 0
    (compute_coefficients e.options analysis channel0
        (e.bits_per_sample - uncompressed_LSBs * 8)).bind fun (qlp_coefficients, residual) =>
    .ok (header ++ write_subframe_header qlp_coefficients ++
      write_LSBs uncompressed_LSBs LSBs ++ residual)

/-- Embedding of `write_interlaced_frame`: the bits written to `bs`. -/
def write_interlaced_frame (e : alac_context) (analysis : lpc_analysis)
    (uncompressed_LSBs : Nat) (LSBs : List Int)
    (interlacing_shift interlacing_leftweight : Nat) (channels : List (List Int)) :
    Outcome Bits :=
  if channels.length ≠ 2 then .abort
  else
    let channel0 := channels.getD 0 []
    let header :=
      write 16 0 ++
      (if channel0.length = e.options.block_size then write 1 0 else write 1 1) ++
      write 2 uncompressed_LSBs ++
      write 1 0 ++
      (if channel0.length ≠ e.options.block_size then write 32 channel0.length else []) ++
      write 8 interlacing_shift ++
      write 8 interlacing_leftweight
    (correlate_channels channels interlacing_shift interlacing_leftweight).bind
      fun correlated_channels =>
    (compute_coefficients e.options analysis (correlated_channels.getD 0 [])
        (e.bits_per_sample - uncompressed_LSBs * 8 + 1)).bind
      fun (qlp_coefficients0, residual0) =>
    (compute_coefficients e.options analysis (correlated_channels.getD 1 [])
        (e.bits_per_sample - uncompressed_LSBs * 8 + 1)).bind
      fun (qlp_coefficients1, residual1) =>
    .ok (header ++ write_subframe_header qlp_coefficients0 ++
      write_subframe_header qlp_coefficients1 ++
      write_LSBs uncompressed_LSBs LSBs ++ residual0 ++ residual1)

/-- The constant `INTERLACING_SHIFT`. -/
def INTERLACING_SHIFT : Nat := 2

/-- The leftweight loop of `write_compressed_frame` over the leftweights still to try, followed
by `best_interlaced_frame->copy(best_interlaced_frame, bs)`: `candidate w` is what
`write_interlaced_frame` writes to the reset recorder `interlaced_frame` for leftweight `w`, and
`best` is what `best_interlaced_frame` holds. -/
def leftweight_search (candidate : Nat → Outcome Bits) : List Nat → Nat → Bits → Outcome Bits
  | [], _, best => .ok best
  | leftweight :: more, best_interlaced_frame_bits, best =>
    (candidate leftweight).bind fun interlaced_frame =>
    if bits_written interlaced_frame < best_interlaced_frame_bits then
      leftweight_search candidate more (bits_written interlaced_frame) interlaced_frame
    else
      leftweight_search candidate more best_interlaced_frame_bits best

/-- The leftweights `minimum_interlacing_leftweight ..= maximum_interlacing_leftweight`. -/
def leftweights (o : alac_encoding_options) : List Nat :=
  List.range' o.minimum_interlacing_leftweight
    (o.maximum_interlacing_leftweight + 1 - o.minimum_interlacing_leftweight)

/-- The list `LSBs` built by the sample loop of `write_compressed_frame` when
`bits_per_sample > 16`: for each frame `i` and each channel `c`,
`channels->_[c]->_[i] & ((1 << (bits_per_sample - 16)) - 1)`. -/
def extract_LSBs (bits_per_sample : Nat) (channels : List (List Int)) : List Int :=
  (List.range (channels.getD 0 []).length).flatMap fun i =>
    (List.range channels.length).map fun c =>
      ((channels.getD c []).getD i 0) % 2 ^ (bits_per_sample - 16)

/-- The lists `channels_MSB` built by the same loop: for each channel `c` and each frame `i`,
`channels->_[c]->_[i] >> (bits_per_sample - 16)`. -/
def extract_MSBs (bits_per_sample : Nat) (channels : List (List Int)) : List (List Int) :=
  (List.range channels.length).map fun c =>
    (List.range (channels.getD 0 []).length).map fun i =>
      ((channels.getD c []).getD i 0) >>> (bits_per_sample - 16)

/-- Embedding of `write_compressed_frame`: the bits written to `bs`. -/
def write_compressed_frame (e : alac_context) (analysis : lpc_analysis)
    (channels : List (List Int)) : Outcome Bits :=
  if e.bits_per_sample ≤ 16 then
    if channels.length = 1 then
      write_non_interlaced_frame e analysis 0 [] channels
    else
      leftweight_search
        (fun leftweight =>
          write_interlaced_frame e analysis 0 [] INTERLACING_SHIFT leftweight channels)
        (leftweights e.options) UINT_MAX e.best_interlaced_frame
  else
    let uncompressed_LSBs := (e.bits_per_sample - 16) / 8
    let LSBs := extract_LSBs e.bits_per_sample channels
    let channels_MSB := extract_MSBs e.bits_per_sample channels
    if channels.length = 1 then
      write_non_interlaced_frame e analysis uncompressed_LSBs LSBs channels_MSB
    else
      leftweight_search
        (fun leftweight =>
          write_interlaced_frame e analysis uncompressed_LSBs LSBs INTERLACING_SHIFT leftweight
            channels_MSB)
        (leftweights e.options) UINT_MAX e.best_interlaced_frame

/-- Embedding of `write_uncompressed_frame`: the bits written to `bs`. -/
def write_uncompressed_frame (e : alac_context) (channels : List (List Int)) : Bits :=
  let channel0 := channels.getD 0 []
  write 16 0 ++
  (if channel0.length = e.options.block_size then write 1 0 else write 1 1) ++
  write 2 0 ++
  write 1 1 ++
  (if channel0.length ≠ e.options.block_size then write 32 channel0.length else []) ++
  (List.range channel0.length).flatMap fun i =>
    (List.range channels.length).flatMap fun c =>
      write_signed e.bits_per_sample ((channels.getD c []).getD i 0)

/-- Embedding of `write_frame`: the bits written to `bs`, or `none` when an `assert` stops the program.
The compressed frame is composed in the recorder `compressed_frame` and copied to `bs` only
when `write_compressed_frame` returns. -/
def write_frame (e : alac_context) (analysis : lpc_analysis) (channels : List (List Int)) :
    Option Bits :=
  if ¬ (channels.length = 1 ∨ channels.length = 2) then none
  else
    if (channels.getD 0 []).length ≥ 10 then
      match write_compressed_frame e analysis channels with
      | .ok compressed_frame => some (write 3 (channels.length - 1) ++ compressed_frame)
      | .residual_overflow =>
        some (write 3 (channels.length - 1) ++ write_uncompressed_frame e channels)
      | .abort => none
    else
      some (write 3 (channels.length - 1) ++ write_uncompressed_frame e channels)

/-! ## Frameset dispatcher -/

/-- Embedding of `extract_1ch`: the frameset after the swap and the one-channel `pair`. -/
def extract_1ch (frameset : List (List Int)) (channel : Nat) :
    List (List Int) × List (List Int) :=
  (frameset.set channel [], [frameset.getD channel []])

/-- Embedding of `extract_2ch`: the frameset after the two swaps and the two-channel `pair`. -/
def extract_2ch (frameset : List (List Int)) (channel0 channel1 : Nat) :
    List (List Int) × List (List Int) :=
  ((frameset.set channel0 []).set channel1 [],
    [frameset.getD channel0 [], (frameset.set channel0 []).getD channel1 []])

/-- The `default:` loop of `write_frameset` from index `i`, `n` iterations: the arguments of
its `write_frame` calls. -/
def extract_each (n : Nat) (i : Nat) (frameset : List (List Int)) : List (List (List Int)) :=
  match n with
  | 0 => []
  | n + 1 =>
    (extract_1ch frameset i).2 :: extract_each n (i + 1) (extract_1ch frameset i).1

/-- The `switch (channels->len)` of `write_frameset`: the channel sets passed to `write_frame`,
in call order. -/
def frameset_frames (channels : List (List Int)) : List (List (List Int)) :=
  match channels.length with
  | 1 => [channels]
  | 2 => [channels]
  | 3 =>
    let s1 := extract_1ch channels 2
    let s2 := extract_2ch s1.1 0 1
    [s1.2, s2.2]
  | 4 =>
    let s1 := extract_1ch channels 2
    let s2 := extract_2ch s1.1 0 1
    let s3 := extract_1ch s2.1 3
    [s1.2, s2.2, s3.2]
  | 5 =>
    let s1 := extract_1ch channels 2
    let s2 := extract_2ch s1.1 0 1
    let s3 := extract_2ch s2.1 3 4
    [s1.2, s2.2, s3.2]
  | 6 =>
    let s1 := extract_1ch channels 2
    let s2 := extract_2ch s1.1 0 1
    let s3 := extract_2ch s2.1 4 5
    let s4 := extract_1ch s3.1 3
    [s1.2, s2.2, s3.2, s4.2]
  | 7 =>
    let s1 := extract_1ch channels 2
    let s2 := extract_2ch s1.1 0 1
    let s3 := extract_2ch s2.1 4 5
    let s4 := extract_1ch s3.1 6
    let s5 := extract_1ch s4.1 3
    [s1.2, s2.2, s3.2, s4.2, s5.2]
  | 8 =>
    let s1 := extract_1ch channels 2
    let s2 := extract_2ch s1.1 6 7
    let s3 := extract_2ch s2.1 0 1
    let s4 := extract_2ch s3.1 4 5
    let s5 := extract_1ch s4.1 3
    [s1.2, s2.2, s3.2, s4.2, s5.2]
  | _ => extract_each channels.length 0 channels

/-- The successive `write_frame` calls of `write_frameset` on the same sink. -/
def write_frames (e : alac_context) (analysis : lpc_analysis) :
    List (List (List Int)) → Option Bits
  | [] => some []
  | frame :: more =>
    match write_frame e analysis frame with
    | some bits =>
      match write_frames e analysis more with
      | some rest => some (bits ++ rest)
      | none => none
    | none => none

/-- Embedding of `write_frameset` on a sink that holds `pos` bits: the bits it appends, or `none` when an
`assert` stops the program. -/
def write_frameset (pos : Nat) (e : alac_context) (analysis : lpc_analysis)
    (channels : List (List Int)) : Option Bits :=
  match write_frames e analysis (frameset_frames channels) with
  | some frames =>
    some (frames ++ write 3 7 ++ byte_align (pos + (frames ++ write 3 7).length))
  | none => none

/-! ## Vocabulary of the statements -/

/-- The folded value of a residual in the words of the specification (4.2 step 1):
`u = 2r` if `r >= 0`, else `u = -2r - 1`. -/
def spec_fold (r : Int) : Int := if r ≥ 0 then 2 * r else -2 * r - 1

/-- The values of the C type `int`. -/
def is_int (x : Int) : Prop := -2147483648 ≤ x ∧ x < 2147483648

instance (x : Int) : Decidable (is_int x) := by unfold is_int; infer_instance

/-- The reference adaptive parameters (initial history 10, history multiplier 40) with any
`maximum_k >= 1`. -/
def reference_parameters (o : alac_encoding_options) : Prop :=
  o.initial_history = 10 ∧ o.history_multiplier = 40 ∧ 1 ≤ o.maximum_k

instance (o : alac_encoding_options) : Decidable (reference_parameters o) := by
  unfold reference_parameters; infer_instance

/-- The sub-frames of a frameset as source channel indices, in the words of the specification
(table of 4.8). -/
def spec_layout (C : Nat) : List (List Nat) :=
  match C with
  | 1 => [[0]]
  | 2 => [[0, 1]]
  | 3 => [[2], [0, 1]]
  | 4 => [[2], [0, 1], [3]]
  | 5 => [[2], [0, 1], [3, 4]]
  | 6 => [[2], [0, 1], [4, 5], [3]]
  | 7 => [[2], [0, 1], [4, 5], [6], [3]]
  | 8 => [[2], [6, 7], [0, 1], [4, 5], [3]]
  | C => (List.range C).map fun i => [i]

/-- The channels of a block selected by a list of source channel indices. -/
def select_channels (channels : List (List Int)) (group : List Nat) : List (List Int) :=
  group.map fun index => channels.getD index []

/-- The call of `write_interlaced_frame` that the leftweight loop of `write_compressed_frame`
makes for one leftweight: on the channels themselves when `bits_per_sample <= 16`, else on
`channels_MSB` with the extracted `LSBs`. -/
def interlaced_candidate (e : alac_context) (analysis : lpc_analysis)
    (channels : List (List Int)) (leftweight : Nat) : Outcome Bits :=
  if e.bits_per_sample ≤ 16 then
    write_interlaced_frame e analysis 0 [] INTERLACING_SHIFT leftweight channels
  else
    write_interlaced_frame e analysis ((e.bits_per_sample - 16) / 8)
      (extract_LSBs e.bits_per_sample channels) INTERLACING_SHIFT leftweight
      (extract_MSBs e.bits_per_sample channels)

/-- A result that, when it is a recorder, holds fewer than `n` bits. -/
def shorter_than (x : Outcome Bits) (n : Nat) : Prop :=
  match x with
  | .ok recorder => bits_written recorder < n
  | _ => True

instance (x : Outcome Bits) (n : Nat) : Decidable (shorter_than x n) := by
  unfold shorter_than; split <;> infer_instance

/-- The unsigned number a bit field denotes, most significant bit first. -/
def bits_value (bits : Bits) : Nat :=
  bits.foldl (fun acc b => 2 * acc + (if b then 1 else 0)) 0

/-- The frame header of a compressed frame in the words of the specification (4.5): 16 zero
bits, 1 bit that is 0 iff `L == block_size`, 2 bits `uncompressed_LSBs`, 1 bit 0 (compressed),
32 bits `L` only when `L != block_size`, 8 bits interlacing shift, 8 bits interlacing
leftweight. -/
def spec_frame_header (block_size L uncompressed_LSBs interlacing_shift
    interlacing_leftweight : Nat) : Bits :=
  List.replicate 16 false ++ [decide (L ≠ block_size)] ++ write 2 uncompressed_LSBs ++
    [false] ++ (if L ≠ block_size then write 32 L else []) ++ write 8 interlacing_shift ++
    write 8 interlacing_leftweight

/-- The prediction for sample `M + 1` in the words of the specification (4.3), with the unrefined
coefficients: `((1 << 8) + sum over j < M of q[j] * (s[M - j] - s[0])) >> 9`. -/
def spec_first_prediction (s q : List Int) (M : Nat) : Int :=
  (256 + ((List.range M).map fun j => q.getD j 0 * (s.getD (M - j) 0 - s.getD 0 0)).sum) >>>
    (9 : Nat)

/-! ## Quantisation of the LP coefficients

`quantize_coefficients` works on doubles; they are modelled by exact rationals, so the
statements about it are statements about the arithmetic the code asks for, not about the
rounding of double operations. -/

/-- The C library function `round`: the nearest integer, halfway cases away from zero. -/
def round_half_away (x : ℚ) : Int :=
  if 0 ≤ x then ⌊x + 1 / 2⌋ else -⌊-x + 1 / 2⌋

/-- The loop of `quantize_coefficients` over the coefficients `lp_coeffs->_[i]` still to
visit, with the running `error`.  The conversion `(int)round(error)` is undefined when the
rounded value is not a value of `int`; the embedding aborts there. -/
def quantize_loop : List ℚ → ℚ → Outcome (List Int)
  | [], _ => .ok []
  | lp_coeff :: rest, error =>
    let error := error + lp_coeff * 512
    if is_int (round_half_away error) then
      let error_i := round_half_away error
      (quantize_loop rest (error - (error_i : ℚ))).bind fun qlp_coefficients =>
      .ok (min (max error_i (-32768)) 32767 :: qlp_coefficients)
    else .abort

/-- Embedding of `quantize_coefficients`: the list appended to `qlp_coefficients`, with
`lp_coeffs = lp_coefficients->_[order - 1]`; the `assert` is kept, and `order == 0`, for which
the unsigned index `order - 1` is outside every list, aborts. -/
def quantize_coefficients (lp_coefficients : List (List ℚ)) (order : Nat) :
    Outcome (List Int) :=
  if order = 0 then .abort
  else
    let lp_coeffs := lp_coefficients.getD (order - 1) []
    if lp_coeffs.length ≠ order then .abort
    else quantize_loop lp_coeffs 0

/-- The running error of the quantisation in the words of the claim, started at `error`: after
coefficient `i` it is the sum `e` of the previous running error and `a[i] * 2^9`, minus the
unclamped round-half-away-from-zero of `e`. -/
def spec_running_error_from (error : ℚ) (a : List ℚ) : Nat → ℚ
  | 0 => error
  | i + 1 =>
    spec_running_error_from error a i + a.getD i 0 * 512 -
      (round_half_away (spec_running_error_from error a i + a.getD i 0 * 512) : ℚ)

/-- The running error before coefficient `i`, started at 0. -/
def spec_running_error (a : List ℚ) (i : Nat) : ℚ := spec_running_error_from 0 a i

/-! ## Working coefficients of the residualizer -/

/-- The second loop of `calculate_residuals` once more, returning for each iteration the
residual it appends together with the working copy `coefficients` as the refinement of that
iteration leaves it. -/
def calculate_residuals_steps (samples : List Int) (sample_size coeff_count : Nat) :
    Nat → Nat → List Int → List (Int × List Int)
  | 0, _, _ => []
  | n + 1, i, coefficients =>
    let base_sample := samples.getD (i - coeff_count - 1) 0
    let sum := lpc_sum samples coefficients i coeff_count base_sample >>> (9 : Nat)
    let error := TRUNCATE_BITS (samples.getD i 0 - base_sample - int32 sum) sample_size
    let coefficients1 :=
      if error > 0 then
        refine_positive samples i coeff_count base_sample coeff_count 0 error coefficients
      else if error < 0 then
        refine_negative samples i coeff_count base_sample coeff_count 0 error coefficients
      else coefficients
    (error, coefficients1) ::
      calculate_residuals_steps samples sample_size coeff_count n (i + 1) coefficients1

/-- The successive states of the working copy `coefficients` in `calculate_residuals`, one per
sample of the second loop (there is none when `coeff_count >= 31`). -/
def working_coefficients (samples : List Int) (sample_size : Nat) (qlp_coefficients : List Int) :
    List (List Int) :=
  if qlp_coefficients.length < 31 then
    (calculate_residuals_steps samples sample_size qlp_coefficients.length
      (samples.length - (qlp_coefficients.length + 1)) (qlp_coefficients.length + 1)
      qlp_coefficients).map Prod.snd
  else []

/-- The calls of `write_residual` that the loop of `encode_residuals` makes, as triples
(value, k, sample_size) in call order; the list ends where the loop leaves through `longjmp`
or stops at a failed `assert`, and a call whose divisor `(1 << k) - 1` is zero is the last. -/
def encode_residuals_calls (o : alac_encoding_options) (sample_size : Nat) :
    Nat → Int → Nat → List Int → List (Nat × Nat × Nat)
  | 0, _, _, _ => []
  | _ + 1, _, _, [] => []
  | fuel + 1, history, sign_modifier, r :: rest =>
    let unsigned_i := fold_residual r
    if unsigned_i ≥ 1 <<< sample_size then []
    else
      match LOG2 (uint32 ((history >>> (9 : Nat)) + 3)) with
      | .ok l =>
        let k := min l o.maximum_k
        let call := (uint32 ((unsigned_i : Int) - sign_modifier), k, sample_size)
        if (1 <<< k) - 1 = 0 then [call]
        else if unsigned_i ≤ 0xFFFF then
          let history1 := history +
            (int32 ((unsigned_i * o.history_multiplier : Nat) : Int) -
              ((history * int32 o.history_multiplier) >>> (9 : Nat)))
          if history1 < 128 ∧ rest ≠ [] then
            match LOG2 (uint32 history1) with
            | .ok l0 =>
              let k0 :=
                min (uint32 (7 - (l0 : Int) + (uint32 ((history1 + 16) >>> (6 : Nat)) : Int)))
                  o.maximum_k
              let zeroes := (rest.takeWhile (fun x => decide (x = 0))).length
              if (1 <<< k0) - 1 = 0 then [call, (zeroes, k0, 16)]
              else
                call :: (zeroes, k0, 16) ::
                  encode_residuals_calls o sample_size fuel 0 (if zeroes < 0xFFFF then 1 else 0)
                    (rest.dropWhile (fun x => decide (x = 0)))
            | _ => [call]
          else call :: encode_residuals_calls o sample_size fuel history1 0 rest
        else call :: encode_residuals_calls o sample_size fuel 0xFFFF 0 rest
      | _ => []

/-! ## Tukey window cache -/

/-- The values the `if` block of `window_signal` appends to `tukey_window` for `N` samples:
`tukey N n` stands for the floating-point expression computed for index `n`, which reads
only `n` and `N`. -/
def tukey_values {D : Type} (tukey : Nat → Nat → D) (N : Nat) : List D :=
  (List.range N).map (tukey N)

/-- Embedding of `window_signal` over an abstract type `D` of doubles: `tukey_window` afterwards
and the list `windowed_signal`; `scale s w` stands for the product `samples->_[n] *
tukey_window->_[n]`. -/
def window_signal {D : Type} (tukey : Nat → Nat → D) (scale : Int → D → D)
    (tukey_window : List D) (samples : List Int) : List D × List D :=
  let tukey_window1 :=
    if tukey_window.length ≠ samples.length then tukey_values tukey samples.length
    else tukey_window
  (tukey_window1, List.zipWith scale samples tukey_window1)

/-- The cache `tukey_window` after successive calls of `window_signal` on the given sample
lists. -/
def window_signal_calls {D : Type} (tukey : Nat → Nat → D) (scale : Int → D → D)
    (tukey_window : List D) (calls : List (List Int)) : List D :=
  calls.foldl (fun cache samples => (window_signal tukey scale cache samples).1) tukey_window

/-- The analysis of `compute_coefficients` with the cache made explicit: `window_signal` on
the cache `tukey_window`, then `rest` for `autocorrelate`, the test of
`autocorrelation_values->_[0]`, `compute_lp_coefficients` and `quantize_coefficients`, all of
which reset the buffers they fill. -/
def cached_analysis {D : Type} (tukey : Nat → Nat → D) (scale : Int → D → D)
    (rest : List D → Option qlp_orders) (tukey_window : List D) : lpc_analysis :=
  fun samples => rest (window_signal tukey scale tukey_window samples).2

/-! ## Driver -/

/-- Modelled from the spec: one result of `pcmreader->read` (spec 6): the number of PCM frames
read and the interleaved buffer `samples`. -/
structure pcm_read where
  pcm_frames_read : Nat
  samples : List Int
deriving DecidableEq, Repr

/-- Modelled from the spec: `get_sample(samples, c, channel_count, i)`, which `alac.c` uses
without defining it: the sample of channel `c` in PCM frame `i` of an interleaved buffer
(spec 6: frame-major, channel-minor). -/
def get_sample (samples : List Int) (c channel_count i : Nat) : Int :=
  samples.getD (i * channel_count + c) 0

/-- Modelled from the spec: the callback `byte_counter` registered on the output (spec 4.1,
running count callback): the number of bytes completed while `bits` are appended to a sink
that holds `pos` bits. -/
def byte_counter (pos : Nat) (bits : Bits) : Nat :=
  (pos + bits.length) / 8 - pos / 8

/-- A record of the linked list `struct alac_frame_size`; the list itself is a `List`, head
first. -/
structure alac_frame_size where
  byte_size : Nat
  pcm_frames_size : Nat
deriving DecidableEq, Repr

/-- Embedding of `push_frame_size`. -/
def push_frame_size (head : List alac_frame_size) (byte_size pcm_frames_size : Nat) :
    List alac_frame_size :=
  ⟨byte_size, pcm_frames_size⟩ :: head

/-- The `while (top)` loop of `reverse_frame_sizes`: `head` is the list still to move and
`reversed` the list built so far. -/
def reverse_frame_sizes_loop :
    List alac_frame_size → List alac_frame_size → List alac_frame_size
  | [], reversed => reversed
  | top :: head, reversed => reverse_frame_sizes_loop head (top :: reversed)

/-- Embedding of `reverse_frame_sizes`. -/
def reverse_frame_sizes (head : List alac_frame_size) : List alac_frame_size :=
  reverse_frame_sizes_loop head []

/-- The conversion of one read into `channels` in the loop of `encode_alac`. -/
def read_channels (channel_count : Nat) (r : pcm_read) : List (List Int) :=
  (List.range channel_count).map fun c =>
    (List.range r.pcm_frames_read).map fun i => get_sample r.samples c channel_count i

/-- The `while ((pcm_frames_read = pcmreader->read(...)) > 0)` loop of `encode_alac` over the
results of the successive reads (the end of the list stands for a read that returns 0):
the output and `frame_sizes` after the loop, or `none` when an `assert` stops the program.
`scratch n` is what the recorder `best_interlaced_frame` holds when block `n` is encoded,
which the embedding leaves unspecified; `frame_byte_size` is an `unsigned`. -/
def encode_alac_loop (o : alac_encoding_options) (bits_per_sample channel_count : Nat)
    (analysis : lpc_analysis) (scratch : Nat → Bits) :
    List pcm_read → Nat → Bits → List alac_frame_size → Option (Bits × List alac_frame_size)
  | [], _, output, frame_sizes => some (output, frame_sizes)
  | r :: more, n, output, frame_sizes =>
    if r.pcm_frames_read > 0 then
      match write_frameset output.length ⟨o, bits_per_sample, scratch n⟩ analysis
          (read_channels channel_count r) with
      | some frameset =>
        encode_alac_loop o bits_per_sample channel_count analysis scratch more (n + 1)
          (output ++ frameset)
          (push_frame_size frame_sizes (byte_counter output.length frameset % 4294967296)
            r.pcm_frames_read)
      | none => none
    else some (output, frame_sizes)

/-- The loop of `encode_alac` that adds up `total_mdat_size`, an `unsigned` started at 8. -/
def total_mdat_size (frame_sizes : List alac_frame_size) : Nat :=
  frame_sizes.foldl (fun total frame_size => (total + frame_size.byte_size) % 4294967296) 8

/-- The placeholder `mdat` header `encode_alac` writes first: 32 zero bits and the four bytes
of "mdat". -/
def mdat_placeholder : Bits :=
  write 32 0 ++ (write 8 0x6D ++ write 8 0x64 ++ write 8 0x61 ++ write 8 0x74)

/-- Embedding of `encode_alac`, on an output whose position `mdat_header` is its start: the
content of the output from that position and the returned list (`none` for `NULL`), or `none`
when an `assert` stops the program.  `status_ok` is `pcmreader->status == PCM_OK` after the
loop; the options are the values of the `unsigned` fields they are stored in. -/
def encode_alac (reads : List pcm_read) (status_ok : Bool) (channel_count bits_per_sample : Nat)
    (block_size initial_history history_multiplier maximum_k : Nat)
    (analysis : lpc_analysis) (scratch : Nat → Bits) :
    Option (Bits × Option (List alac_frame_size)) :=
  match encode_alac_loop ⟨block_size, initial_history, history_multiplier, maximum_k, 0, 4⟩
      bits_per_sample channel_count analysis scratch reads 0 mdat_placeholder [] with
  | some (output, frame_sizes) =>
    if status_ok then
      some (write 32 (total_mdat_size frame_sizes) ++ output.drop 32,
        some (reverse_frame_sizes frame_sizes))
    else some (output, none)
  | none => none

/-- The values of a sample of `B` bits: `[-2^(B-1), 2^(B-1))`. -/
def sample_range (B : Nat) (x : Int) : Prop := -(2 : Int) ^ (B - 1) ≤ x ∧ x < 2 ^ (B - 1)

instance (B : Nat) (x : Int) : Decidable (sample_range B x) := by
  unfold sample_range; infer_instance

/-! ## Loop states of the residual coder -/

/-- One iteration of the `while (i < residuals->len)` loop of `encode_residuals`: `history`
and `sign_modifier` at the top of the iteration, the residual `residuals->_[i]`, whether the
call `write_residual(unsigned_i - sign_modifier, ...)` is reached, the value of `history`
after the statement that updates it (`history += ...` or `history = 0xFFFF`) when that
statement is reached, and whether `LOG2(history)` of the zero-run branch is evaluated (on
that updated value). -/
structure residual_iteration where
  history : Int
  sign_modifier : Nat
  residual : Int
  called : Bool
  updated : Option Int
  zero_run : Bool
deriving DecidableEq, Repr

/-- The iterations of the loop of `encode_residuals` in order; the list ends with the
iteration in which the loop leaves through `longjmp`, stops at a failed `assert` or divides
by zero. -/
def encode_residuals_iterations (o : alac_encoding_options) (sample_size : Nat) :
    Nat → Int → Nat → List Int → List residual_iteration
  | 0, _, _, _ => []
  | _ + 1, _, _, [] => []
  | fuel + 1, history, sign_modifier, r :: rest =>
    let unsigned_i := fold_residual r
    if unsigned_i ≥ 1 <<< sample_size then [⟨history, sign_modifier, r, false, none, false⟩]
    else
      match LOG2 (uint32 ((history >>> (9 : Nat)) + 3)) with
      | .ok l =>
        let k := min l o.maximum_k
        if (1 <<< k) - 1 = 0 then [⟨history, sign_modifier, r, true, none, false⟩]
        else if unsigned_i ≤ 0xFFFF then
          let history1 := history +
            (int32 ((unsigned_i * o.history_multiplier : Nat) : Int) -
              ((history * int32 o.history_multiplier) >>> (9 : Nat)))
          if history1 < 128 ∧ rest ≠ [] then
            ⟨history, sign_modifier, r, true, some history1, true⟩ ::
              match LOG2 (uint32 history1) with
              | .ok l0 =>
                let k0 :=
                  min (uint32 (7 - (l0 : Int) + (uint32 ((history1 + 16) >>> (6 : Nat)) : Int)))
                    o.maximum_k
                let zeroes := (rest.takeWhile (fun x => decide (x = 0))).length
                if (1 <<< k0) - 1 = 0 then []
                else
                  encode_residuals_iterations o sample_size fuel 0
                    (if zeroes < 0xFFFF then 1 else 0)
                    (rest.dropWhile (fun x => decide (x = 0)))
              | _ => []
          else
            ⟨history, sign_modifier, r, true, some history1, false⟩ ::
              encode_residuals_iterations o sample_size fuel history1 0 rest
        else
          ⟨history, sign_modifier, r, true, some 0xFFFF, false⟩ ::
            encode_residuals_iterations o sample_size fuel 0xFFFF 0 rest
      | _ => [⟨history, sign_modifier, r, false, none, false⟩]

/-! ## Sample indices of the compressed path -/

/-- The constant `MAX_LPC_ORDER`. -/
def MAX_LPC_ORDER : Nat := 8

/-- The indices at which `calculate_residuals` subscripts `samples`, for `samples->len = len`
and `coeff_count` coefficients, with every `j` of the inner loops (the refinement loops may
stop earlier).  The index expressions are unsigned in C; they are computed in `Int` here, so
that an expression that would wrap shows as a negative index. -/
def calculate_residuals_indices (len coeff_count : Nat) : List Int :=
  (0 : Int) ::
    if coeff_count < 31 then
      ((List.range coeff_count).flatMap fun t =>
        [((t + 1 : Nat) : Int), ((t + 1 : Nat) : Int) - 1]) ++
      (List.range (len - (coeff_count + 1))).flatMap fun n =>
        [((coeff_count + 1 + n : Nat) : Int) - coeff_count - 1] ++
        ((List.range coeff_count).map fun (j : Nat) =>
          ((coeff_count + 1 + n : Nat) : Int) - (j : Int) - 1) ++
        [((coeff_count + 1 + n : Nat) : Int)] ++
        ((List.range coeff_count).map fun (j : Nat) =>
          ((coeff_count + 1 + n : Nat) : Int) - coeff_count + (j : Int))
    else
      (List.range (len - 1)).flatMap fun t =>
        [((t + 1 : Nat) : Int), ((t + 1 : Nat) : Int) - 1]

/-- The loop of `autocorrelate` over the lags still to visit, for `windowed_signal->len =
len`: the indices `i` and `i + lag` at which it subscripts `windowed_signal`, or `abort` when
`assert((windowed_signal->len - lag) > 0)` fails; `len - lag` is unsigned arithmetic. -/
def autocorrelate_reads_from (len : Nat) : List Nat → Outcome (List Int)
  | [] => .ok []
  | lag :: lags =>
    if uint32 ((len : Int) - lag) > 0 then
      (autocorrelate_reads_from len lags).bind fun more =>
      .ok (((List.range (uint32 ((len : Int) - lag))).flatMap fun i =>
        [(i : Int), ((i + lag : Nat) : Int)]) ++ more)
    else .abort

/-- The subscripts of `autocorrelate` for the lags `0 ..= MAX_LPC_ORDER`. -/
def autocorrelate_reads (len : Nat) : Outcome (List Int) :=
  autocorrelate_reads_from len (List.range (MAX_LPC_ORDER + 1))

end Alac

namespace Alac

/-! ## Bit sink lemmas -/

theorem write_length (n value : Nat) : (write n value).length = n := by
  simp [write]

theorem write_zero_value (n : Nat) : write n 0 = List.replicate n false := by
  apply List.ext_getElem
  · simp [write]
  · intro i h1 h2
    simp [write]

theorem write_signed_length (n : Nat) (value : Int) : (write_signed n value).length = n := by
  simp [write_signed, write_length]

theorem write_unary_length (stop_bit count : Nat) :
    (write_unary stop_bit count).length = count + 1 := by
  simp [write_unary]

theorem byte_align_length_lt (pos : Nat) : (byte_align pos).length < 8 := by
  simp only [byte_align, List.length_replicate]
  omega

theorem byte_align_aligned (pos : Nat) : (pos + (byte_align pos).length) % 8 = 0 := by
  simp only [byte_align, List.length_replicate]
  omega

theorem divisor_pos (k : Nat) (hk : 1 ≤ k) : (1 <<< k) - 1 ≠ 0 := by
  have h : 2 ^ 1 ≤ 2 ^ k := Nat.pow_le_pow_right (by decide) hk
  rw [Nat.one_shiftLeft]
  omega

/-! ## C8, C9: `write_residual` -/

/-- C8 (as stated, refuted): for value 5 and k = 2 (MSB = 1, LSB = 2) the claim predicts one
zero bit, a one bit and the field 11; `write_residual` writes one one-bit, a zero bit and the
field 11. -/
theorem write_residual_unary_stop_bit_counterexample :
    write_residual 5 2 16 = .ok [true, false, true, true] ∧
    write_residual 5 2 16 ≠
      .ok (List.replicate (5 / (2 ^ 2 - 1)) false ++ [true] ++ write 2 (5 % (2 ^ 2 - 1) + 1)) := by
  decide

/-- C8 (amended): for every value, every k >= 1 and every sample_size, with
MSB = value / (2^k - 1) <= 8 and LSB = value mod (2^k - 1), `write_residual` completes and
writes MSB one bits followed by a single zero bit (unary with stop bit 0), and then, if k > 1,
LSB + 1 as a k-bit field when LSB > 0 and otherwise k - 1 zero bits. -/
theorem write_residual_unary (value k sample_size : Nat) (hk : 1 ≤ k)
    (hmsb : value / (2 ^ k - 1) ≤ 8) :
    write_residual value k sample_size =
      .ok (List.replicate (value / (2 ^ k - 1)) true ++ [false] ++
        (if k > 1 then
          (if value % (2 ^ k - 1) > 0 then write k (value % (2 ^ k - 1) + 1)
           else List.replicate (k - 1) false)
         else [])) := by
  have hd := divisor_pos k hk
  rw [Nat.one_shiftLeft] at hd
  simp only [write_residual, Nat.one_shiftLeft, hd, if_false, write_unary, write_zero_value]
  rw [if_neg (by omega)]
  simp

theorem write_residual_unary_witness :
    1 ≤ 2 ∧ 5 / (2 ^ 2 - 1) ≤ 8 ∧
    write_residual 5 2 16 =
      .ok (List.replicate (5 / (2 ^ 2 - 1)) true ++ [false] ++
        (if 2 > 1 then
          (if 5 % (2 ^ 2 - 1) > 0 then write 2 (5 % (2 ^ 2 - 1) + 1)
           else List.replicate (2 - 1) false)
         else [])) :=
  ⟨by decide, by decide, write_residual_unary 5 2 16 (by decide) (by decide)⟩

/-- C9: for every value, every k >= 1 and every sample_size with value / (2^k - 1) > 8,
`write_residual` completes and writes exactly nine one bits (the field 0x1FF) followed by
value as a sample_size-bit field, 9 + sample_size bits in total. -/
theorem write_residual_escape (value k sample_size : Nat) (hk : 1 ≤ k)
    (hmsb : value / (2 ^ k - 1) > 8) :
    write 9 0x1FF = List.replicate 9 true ∧
    write_residual value k sample_size =
      .ok (List.replicate 9 true ++ write sample_size value) ∧
    (List.replicate 9 true ++ write sample_size value).length = 9 + sample_size := by
  have hd := divisor_pos k hk
  rw [Nat.one_shiftLeft] at hd
  have h9 : write 9 0x1FF = List.replicate 9 true := by decide
  refine ⟨h9, ?_, by simp [write_length]; omega⟩
  simp only [write_residual, Nat.one_shiftLeft, hd, if_false, h9]
  rw [if_pos hmsb]

theorem write_residual_escape_witness :
    1 ≤ 3 ∧ 100 / (2 ^ 3 - 1) > 8 ∧
    write_residual 100 3 16 = .ok (List.replicate 9 true ++ write 16 100) :=
  ⟨by decide, by decide, (write_residual_escape 100 3 16 (by decide) (by decide)).2.1⟩

end Alac

namespace Alac

/-! ## Sequencing lemmas -/

theorem Outcome.ok_bind {α β : Type} (a : α) (f : α → Outcome β) :
    (Outcome.ok a).bind f = f a := rfl

theorem Outcome.bind_eq_ok {α β : Type} (x : Outcome α) (f : α → Outcome β) (b : β) :
    x.bind f = .ok b ↔ ∃ a, x = .ok a ∧ f a = .ok b := by
  cases x <;> simp [Outcome.bind]

theorem Outcome.bind_eq_overflow {α β : Type} (x : Outcome α) (f : α → Outcome β) :
    x.bind f = .residual_overflow ↔
      x = .residual_overflow ∨ ∃ a, x = .ok a ∧ f a = .residual_overflow := by
  cases x <;> simp [Outcome.bind]

theorem Outcome.bind_eq_abort {α β : Type} (x : Outcome α) (f : α → Outcome β) :
    x.bind f = .abort ↔ x = .abort ∨ ∃ a, x = .ok a ∧ f a = .abort := by
  cases x <;> simp [Outcome.bind]

/-! ## `LOG2` -/

theorem LOG2_loop_zero (fuel bits : Nat) : LOG2_loop fuel 0 bits = bits := by
  cases fuel <;> simp [LOG2_loop]

theorem LOG2_loop_bounds (fuel : Nat) :
    ∀ value bits, value ≠ 0 → value ≤ fuel →
      ∃ l, LOG2_loop fuel value bits = bits + l + 1 ∧ 2 ^ l ≤ value ∧ value < 2 ^ (l + 1) := by
  induction fuel with
  | zero => intro value bits h0 hle; omega
  | succ fuel ih =>
    intro value bits h0 hle
    simp only [LOG2_loop, if_neg h0, Nat.shiftRight_eq_div_pow, pow_one]
    by_cases h2 : value / 2 = 0
    · refine ⟨0, ?_, ?_, ?_⟩
      · rw [h2, LOG2_loop_zero]
      · simp; omega
      · simp; omega
    · obtain ⟨l, hl, hlo, hhi⟩ := ih (value / 2) (bits + 1) h2 (by omega)
      refine ⟨l + 1, ?_, ?_, ?_⟩
      · rw [hl]; omega
      · rw [pow_succ]; omega
      · rw [pow_succ]; omega

theorem LOG2_eq (value : Nat) (h : 0 < value) : LOG2 value = .ok (Nat.log2 value) := by
  obtain ⟨l, hl, hlo, hhi⟩ := LOG2_loop_bounds value value 0 (by omega) (le_refl _)
  have hne : value ≠ 0 := by omega
  have h1 : l ≤ Nat.log2 value := (Nat.le_log2 hne).2 hlo
  have h2 : Nat.log2 value < l + 1 := (Nat.log2_lt hne).2 hhi
  simp only [LOG2, h, if_true, hl]
  congr 1
  omega

theorem LOG2_ne_overflow (value : Nat) : LOG2 value ≠ .residual_overflow := by
  unfold LOG2
  split <;> simp

theorem write_residual_ne_overflow (value k sample_size : Nat) :
    write_residual value k sample_size ≠ .residual_overflow := by
  unfold write_residual
  simp only
  split
  · simp
  · split <;> simp

theorem write_residual_ok (value k sample_size : Nat) (hk : 1 ≤ k) :
    ∃ code, write_residual value k sample_size = .ok code := by
  have hd := divisor_pos k hk
  unfold write_residual
  simp only [hd, if_false]
  split <;> exact ⟨_, rfl⟩

/-! ## C10: `encode_residuals` -/

theorem fold_residual_eq_spec (r : Int) (h : is_int r) : (fold_residual r : Int) = spec_fold r := by
  unfold is_int at h
  unfold fold_residual spec_fold uint32
  by_cases h0 : r ≥ 0
  · rw [if_pos h0, if_pos h0]; omega
  · rw [if_neg h0, if_neg h0]; omega

theorem fold_residual_zero : fold_residual 0 = 0 := by decide

theorem encode_residuals_loop_fuel (o : alac_encoding_options) (sample_size : Nat) (f1 : Nat) :
    ∀ (f2 : Nat) (history : Int) (sign_modifier : Nat) (remaining : List Int),
      remaining.length ≤ f1 → remaining.length ≤ f2 →
      encode_residuals_loop o sample_size f1 history sign_modifier remaining =
        encode_residuals_loop o sample_size f2 history sign_modifier remaining := by
  induction f1 with
  | zero =>
    intro f2 history sign_modifier remaining h1 h2
    have : remaining = [] := List.length_eq_zero.mp (by omega)
    subst this
    cases f2 <;> simp [encode_residuals_loop]
  | succ n1 ih =>
    intro f2 history sign_modifier remaining h1 h2
    cases remaining with
    | nil => cases f2 <;> simp [encode_residuals_loop]
    | cons r rest =>
      cases f2 with
      | zero => simp at h2
      | succ n2 =>
        simp only [List.length_cons, Nat.add_le_add_iff_right] at h1 h2
        have hd : ∀ m, rest.length ≤ m →
            (rest.dropWhile (fun x => decide (x = 0))).length ≤ m := fun m hm =>
          le_trans (List.dropWhile_suffix _).length_le hm
        simp only [encode_residuals_loop]
        rw [ih n2 _ _ rest h1 h2, ih n2 _ _ rest h1 h2,
          ih n2 _ _ (rest.dropWhile (fun x => decide (x = 0))) (hd _ h1) (hd _ h2)]

theorem encode_residuals_loop_sound (o : alac_encoding_options) (sample_size : Nat) (fuel : Nat) :
    ∀ (history : Int) (sign_modifier : Nat) (remaining : List Int),
      remaining.length ≤ fuel →
      (encode_residuals_loop o sample_size fuel history sign_modifier remaining =
          .residual_overflow →
        ∃ r ∈ remaining, 1 <<< sample_size ≤ fold_residual r) ∧
      (∀ block, encode_residuals_loop o sample_size fuel history sign_modifier remaining =
          .ok block →
        ∀ r ∈ remaining, ¬ 1 <<< sample_size ≤ fold_residual r) := by
  induction fuel with
  | zero =>
    intro history sign_modifier remaining h
    have : remaining = [] := List.length_eq_zero.mp (by omega)
    subst this
    simp [encode_residuals_loop]
  | succ fuel ih =>
    intro history sign_modifier remaining h
    cases remaining with
    | nil => simp [encode_residuals_loop]
    | cons r rest =>
      simp only [List.length_cons, Nat.add_le_add_iff_right] at h
      have hdl : (rest.dropWhile (fun x => decide (x = 0))).length ≤ fuel :=
        le_trans (List.dropWhile_suffix _).length_le h
      have hsub : ∀ x ∈ rest.dropWhile (fun x => decide (x = 0)), x ∈ rest :=
        fun x hx => (List.dropWhile_suffix _).subset hx
      have hsplit : ∀ x ∈ rest, x = 0 ∨ x ∈ rest.dropWhile (fun x => decide (x = 0)) := by
        intro x hx
        rw [← List.takeWhile_append_dropWhile (fun x => decide (x = 0)) rest,
          List.mem_append] at hx
        rcases hx with hx | hx
        · left; simpa using List.mem_takeWhile_imp hx
        · right; exact hx
      have hzero : ¬ 1 <<< sample_size ≤ fold_residual 0 := by
        rw [fold_residual_zero, Nat.one_shiftLeft]
        have := Nat.pos_pow_of_pos sample_size (show 0 < 2 by decide)
        omega
      simp only [encode_residuals_loop]
      by_cases hov : fold_residual r ≥ 1 <<< sample_size
      · rw [if_pos hov]
        refine ⟨fun _ => ⟨r, List.mem_cons_self _ _, hov⟩, fun block hb => by simp at hb⟩
      · rw [if_neg hov]
        constructor
        · intro hres
          simp only [Outcome.bind_eq_overflow, LOG2_ne_overflow, write_residual_ne_overflow,
            false_or] at hres
          obtain ⟨l, -, code, -, hres⟩ := hres
          split at hres
          · split at hres
            · simp only [Outcome.bind_eq_overflow, LOG2_ne_overflow,
                write_residual_ne_overflow, false_or] at hres
              obtain ⟨l0, -, run, -, hres⟩ := hres
              rcases hres with hres | ⟨tail, -, hres⟩
              · obtain ⟨x, hx, hxo⟩ := (ih _ _ _ hdl).1 hres
                exact ⟨x, List.mem_cons_of_mem _ (hsub x hx), hxo⟩
              · simp at hres
            · simp only [Outcome.bind_eq_overflow] at hres
              rcases hres with hres | ⟨tail, -, hres⟩
              · obtain ⟨x, hx, hxo⟩ := (ih _ _ _ h).1 hres
                exact ⟨x, List.mem_cons_of_mem _ hx, hxo⟩
              · simp at hres
          · simp only [Outcome.bind_eq_overflow] at hres
            rcases hres with hres | ⟨tail, -, hres⟩
            · obtain ⟨x, hx, hxo⟩ := (ih _ _ _ h).1 hres
              exact ⟨x, List.mem_cons_of_mem _ hx, hxo⟩
            · simp at hres
        · intro block hres x hx
          rcases List.mem_cons.mp hx with rfl | hx
          · exact hov
          · simp only [Outcome.bind_eq_ok] at hres
            obtain ⟨l, -, code, -, hres⟩ := hres
            split at hres
            · split at hres
              · simp only [Outcome.bind_eq_ok] at hres
                obtain ⟨l0, -, run, -, tail, htail, -⟩ := hres
                rcases hsplit x hx with rfl | hxd
                · exact hzero
                · exact (ih _ _ _ hdl).2 tail htail x hxd
              · simp only [Outcome.bind_eq_ok] at hres
                obtain ⟨tail, htail, -⟩ := hres
                exact (ih _ _ _ h).2 tail htail x hx
            · simp only [Outcome.bind_eq_ok] at hres
              obtain ⟨tail, htail, -⟩ := hres
              exact (ih _ _ _ h).2 tail htail x hx

end Alac

namespace Alac

theorem fold_residual_pos (r : Int) (h : is_int r) (h0 : r ≠ 0) : 1 ≤ fold_residual r := by
  have := fold_residual_eq_spec r h
  unfold spec_fold at this
  unfold is_int at h
  by_cases hr : r ≥ 0
  · rw [if_pos hr] at this; omega
  · rw [if_neg hr] at this; omega

theorem history_update_bounds (history : Int) (u : Nat) (h0 : 0 ≤ history)
    (h1 : history ≤ 33554432) (hu : u ≤ 0xFFFF) (hpos : 1 ≤ history ∨ 1 ≤ u) :
    1 ≤ history + (int32 ((u * 40 : Nat) : Int) - ((history * int32 ((40 : Nat) : Int)) >>> (9 : Nat))) ∧
    history + (int32 ((u * 40 : Nat) : Int) - ((history * int32 ((40 : Nat) : Int)) >>> (9 : Nat)))
      ≤ 33554432 := by
  have e1 : int32 ((40 : Nat) : Int) = 40 := by decide
  have e2 : int32 ((u * 40 : Nat) : Int) = (u : Int) * 40 := by
    unfold int32
    push_cast
    omega
  rw [e1, e2, Int.shiftRight_eq_div_pow]
  norm_num
  omega

theorem main_k_bounds (history : Int) (h0 : 0 ≤ history) (h1 : history ≤ 33554432) :
    0 < uint32 ((history >>> (9 : Nat)) + 3) ∧ 1 ≤ Nat.log2 (uint32 ((history >>> (9 : Nat)) + 3)) := by
  have hv : 2 ≤ uint32 ((history >>> (9 : Nat)) + 3) := by
    rw [Int.shiftRight_eq_div_pow]
    unfold uint32
    norm_num
    omega
  refine ⟨by omega, ?_⟩
  exact (Nat.le_log2 (by omega)).2 (by simpa using hv)

theorem run_k_bounds (history : Int) (h0 : 1 ≤ history) (h1 : history < 128) :
    0 < uint32 history ∧
    1 ≤ uint32 (7 - (Nat.log2 (uint32 history) : Int) +
      (uint32 ((history + 16) >>> (6 : Nat)) : Int)) := by
  have hv : 0 < uint32 history ∧ uint32 history < 2 ^ 7 := by
    unfold uint32
    omega
  have hl : Nat.log2 (uint32 history) < 7 := (Nat.log2_lt (by omega)).2 hv.2
  refine ⟨hv.1, ?_⟩
  rw [Int.shiftRight_eq_div_pow]
  generalize Nat.log2 (uint32 history) = l at hl
  unfold uint32
  norm_num
  omega

theorem write_residual_ne_abort (value k sample_size : Nat) (hk : 1 ≤ k) :
    write_residual value k sample_size ≠ .abort := by
  obtain ⟨code, h⟩ := write_residual_ok value k sample_size hk
  rw [h]
  simp

theorem encode_residuals_loop_no_abort (o : alac_encoding_options)
    (ho : reference_parameters o) (sample_size : Nat) (fuel : Nat) :
    ∀ (history : Int) (sign_modifier : Nat) (remaining : List Int),
      (∀ r ∈ remaining.tail, is_int r) → 0 ≤ history → history ≤ 33554432 →
      (history = 0 → ∀ r, remaining.head? = some r → is_int r ∧ r ≠ 0) →
      encode_residuals_loop o sample_size fuel history sign_modifier remaining ≠ .abort := by
  obtain ⟨-, hm, hk⟩ := ho
  induction fuel with
  | zero => intro history sign_modifier remaining _ _ _ _; simp [encode_residuals_loop]
  | succ fuel ih =>
    intro history sign_modifier remaining hint h0 h1 hhead
    cases remaining with
    | nil => simp [encode_residuals_loop]
    | cons r rest =>
      have hrest : ∀ x ∈ rest, is_int x := fun x hx => hint x hx
      have htail : ∀ x ∈ rest.tail, is_int x := fun x hx => hrest x (List.mem_of_mem_tail hx)
      have hdrop : ∀ x ∈ (rest.dropWhile (fun x => decide (x = 0))).tail, is_int x :=
        fun x hx => hrest x ((List.dropWhile_suffix _).subset (List.mem_of_mem_tail hx))
      have hpos : 1 ≤ history ∨ 1 ≤ fold_residual r := by
        by_cases hz : history = 0
        · right; exact fold_residual_pos r (hhead hz r rfl).1 (hhead hz r rfl).2
        · left; omega
      simp only [encode_residuals_loop, hm]
      by_cases hov : fold_residual r ≥ 1 <<< sample_size
      · rw [if_pos hov]; simp
      · rw [if_neg hov]
        obtain ⟨hv, hl⟩ := main_k_bounds history h0 h1
        rw [LOG2_eq _ hv, Outcome.ok_bind]
        intro hres
        rw [Outcome.bind_eq_abort] at hres
        rcases hres with hres | ⟨code, -, hres⟩
        · exact write_residual_ne_abort _ _ _ (by omega) hres
        by_cases hu : fold_residual r ≤ 0xFFFF
        · rw [if_pos hu] at hres
          obtain ⟨hb1, hb2⟩ := history_update_bounds history (fold_residual r) h0 h1 hu hpos
          split at hres
          · rename_i hrun
            obtain ⟨hv0, hk0⟩ := run_k_bounds _ hb1 hrun.1
            rw [LOG2_eq _ hv0, Outcome.ok_bind, Outcome.bind_eq_abort] at hres
            rcases hres with hres | ⟨run, -, hres⟩
            · exact write_residual_ne_abort _ _ _ (by omega) hres
            rw [Outcome.bind_eq_abort] at hres
            rcases hres with hres | ⟨tail, -, hres⟩
            · refine ih _ _ _ hdrop (le_refl _) (by norm_num) ?_ hres
              intro _ x hx
              have hmem : x ∈ rest.dropWhile (fun x => decide (x = 0)) :=
                List.mem_of_mem_head? hx
              have := List.head?_dropWhile_not (fun x => decide (x = 0)) rest
              rw [hx] at this
              exact ⟨hrest x ((List.dropWhile_suffix _).subset hmem), by simpa using this⟩
            · simp at hres
          · rw [Outcome.bind_eq_abort] at hres
            rcases hres with hres | ⟨tail, -, hres⟩
            · exact ih _ _ _ htail (by omega) hb2 (by intro hz; omega) hres
            · simp at hres
        · rw [if_neg hu, Outcome.bind_eq_abort] at hres
          rcases hres with hres | ⟨tail, -, hres⟩
          · exact ih _ _ _ htail (by norm_num) (by norm_num) (by norm_num) hres
          · simp at hres

end Alac

namespace Alac

theorem overflow_iff_spec (sample_size : Nat) (r : Int) (h : is_int r) :
    1 <<< sample_size ≤ fold_residual r ↔ (2 : Int) ^ sample_size ≤ spec_fold r := by
  rw [← fold_residual_eq_spec r h, Nat.one_shiftLeft]
  constructor
  · intro h1; exact_mod_cast h1
  · intro h1; exact_mod_cast h1

theorem encode_residuals_no_abort (o : alac_encoding_options) (ho : reference_parameters o)
    (sample_size : Nat) (residuals : List Int) (hint : ∀ r ∈ residuals.tail, is_int r) :
    encode_residuals o sample_size residuals ≠ .abort := by
  unfold encode_residuals
  have hi : int32 (o.initial_history : Int) = 10 := by rw [ho.1]; decide
  rw [hi]
  exact encode_residuals_loop_no_abort o ho sample_size _ 10 0 residuals hint
    (by norm_num) (by norm_num) (by norm_num)

theorem encode_residuals_sound (o : alac_encoding_options) (sample_size : Nat)
    (residuals : List Int) (hint : ∀ r ∈ residuals, is_int r) :
    (encode_residuals o sample_size residuals = .residual_overflow →
      ∃ r ∈ residuals, (2 : Int) ^ sample_size ≤ spec_fold r) ∧
    (∀ block, encode_residuals o sample_size residuals = .ok block →
      ¬ ∃ r ∈ residuals, (2 : Int) ^ sample_size ≤ spec_fold r) := by
  obtain ⟨h1, h2⟩ := encode_residuals_loop_sound o sample_size residuals.length
    (int32 o.initial_history) 0 residuals (le_refl _)
  constructor
  · intro h
    obtain ⟨r, hr, hro⟩ := h1 h
    exact ⟨r, hr, (overflow_iff_spec sample_size r (hint r hr)).1 hro⟩
  · rintro block h ⟨r, hr, hro⟩
    exact h2 block h r hr ((overflow_iff_spec sample_size r (hint r hr)).2 hro)

/-- C10: for every sequence of `int` residuals and every sample_size, with the folded value
u = 2r for r >= 0 and u = -2r - 1 for r < 0: under the reference parameters (any
maximum_k >= 1) `encode_residuals` signals residual overflow if and only if some residual has
u >= 2^sample_size, and otherwise completes and returns a residual block; for arbitrary options
a signalled overflow still implies such a residual and a returned block excludes one; and the
result does not depend on the iteration bound of the loop once it covers the sequence. -/
theorem encode_residuals_overflow_iff (o : alac_encoding_options) (sample_size : Nat)
    (residuals : List Int) (hint : ∀ r ∈ residuals, is_int r) :
    (reference_parameters o →
      (encode_residuals o sample_size residuals = .residual_overflow ↔
        ∃ r ∈ residuals, (2 : Int) ^ sample_size ≤ spec_fold r) ∧
      ((¬ ∃ r ∈ residuals, (2 : Int) ^ sample_size ≤ spec_fold r) →
        ∃ block, encode_residuals o sample_size residuals = .ok block)) ∧
    ((encode_residuals o sample_size residuals = .residual_overflow →
        ∃ r ∈ residuals, (2 : Int) ^ sample_size ≤ spec_fold r) ∧
      (∀ block, encode_residuals o sample_size residuals = .ok block →
        ¬ ∃ r ∈ residuals, (2 : Int) ^ sample_size ≤ spec_fold r)) ∧
    (∀ fuel, residuals.length ≤ fuel →
      encode_residuals_loop o sample_size fuel (int32 o.initial_history) 0 residuals =
        encode_residuals o sample_size residuals) := by
  have hs := encode_residuals_sound o sample_size residuals hint
  refine ⟨fun ho => ?_, hs, fun fuel hf =>
    encode_residuals_loop_fuel o sample_size fuel _ _ _ _ hf (le_refl _)⟩
  have hna := encode_residuals_no_abort o ho sample_size residuals
    (fun r hr => hint r (List.mem_of_mem_tail hr))
  cases hres : encode_residuals o sample_size residuals with
  | ok block =>
    refine ⟨⟨fun h => by simp at h, fun h => absurd h (hs.2 block hres)⟩, fun _ => ⟨block, rfl⟩⟩
  | residual_overflow =>
    exact ⟨⟨fun _ => hs.1 hres, fun _ => rfl⟩, fun h => absurd (hs.1 hres) h⟩
  | abort => exact absurd hres hna

theorem encode_residuals_overflow_iff_witness :
    (∀ r ∈ [3, 0, 0, -40000, 7], is_int r) ∧
    encode_residuals ⟨4096, 10, 40, 14, 0, 4⟩ 16 [3, 0, 0, -40000, 7] = .residual_overflow :=
  ⟨by decide,
   ((encode_residuals_overflow_iff ⟨4096, 10, 40, 14, 0, 4⟩ 16 [3, 0, 0, -40000, 7]
      (by decide)).1 (by decide)).1.2 (by decide)⟩

end Alac

namespace Alac

/-! ## C4: channel groups of `write_frameset` -/

theorem extract_each_eq (channels : List (List Int)) (n : Nat) :
    ∀ (i : Nat) (frameset : List (List Int)),
      (∀ j, i ≤ j → frameset.getD j [] = channels.getD j []) →
      extract_each n i frameset = (List.range' i n).map fun j => [channels.getD j []] := by
  induction n with
  | zero => intro i frameset _; simp [extract_each]
  | succ n ih =>
    intro i frameset h
    simp only [extract_each, extract_1ch, List.range'_succ, List.map_cons]
    rw [h i (le_refl _), ih (i + 1) (frameset.set i [])]
    intro j hj
    rw [← h j (by omega)]
    simp only [List.getD_eq_getElem?_getD]
    rw [List.getElem?_set_ne (by omega)]

theorem frameset_frames_large (channels : List (List Int)) (h : 8 < channels.length ∨ channels.length = 0) :
    frameset_frames channels = (List.range channels.length).map fun j => [channels.getD j []] := by
  have : frameset_frames channels = extract_each channels.length 0 channels := by
    unfold frameset_frames
    split <;> first | omega | rfl
  rw [this, extract_each_eq channels channels.length 0 channels (fun _ _ => rfl),
    List.range_eq_range']

theorem spec_layout_large (C : Nat) (h : 8 < C ∨ C = 0) :
    spec_layout C = (List.range C).map fun i => [i] := by
  unfold spec_layout
  split <;> first | omega | rfl

theorem frameset_frames_eq_layout (channels : List (List Int)) :
    frameset_frames channels = (spec_layout channels.length).map (select_channels channels) := by
  by_cases h : 8 < channels.length ∨ channels.length = 0
  · rw [frameset_frames_large channels h, spec_layout_large _ h]
    simp [select_channels]
  · match channels, h with
    | [_], _ => rfl
    | [_, _], _ => rfl
    | [_, _, _], _ => rfl
    | [_, _, _, _], _ => rfl
    | [_, _, _, _, _], _ => rfl
    | [_, _, _, _, _, _], _ => rfl
    | [_, _, _, _, _, _, _], _ => rfl
    | [_, _, _, _, _, _, _, _], _ => rfl
    | [], h => simp at h
    | _ :: _ :: _ :: _ :: _ :: _ :: _ :: _ :: _ :: _, h => simp at h

end Alac

namespace Alac

/-- C4: for every block, the channel sets `write_frameset` hands to `write_frame` are, in call
order, the groups of the layout table for its channel count C (C=1: (0); C=2: (0,1);
C=3: (2),(0,1); C=4: (2),(0,1),(3); C=5: (2),(0,1),(3,4); C=6: (2),(0,1),(4,5),(3);
C=7: (2),(0,1),(4,5),(6),(3); C=8: (2),(6,7),(0,1),(4,5),(3); C>8: (0),(1),...,(C-1)), each
group holding the unmodified source channels; and for a 6-channel block the output of
`write_frameset` is exactly the four `write_frame` payloads of (2), (0,1), (4,5), (3) followed
by the terminator 111 and the byte-alignment pad. -/
theorem write_frameset_channel_groups (channels : List (List Int)) :
    frameset_frames channels = (spec_layout channels.length).map (select_channels channels) ∧
    (8 < channels.length → spec_layout channels.length =
      (List.range channels.length).map fun i => [i]) ∧
    (channels.length = 6 →
      (frameset_frames channels).length = 4 ∧
      ∀ (pos : Nat) (e : alac_context) (analysis : lpc_analysis),
        write_frameset pos e analysis channels =
          (write_frame e analysis [channels.getD 2 []]).bind fun p1 =>
          (write_frame e analysis [channels.getD 0 [], channels.getD 1 []]).bind fun p2 =>
          (write_frame e analysis [channels.getD 4 [], channels.getD 5 []]).bind fun p3 =>
          (write_frame e analysis [channels.getD 3 []]).bind fun p4 =>
          some (p1 ++ p2 ++ p3 ++ p4 ++ [true, true, true] ++
            byte_align (pos + ((p1 ++ p2 ++ p3 ++ p4).length + 3)))) := by
  refine ⟨frameset_frames_eq_layout channels, fun h => spec_layout_large _ (Or.inl h), ?_⟩
  intro h6
  match channels, h6 with
  | [c0, c1, c2, c3, c4, c5], _ =>
    refine ⟨rfl, fun pos e analysis => ?_⟩
    show write_frameset pos e analysis [c0, c1, c2, c3, c4, c5] =
      (write_frame e analysis [c2]).bind fun p1 =>
      (write_frame e analysis [c0, c1]).bind fun p2 =>
      (write_frame e analysis [c4, c5]).bind fun p3 =>
      (write_frame e analysis [c3]).bind fun p4 =>
      some (p1 ++ p2 ++ p3 ++ p4 ++ [true, true, true] ++
        byte_align (pos + ((p1 ++ p2 ++ p3 ++ p4).length + 3)))
    have hf : frameset_frames [c0, c1, c2, c3, c4, c5] = [[c2], [c0, c1], [c4, c5], [c3]] := rfl
    have h7 : write 3 7 = [true, true, true] := by decide
    unfold write_frameset
    rw [hf]
    simp only [write_frames, h7]
    cases write_frame e analysis [c2] <;> cases write_frame e analysis [c0, c1] <;>
      cases write_frame e analysis [c4, c5] <;> cases write_frame e analysis [c3] <;>
      simp [Nat.add_assoc]

theorem write_frameset_channel_groups_witness :
    [[1], [2], [3], [4], [5], [6]].length = 6 ∧
    (frameset_frames [[1], [2], [3], [4], [5], [6]]).length = 4 ∧
    frameset_frames [[1], [2], [3], [4], [5], [6]] = [[[3]], [[1], [2]], [[5], [6]], [[4]]] :=
  ⟨rfl, ((write_frameset_channel_groups [[1], [2], [3], [4], [5], [6]]).2.2 rfl).1, by
    rw [(write_frameset_channel_groups [[1], [2], [3], [4], [5], [6]]).1]; rfl⟩

/-! ## C1, C2: `write_frame` -/

theorem write_uncompressed_frame_flag (e : alac_context) (channels : List (List Int)) :
    (write_uncompressed_frame e channels)[19]? = some true := by
  have h16 : write 16 0 = List.replicate 16 false := write_zero_value 16
  have h2 : write 2 0 = [false, false] := by decide
  have h11 : write 1 1 = [true] := by decide
  have h10 : write 1 0 = [false] := by decide
  unfold write_uncompressed_frame
  simp only [h16, h2, h11, h10]
  split <;> simp [List.replicate]

/-- C1: for every mono or stereo frame of length L >= 10 whose compressed encoding signals
residual overflow, `write_frame` completes and the bits it appends to the outer sink are
exactly the 3-bit channel tag (channels - 1) followed by the uncompressed frame body of the
original samples, whose 'not compressed' bit is 1; nothing composed for the compressed payload
is part of them. -/
theorem write_frame_overflow_fallback (e : alac_context) (analysis : lpc_analysis)
    (channels : List (List Int)) (hC : channels.length = 1 ∨ channels.length = 2)
    (hL : (channels.getD 0 []).length ≥ 10)
    (hov : write_compressed_frame e analysis channels = .residual_overflow) :
    write_frame e analysis channels =
      some (write 3 (channels.length - 1) ++ write_uncompressed_frame e channels) ∧
    (write_uncompressed_frame e channels)[19]? = some true := by
  refine ⟨?_, write_uncompressed_frame_flag e channels⟩
  unfold write_frame
  rw [if_neg (not_not.mpr hC), if_pos hL, hov]

theorem write_frame_overflow_fallback_witness :
    ([[40000, 1, 2, 3, 4, 5, 6, 7, 8, 9]].length = 1 ∨
      [[40000, 1, 2, 3, 4, 5, 6, 7, 8, 9]].length = 2) ∧
    (([[40000, 1, 2, 3, 4, 5, 6, 7, 8, 9]] : List (List Int)).getD 0 []).length ≥ 10 ∧
    write_compressed_frame ⟨⟨4096, 10, 40, 14, 0, 4⟩, 16, []⟩ (fun _ => none)
      [[40000, 1, 2, 3, 4, 5, 6, 7, 8, 9]] = .residual_overflow ∧
    write_frame ⟨⟨4096, 10, 40, 14, 0, 4⟩, 16, []⟩ (fun _ => none)
      [[40000, 1, 2, 3, 4, 5, 6, 7, 8, 9]] =
      some (write 3 0 ++ write_uncompressed_frame ⟨⟨4096, 10, 40, 14, 0, 4⟩, 16, []⟩
        [[40000, 1, 2, 3, 4, 5, 6, 7, 8, 9]]) :=
  ⟨by decide, by decide, by decide,
    (write_frame_overflow_fallback ⟨⟨4096, 10, 40, 14, 0, 4⟩, 16, []⟩ (fun _ => none)
      [[40000, 1, 2, 3, 4, 5, 6, 7, 8, 9]] (by decide) (by decide) (by decide)).1⟩

theorem write_frame_short_eq (e : alac_context) (analysis : lpc_analysis)
    (channels : List (List Int)) (hC : channels.length = 1 ∨ channels.length = 2)
    (hL : (channels.getD 0 []).length < 10) :
    write_frame e analysis channels =
      some (write 3 (channels.length - 1) ++ write_uncompressed_frame e channels) := by
  unfold write_frame
  rw [if_neg (not_not.mpr hC), if_neg (by omega)]

/-- C2: for every mono or stereo frame whose channel length L is less than 10, whatever the
samples, the encoder state and the outcome of the LPC analysis, `write_frame` completes and
emits the 3-bit channel tag followed by the uncompressed frame body, whose 'not compressed'
bit (bit 19 of the body) is 1; the result does not involve the compressed path. -/
theorem write_frame_short (e : alac_context) (analysis : lpc_analysis)
    (channels : List (List Int)) (hC : channels.length = 1 ∨ channels.length = 2)
    (hL : (channels.getD 0 []).length < 10) :
    write_frame e analysis channels =
      some (write 3 (channels.length - 1) ++ write_uncompressed_frame e channels) ∧
    (write_uncompressed_frame e channels)[19]? = some true ∧
    (write 3 (channels.length - 1) ++ write_uncompressed_frame e channels)[22]? = some true := by
  refine ⟨write_frame_short_eq e analysis channels hC hL,
    write_uncompressed_frame_flag e channels, ?_⟩
  · rw [List.getElem?_append_right (by simp [write_length])]
    simpa [write_length] using write_uncompressed_frame_flag e channels

theorem write_frame_short_witness :
    ([[5, -3, 7], [1, 2, 3]].length = 1 ∨ [[5, -3, 7], [1, 2, 3]].length = 2) ∧
    (([[5, -3, 7], [1, 2, 3]] : List (List Int)).getD 0 []).length < 10 ∧
    write_frame ⟨⟨4096, 10, 40, 14, 0, 4⟩, 16, []⟩ (fun _ => none) [[5, -3, 7], [1, 2, 3]] =
      some (write 3 1 ++
        write_uncompressed_frame ⟨⟨4096, 10, 40, 14, 0, 4⟩, 16, []⟩ [[5, -3, 7], [1, 2, 3]]) :=
  ⟨by decide, by decide,
    (write_frame_short ⟨⟨4096, 10, 40, 14, 0, 4⟩, 16, []⟩ (fun _ => none)
      [[5, -3, 7], [1, 2, 3]] (by decide) (by decide)).1⟩

end Alac

namespace Alac

/-! ## C3: `write_uncompressed_frame` -/

theorem flatMap_range'_slice {α : Type} (f : Nat → List α) (m : Nat) (n : Nat) :
    ∀ s, (∀ j, s ≤ j → j < s + n → (f j).length = m) →
      ((List.range' s n).flatMap f).length = n * m ∧
      ∀ i, i < n → (((List.range' s n).flatMap f).drop (i * m)).take m = f (s + i) := by
  induction n with
  | zero => intro s _; simp
  | succ n ih =>
    intro s hf
    have hs : (f s).length = m := hf s (le_refl _) (by omega)
    obtain ⟨hlen, hslice⟩ := ih (s + 1) (fun j h1 h2 => hf j (by omega) (by omega))
    simp only [List.range'_succ, List.flatMap_cons]
    constructor
    · rw [List.length_append, hlen, hs]; ring
    · intro i hi
      cases i with
      | zero => simpa using List.take_left' hs
      | succ i =>
        have e1 : (i + 1) * m = m + i * m := by ring
        rw [e1, ← List.drop_drop, List.drop_left' hs, hslice i (by omega)]
        congr 1
        omega

theorem flatMap_range_slice {α : Type} (f : Nat → List α) (m n : Nat)
    (hf : ∀ j, j < n → (f j).length = m) :
    ((List.range n).flatMap f).length = n * m ∧
    ∀ i, i < n → (((List.range n).flatMap f).drop (i * m)).take m = f i := by
  obtain ⟨h1, h2⟩ := flatMap_range'_slice f m n 0 (fun j _ hj => hf j (by omega))
  rw [List.range_eq_range']
  exact ⟨h1, fun i hi => by simpa using h2 i hi⟩

theorem take_drop_take {α : Type} (l : List α) (a m n : Nat) (h : a + m ≤ n) :
    (((l.take n).drop a).take m) = ((l.drop a).take m) := by
  rw [List.drop_take, List.take_take, min_eq_left (by omega)]

/-- C3: for every frame of C in {1,2} channels of length L, `write_uncompressed_frame` emits,
in order: 16 zero bits, 1 bit that is 0 iff L == block_size, 2 zero bits, 1 one bit, L as a
32-bit field only when L != block_size, then a body in which the field of frame i and channel c
(at offset (i*C + c) * bits_per_sample) is the sample as a bits_per_sample-bit two's-complement
field; its length is 20 + (32 if L != block_size) + L*C*bits_per_sample bits.  And a mono
16-bit block of 8 zero samples with block_size 4096 makes `write_frameset`, from an empty sink,
emit 000, 16 zero bits, 1, 00, 1, the 32-bit value 8, 128 zero bits, 111 and 6 pad bits: 192
bits, 24 bytes. -/
theorem write_uncompressed_frame_layout (e : alac_context) (channels : List (List Int))
    (L : Nat) (hC : channels.length = 1 ∨ channels.length = 2)
    (hL : ∀ ch ∈ channels, ch.length = L) :
    (∃ body : Bits,
      write_uncompressed_frame e channels =
        List.replicate 16 false ++ [decide (L ≠ e.options.block_size)] ++ [false, false] ++
          [true] ++ (if L ≠ e.options.block_size then write 32 L else []) ++ body ∧
      body.length = L * channels.length * e.bits_per_sample ∧
      ∀ i c, i < L → c < channels.length →
        (body.drop ((i * channels.length + c) * e.bits_per_sample)).take e.bits_per_sample =
          write_signed e.bits_per_sample ((channels.getD c []).getD i 0)) ∧
    (write_uncompressed_frame e channels).length =
      20 + (if L ≠ e.options.block_size then 32 else 0) +
        L * channels.length * e.bits_per_sample ∧
    (∀ (initial_history history_multiplier maximum_k lo hi : Nat) (best : Bits)
        (analysis : lpc_analysis),
      write_frameset 0
          ⟨⟨4096, initial_history, history_multiplier, maximum_k, lo, hi⟩, 16, best⟩ analysis
          [[0, 0, 0, 0, 0, 0, 0, 0]] =
        some (List.replicate 3 false ++ List.replicate 16 false ++ [true] ++ [false, false] ++
          [true] ++ (List.replicate 28 false ++ [true, false, false, false]) ++
          List.replicate 128 false ++ [true, true, true] ++ List.replicate 6 false) ∧
      (List.replicate 3 false ++ List.replicate 16 false ++ [true] ++ [false, false] ++
          [true] ++ (List.replicate 28 false ++ [true, false, false, false]) ++
          List.replicate 128 false ++ [true, true, true] ++ List.replicate 6 false).length =
        24 * 8) := by
  have h0 : (channels.getD 0 []).length = L := by
    apply hL
    rcases channels with _ | ⟨c0, rest⟩
    · simp at hC
    · simp
  have h16 : write 16 0 = List.replicate 16 false := write_zero_value 16
  have h2 : write 2 0 = [false, false] := by decide
  have h11 : write 1 1 = [true] := by decide
  have h10 : write 1 0 = [false] := by decide
  have hflag : (if L = e.options.block_size then write 1 0 else write 1 1) =
      [decide (L ≠ e.options.block_size)] := by
    by_cases hb : L = e.options.block_size <;> simp [hb, h10, h11]
  have hinner : ∀ i,
      ((List.range channels.length).flatMap fun c =>
          write_signed e.bits_per_sample ((channels.getD c []).getD i 0)).length =
        channels.length * e.bits_per_sample ∧
      ∀ c, c < channels.length →
        (((List.range channels.length).flatMap fun c =>
            write_signed e.bits_per_sample ((channels.getD c []).getD i 0)).drop
            (c * e.bits_per_sample)).take e.bits_per_sample =
          write_signed e.bits_per_sample ((channels.getD c []).getD i 0) := fun i =>
    flatMap_range_slice _ e.bits_per_sample channels.length
      (fun j _ => write_signed_length _ _)
  obtain ⟨hblen, hbslice⟩ := flatMap_range_slice
    (fun i => (List.range channels.length).flatMap fun c =>
      write_signed e.bits_per_sample ((channels.getD c []).getD i 0))
    (channels.length * e.bits_per_sample) L (fun i _ => (hinner i).1)
  have hbody : write_uncompressed_frame e channels =
      List.replicate 16 false ++ [decide (L ≠ e.options.block_size)] ++ [false, false] ++
        [true] ++ (if L ≠ e.options.block_size then write 32 L else []) ++
        ((List.range L).flatMap fun i => (List.range channels.length).flatMap fun c =>
          write_signed e.bits_per_sample ((channels.getD c []).getD i 0)) := by
    unfold write_uncompressed_frame
    simp only [h0]
    rw [hflag, h16, h2, h11]
  refine ⟨⟨_, hbody, ?_, ?_⟩, ?_, ?_⟩
  · rw [hblen]; ring
  · intro i c hi hc
    have e1 : (i * channels.length + c) * e.bits_per_sample =
        i * (channels.length * e.bits_per_sample) + c * e.bits_per_sample := by ring
    have e2 : c * e.bits_per_sample + e.bits_per_sample ≤
        channels.length * e.bits_per_sample := by
      have : (c + 1) * e.bits_per_sample ≤ channels.length * e.bits_per_sample :=
        Nat.mul_le_mul_right _ hc
      linarith
    rw [e1, ← List.drop_drop, ← take_drop_take _ _ _ _ e2, hbslice i hi]
    exact (hinner i).2 c hc
  · rw [hbody]
    simp only [List.length_append, List.length_replicate, List.length_cons, List.length_nil,
      hblen]
    split <;> simp [write_length] <;> ring
  · intro initial_history history_multiplier maximum_k lo hi best analysis
    refine ⟨?_, by simp only [List.length_append, List.length_replicate, List.length_cons,
      List.length_nil]⟩
    have hu : write_uncompressed_frame
        ⟨⟨4096, initial_history, history_multiplier, maximum_k, lo, hi⟩, 16, best⟩
        [[0, 0, 0, 0, 0, 0, 0, 0]] =
        write_uncompressed_frame ⟨⟨4096, 0, 0, 0, 0, 0⟩, 16, []⟩ [[0, 0, 0, 0, 0, 0, 0, 0]] :=
      rfl
    have hf := write_frame_short_eq
      ⟨⟨4096, initial_history, history_multiplier, maximum_k, lo, hi⟩, 16, best⟩ analysis
      [[0, 0, 0, 0, 0, 0, 0, 0]] (by decide) (by decide)
    have hfr : frameset_frames [[0, 0, 0, 0, 0, 0, 0, 0]] = [[[0, 0, 0, 0, 0, 0, 0, 0]]] := rfl
    unfold write_frameset
    rw [hfr]
    simp only [write_frames, hf, hu, List.append_nil]
    set_option maxRecDepth 100000 in decide

theorem write_uncompressed_frame_layout_witness :
    ([[5, -3, 7], [1, 2, 3]].length = 1 ∨ [[5, -3, 7], [1, 2, 3]].length = 2) ∧
    (∀ ch ∈ ([[5, -3, 7], [1, 2, 3]] : List (List Int)), ch.length = 3) ∧
    (write_uncompressed_frame ⟨⟨4096, 10, 40, 14, 0, 4⟩, 16, []⟩
      [[5, -3, 7], [1, 2, 3]]).length = 20 + 32 + 3 * 2 * 16 :=
  ⟨by decide, by decide,
    (write_uncompressed_frame_layout ⟨⟨4096, 10, 40, 14, 0, 4⟩, 16, []⟩
      [[5, -3, 7], [1, 2, 3]] 3 (by decide) (by decide)).2.1⟩

end Alac

namespace Alac

/-! ## The compressed path never stops at an assertion -/

theorem TRUNCATE_BITS_is_int (value : Int) (bits : Nat) (h : bits ≤ 31) :
    is_int (TRUNCATE_BITS value bits) := by
  have hp : (0 : Int) < 2 ^ bits := by positivity
  have hle : (2 : Int) ^ bits ≤ 2 ^ 31 := pow_le_pow_right₀ (by norm_num) h
  have h1 := Int.emod_nonneg value (ne_of_gt hp)
  have h2 := Int.emod_lt_of_pos value hp
  norm_num at hle
  unfold TRUNCATE_BITS is_int
  simp only
  generalize (2 : Int) ^ bits = P at *
  split <;> constructor <;> omega

theorem calculate_residuals_loop_is_int (samples : List Int) (sample_size coeff_count : Nat)
    (h : sample_size ≤ 31) (n : Nat) :
    ∀ (i : Nat) (coefficients : List Int),
      ∀ r ∈ calculate_residuals_loop samples sample_size coeff_count n i coefficients,
        is_int r := by
  induction n with
  | zero => intro i coefficients r hr; simp [calculate_residuals_loop] at hr
  | succ n ih =>
    intro i coefficients r hr
    rw [calculate_residuals_loop] at hr
    rcases List.mem_cons.mp hr with rfl | hr
    · exact TRUNCATE_BITS_is_int _ _ h
    · exact ih _ _ r hr

theorem calculate_residuals_tail_is_int (samples : List Int) (sample_size : Nat)
    (qlp_coefficients : List Int) (h : sample_size ≤ 31) :
    ∀ r ∈ (calculate_residuals samples sample_size qlp_coefficients).tail, is_int r := by
  intro r hr
  unfold calculate_residuals at hr
  simp only at hr
  split at hr
  · simp only [List.cons_append, List.tail_cons, List.mem_append, List.mem_map] at hr
    rcases hr with ⟨t, -, rfl⟩ | hr
    · exact TRUNCATE_BITS_is_int _ _ h
    · exact calculate_residuals_loop_is_int _ _ _ h _ _ _ r hr
  · simp only [List.tail_cons, List.mem_map] at hr
    obtain ⟨t, -, rfl⟩ := hr
    exact TRUNCATE_BITS_is_int _ _ h

theorem compute_coefficients_ne_abort (o : alac_encoding_options) (ho : reference_parameters o)
    (analysis : lpc_analysis) (samples : List Int) (sample_size : Nat) (h : sample_size ≤ 31) :
    compute_coefficients o analysis samples sample_size ≠ .abort := by
  have hna := fun q => encode_residuals_no_abort o ho sample_size
    (calculate_residuals samples sample_size q)
    (calculate_residuals_tail_is_int samples sample_size q h)
  unfold compute_coefficients
  intro hres
  split at hres
  · simp only [Outcome.bind_eq_abort] at hres
    rcases hres with hres | ⟨b4, -, hres | ⟨b8, -, hres⟩⟩
    · exact hna _ hres
    · exact hna _ hres
    · split at hres <;> simp at hres
  · simp only [Outcome.bind_eq_abort] at hres
    rcases hres with hres | ⟨b, -, hres⟩
    · exact hna _ hres
    · simp at hres

theorem write_non_interlaced_frame_ne_abort (e : alac_context)
    (ho : reference_parameters e.options) (analysis : lpc_analysis)
    (uncompressed_LSBs : Nat) (LSBs : List Int) (channels : List (List Int))
    (hC : channels.length = 1) (hb : e.bits_per_sample ≤ 30) :
    write_non_interlaced_frame e analysis uncompressed_LSBs LSBs channels ≠ .abort := by
  unfold write_non_interlaced_frame
  rw [if_neg (by omega)]
  intro hres
  simp only [Outcome.bind_eq_abort] at hres
  rcases hres with hres | ⟨p, -, hres⟩
  · exact compute_coefficients_ne_abort _ ho _ _ _ (by omega) hres
  · simp at hres

theorem write_interlaced_frame_ne_abort (e : alac_context)
    (ho : reference_parameters e.options) (analysis : lpc_analysis)
    (uncompressed_LSBs : Nat) (LSBs : List Int) (interlacing_shift interlacing_leftweight : Nat)
    (channels : List (List Int)) (hC : channels.length = 2)
    (heq : (channels.getD 0 []).length = (channels.getD 1 []).length)
    (hb : e.bits_per_sample ≤ 30) :
    write_interlaced_frame e analysis uncompressed_LSBs LSBs interlacing_shift
      interlacing_leftweight channels ≠ .abort := by
  unfold write_interlaced_frame
  rw [if_neg (by omega)]
  intro hres
  simp only [Outcome.bind_eq_abort] at hres
  rcases hres with hres | ⟨cc, -, hres | ⟨p0, -, hres | ⟨p1, -, hres⟩⟩⟩
  · unfold correlate_channels at hres
    rw [if_neg (by omega), if_neg (by omega)] at hres
    split at hres <;> simp at hres
  · exact compute_coefficients_ne_abort _ ho _ _ _ (by omega) hres
  · exact compute_coefficients_ne_abort _ ho _ _ _ (by omega) hres
  · simp at hres

theorem leftweight_search_ne_abort (candidate : Nat → Outcome Bits)
    (h : ∀ w, candidate w ≠ .abort) (ws : List Nat) :
    ∀ (best_bits : Nat) (best : Bits), leftweight_search candidate ws best_bits best ≠ .abort := by
  induction ws with
  | nil => intro best_bits best; simp [leftweight_search]
  | cons w ws ih =>
    intro best_bits best hres
    simp only [leftweight_search, Outcome.bind_eq_abort] at hres
    rcases hres with hres | ⟨f, -, hres⟩
    · exact h w hres
    · split at hres
      · exact ih _ _ hres
      · exact ih _ _ hres

theorem write_compressed_frame_ne_abort (e : alac_context)
    (ho : reference_parameters e.options) (analysis : lpc_analysis)
    (channels : List (List Int)) (hC : channels.length = 1 ∨ channels.length = 2)
    (heq : (channels.getD 0 []).length = (channels.getD 1 []).length ∨ channels.length = 1)
    (hb : e.bits_per_sample ≤ 30) :
    write_compressed_frame e analysis channels ≠ .abort := by
  unfold write_compressed_frame
  split
  · split
    · rename_i h1
      exact write_non_interlaced_frame_ne_abort e ho analysis _ _ _ h1 hb
    · rename_i h1
      exact leftweight_search_ne_abort _ (fun w =>
        write_interlaced_frame_ne_abort e ho analysis _ _ _ _ _ (by omega) (by omega) hb) _ _ _
  · simp only
    split
    · rename_i h1
      exact write_non_interlaced_frame_ne_abort e ho analysis _ _ _
        (by simp [extract_MSBs, h1]) hb
    · rename_i h1
      have h2 : channels.length = 2 := by omega
      exact leftweight_search_ne_abort _ (fun w =>
        write_interlaced_frame_ne_abort e ho analysis _ _ _ _ _ (by simp [extract_MSBs, h2])
          (by simp [extract_MSBs, h2]) hb) _ _ _

theorem write_frame_isSome (e : alac_context) (ho : reference_parameters e.options)
    (analysis : lpc_analysis) (channels : List (List Int))
    (hC : channels.length = 1 ∨ channels.length = 2)
    (heq : (channels.getD 0 []).length = (channels.getD 1 []).length ∨ channels.length = 1)
    (hb : e.bits_per_sample ≤ 30) :
    ∃ bits, write_frame e analysis channels = some bits := by
  unfold write_frame
  rw [if_neg (not_not.mpr hC)]
  split
  · have := write_compressed_frame_ne_abort e ho analysis channels hC heq hb
    cases hres : write_compressed_frame e analysis channels with
    | ok p => exact ⟨_, rfl⟩
    | residual_overflow => exact ⟨_, rfl⟩
    | abort => exact absurd hres this
  · exact ⟨_, rfl⟩

end Alac

namespace Alac

/-! ## C5: terminator and byte alignment of `write_frameset` -/

theorem spec_layout_groups (C : Nat) :
    ∀ g ∈ spec_layout C, (g.length = 1 ∨ g.length = 2) ∧ ∀ index ∈ g, index < C := by
  by_cases h : 8 < C ∨ C = 0
  · rw [spec_layout_large C h]
    intro g hg
    simp only [List.mem_map, List.mem_range] at hg
    obtain ⟨i, hi, rfl⟩ := hg
    simp [hi]
  · have h8 : C ≤ 8 := by omega
    have h0 : C ≠ 0 := by omega
    interval_cases C <;> first | exact absurd rfl h0 | decide

theorem getD_length_of_mem (channels : List (List Int)) (L : Nat)
    (hL : ∀ ch ∈ channels, ch.length = L) (index : Nat) (h : index < channels.length) :
    (channels.getD index []).length = L := by
  apply hL
  rw [List.getD_eq_getElem?_getD, List.getElem?_eq_getElem h]
  exact List.getElem_mem _

theorem frameset_frames_well_formed (channels : List (List Int)) (L : Nat)
    (hL : ∀ ch ∈ channels, ch.length = L) :
    ∀ frame ∈ frameset_frames channels,
      (frame.length = 1 ∨ frame.length = 2) ∧
      ((frame.getD 0 []).length = (frame.getD 1 []).length ∨ frame.length = 1) := by
  intro frame hf
  rw [frameset_frames_eq_layout, List.mem_map] at hf
  obtain ⟨g, hg, rfl⟩ := hf
  obtain ⟨hlen, hidx⟩ := spec_layout_groups channels.length g hg
  refine ⟨by simpa [select_channels] using hlen, ?_⟩
  rcases hlen with h1 | h2
  · right; simpa [select_channels] using h1
  · left
    match g, h2 with
    | [a, b], _ =>
      simp only [select_channels, List.map_cons, List.map_nil, List.getD_cons_zero,
        List.getD_cons_succ]
      rw [getD_length_of_mem channels L hL a (hidx a (by simp)),
        getD_length_of_mem channels L hL b (hidx b (by simp))]

theorem write_frames_isSome (e : alac_context) (analysis : lpc_analysis)
    (frames : List (List (List Int)))
    (h : ∀ frame ∈ frames, ∃ bits, write_frame e analysis frame = some bits) :
    ∃ out, write_frames e analysis frames = some out := by
  induction frames with
  | nil => exact ⟨[], rfl⟩
  | cons frame more ih =>
    obtain ⟨bits, hb⟩ := h frame (List.mem_cons_self _ _)
    obtain ⟨rest, hr⟩ := ih (fun f hf => h f (List.mem_cons_of_mem _ hf))
    exact ⟨bits ++ rest, by simp [write_frames, hb, hr]⟩

theorem write_frameset_isSome (pos : Nat) (e : alac_context)
    (ho : reference_parameters e.options) (hb : e.bits_per_sample ≤ 30)
    (analysis : lpc_analysis) (channels : List (List Int)) (L : Nat)
    (hL : ∀ ch ∈ channels, ch.length = L) :
    ∃ out, write_frameset pos e analysis channels = some out := by
  obtain ⟨frames, hf⟩ := write_frames_isSome e analysis (frameset_frames channels)
    (fun frame hfr =>
      write_frame_isSome e ho analysis frame
        (frameset_frames_well_formed channels L hL frame hfr).1
        (frameset_frames_well_formed channels L hL frame hfr).2 hb)
  unfold write_frameset
  rw [hf]
  exact ⟨_, rfl⟩

/-- C5: for every block written from a byte-aligned sink position, whenever `write_frameset`
completes, the bits it emits end with the three bits 111 followed by between 0 and 7 zero
bits, and their number is a multiple of 8; and it does complete for every block of
equal-length channels under the reference parameters (any maximum_k >= 1) and a sample width of
at most 30 bits. -/
theorem write_frameset_terminator (pos : Nat) (e : alac_context) (analysis : lpc_analysis)
    (channels : List (List Int)) (hpos : pos % 8 = 0) :
    (∀ out, write_frameset pos e analysis channels = some out →
      ∃ (frames : Bits) (pad : Nat),
        out = frames ++ [true, true, true] ++ List.replicate pad false ∧
        pad ≤ 7 ∧ out.length % 8 = 0) ∧
    (reference_parameters e.options → e.bits_per_sample ≤ 30 →
      (∃ L, ∀ ch ∈ channels, ch.length = L) →
      ∃ out, write_frameset pos e analysis channels = some out) := by
  constructor
  · intro out hout
    unfold write_frameset at hout
    cases hf : write_frames e analysis (frameset_frames channels) with
    | none => rw [hf] at hout; simp at hout
    | some frames =>
      rw [hf] at hout
      simp only [Option.some.injEq] at hout
      have h7 : write 3 7 = [true, true, true] := by decide
      rw [h7] at hout
      refine ⟨frames, (8 - (pos + (frames ++ [true, true, true]).length) % 8) % 8, ?_, ?_, ?_⟩
      · rw [← hout]; rfl
      · omega
      · rw [← hout]
        simp only [byte_align, List.length_append, List.length_replicate, List.length_cons,
          List.length_nil]
        omega
  · rintro ho hb ⟨L, hL⟩
    exact write_frameset_isSome pos e ho hb analysis channels L hL

theorem write_frameset_terminator_witness :
    16 % 8 = 0 ∧
    reference_parameters (⟨⟨4096, 10, 40, 14, 0, 4⟩, 16, []⟩ : alac_context).options ∧
    (∃ out, write_frameset 16 ⟨⟨4096, 10, 40, 14, 0, 4⟩, 16, []⟩ (fun _ => none)
      [[1, 2, 3], [4, 5, 6], [7, 8, 9]] = some out) :=
  ⟨by decide, by decide,
    (write_frameset_terminator 16 ⟨⟨4096, 10, 40, 14, 0, 4⟩, 16, []⟩ (fun _ => none)
      [[1, 2, 3], [4, 5, 6], [7, 8, 9]] (by decide)).2 (by decide) (by decide)
      ⟨3, by decide⟩⟩

end Alac

namespace Alac

/-! ## C7: order selection in `compute_coefficients` -/

theorem write_subframe_header_length (qlp_coefficients : List Int) :
    (write_subframe_header qlp_coefficients).length = 16 + 16 * qlp_coefficients.length := by
  have h : ∀ l : List Int, (l.flatMap fun c => write_signed 16 c).length = 16 * l.length := by
    intro l
    induction l with
    | nil => rfl
    | cons c l ih =>
      rw [List.flatMap_cons, List.length_append, ih, write_signed_length, List.length_cons]
      ring
  unfold write_subframe_header
  simp only [List.length_append, write_length, h]

/-- C7: for every channel whose analysis is not silent (autocorrelation R[0] != 0) and whose
order-4 and order-8 residual blocks both encode, with recorder sizes in the range of
`unsigned`: `compute_coefficients` returns the order-4 quantized coefficients and order-4
residual block if and only if bits(residual block 4) < bits(residual block 8) + 64, and the
order-8 pair otherwise; and the returned sub-frame header (16 + 16*M bits) plus residual block
is never longer than that of either order. -/
theorem compute_coefficients_order_choice (o : alac_encoding_options) (analysis : lpc_analysis)
    (samples : List Int) (sample_size : Nat) (q : qlp_orders)
    (residual_block4 residual_block8 : Bits)
    (hq : analysis samples = some q)
    (h4 : encode_residuals o sample_size
      (calculate_residuals samples sample_size q.qlp_coefficients4) = .ok residual_block4)
    (h8 : encode_residuals o sample_size
      (calculate_residuals samples sample_size q.qlp_coefficients8) = .ok residual_block8)
    (hsize : bits_written residual_block8 + 64 < 4294967296) :
    (compute_coefficients o analysis samples sample_size =
        .ok (q.qlp_coefficients4, residual_block4) ↔
      bits_written residual_block4 < bits_written residual_block8 + 64) ∧
    (¬ bits_written residual_block4 < bits_written residual_block8 + 64 →
      compute_coefficients o analysis samples sample_size =
        .ok (q.qlp_coefficients8, residual_block8)) ∧
    (∀ qlp_coefficients residual,
      compute_coefficients o analysis samples sample_size = .ok (qlp_coefficients, residual) →
      (write_subframe_header qlp_coefficients).length = 16 + 16 * qlp_coefficients.length ∧
      (write_subframe_header qlp_coefficients ++ residual).length ≤
        (write_subframe_header q.qlp_coefficients4 ++ residual_block4).length ∧
      (write_subframe_header qlp_coefficients ++ residual).length ≤
        (write_subframe_header q.qlp_coefficients8 ++ residual_block8).length) := by
  have hc : compute_coefficients o analysis samples sample_size =
      if bits_written residual_block4 < bits_written residual_block8 + 64 then
        .ok (q.qlp_coefficients4, residual_block4)
      else .ok (q.qlp_coefficients8, residual_block8) := by
    unfold compute_coefficients
    rw [hq]
    simp only [h4, h8, Outcome.ok_bind, Nat.mod_eq_of_lt hsize]
  have hne : q.qlp_coefficients4 ≠ q.qlp_coefficients8 := by
    intro h
    have := congrArg List.length h
    rw [q.length4, q.length8] at this
    omega
  by_cases hlt : bits_written residual_block4 < bits_written residual_block8 + 64
  · rw [hc, if_pos hlt]
    refine ⟨⟨fun _ => hlt, fun _ => rfl⟩, fun h => absurd hlt h, ?_⟩
    intro qlp residual hr
    simp only [Outcome.ok.injEq, Prod.mk.injEq] at hr
    obtain ⟨rfl, rfl⟩ := hr
    refine ⟨write_subframe_header_length _, le_refl _, ?_⟩
    simp only [List.length_append, write_subframe_header_length, q.length4, q.length8]
    unfold bits_written at hlt
    omega
  · rw [hc, if_neg hlt]
    refine ⟨⟨fun h => ?_, fun h => absurd h hlt⟩, fun _ => rfl, ?_⟩
    · simp only [Outcome.ok.injEq, Prod.mk.injEq] at h
      exact absurd h.1.symm hne
    · intro qlp residual hr
      simp only [Outcome.ok.injEq, Prod.mk.injEq] at hr
      obtain ⟨rfl, rfl⟩ := hr
      refine ⟨write_subframe_header_length _, ?_, le_refl _⟩
      simp only [List.length_append, write_subframe_header_length, q.length4, q.length8]
      unfold bits_written at hlt
      omega

end Alac

namespace Alac

theorem compute_coefficients_order_choice_witness :
    encode_residuals ⟨4096, 10, 40, 14, 0, 4⟩ 16
      (calculate_residuals [1, 1, 1, 1, 1, 1, 1, 1, 1, 1] 16 [0, 0, 0, 0]) =
      .ok [true, true, false, true, true, true, false, false] ∧
    encode_residuals ⟨4096, 10, 40, 14, 0, 4⟩ 16
      (calculate_residuals [1, 1, 1, 1, 1, 1, 1, 1, 1, 1] 16 [0, 0, 0, 0, 0, 0, 0, 0]) =
      .ok [true, true, false, true, true, true, false, false] ∧
    compute_coefficients ⟨4096, 10, 40, 14, 0, 4⟩
      (fun _ => some ⟨[0, 0, 0, 0], [0, 0, 0, 0, 0, 0, 0, 0], rfl, rfl⟩)
      [1, 1, 1, 1, 1, 1, 1, 1, 1, 1] 16 =
      .ok ([0, 0, 0, 0], [true, true, false, true, true, true, false, false]) :=
  ⟨by decide, by decide,
    (compute_coefficients_order_choice ⟨4096, 10, 40, 14, 0, 4⟩
      (fun _ => some ⟨[0, 0, 0, 0], [0, 0, 0, 0, 0, 0, 0, 0], rfl, rfl⟩)
      [1, 1, 1, 1, 1, 1, 1, 1, 1, 1] 16 ⟨[0, 0, 0, 0], [0, 0, 0, 0, 0, 0, 0, 0], rfl, rfl⟩
      [true, true, false, true, true, true, false, false]
      [true, true, false, true, true, true, false, false]
      rfl (by decide) (by decide) (by decide)).1.2 (by decide)⟩

/-! ## C6: leftweight search of `write_compressed_frame` -/

theorem leftweight_search_spec (candidate : Nat → Outcome Bits) (ws : List Nat) :
    ∀ (best_bits : Nat) (best payload : Bits),
      leftweight_search candidate ws best_bits best = .ok payload →
      (∀ w ∈ ws, ∃ c, candidate w = .ok c) ∧
      ((payload = best ∧ ∀ w ∈ ws, ∀ c, candidate w = .ok c → best_bits ≤ bits_written c) ∨
        (∃ w ∈ ws, candidate w = .ok payload ∧ bits_written payload < best_bits ∧
          ∀ w' ∈ ws, ∀ c, candidate w' = .ok c → bits_written payload ≤ bits_written c)) := by
  induction ws with
  | nil =>
    intro best_bits best payload h
    simp only [leftweight_search, Outcome.ok.injEq] at h
    simp [h]
  | cons w ws ih =>
    intro best_bits best payload h
    simp only [leftweight_search, Outcome.bind_eq_ok] at h
    obtain ⟨f, hf, h⟩ := h
    have hcf : ∀ c, candidate w = .ok c → c = f := by
      intro c hc
      rw [hf] at hc
      simp only [Outcome.ok.injEq] at hc
      exact hc.symm
    split at h
    · rename_i hlt
      obtain ⟨hall, hcase⟩ := ih _ _ _ h
      refine ⟨?_, Or.inr ?_⟩
      · intro w' hw'
        rcases List.mem_cons.mp hw' with rfl | hw'
        · exact ⟨f, hf⟩
        · exact hall w' hw'
      · rcases hcase with ⟨rfl, hmin⟩ | ⟨w2, hw2, hc2, hlt2, hmin⟩
        · refine ⟨w, List.mem_cons_self _ _, hf, hlt, ?_⟩
          intro w' hw' c hc
          rcases List.mem_cons.mp hw' with rfl | hw'
          · rw [hcf c hc]
          · exact hmin w' hw' c hc
        · refine ⟨w2, List.mem_cons_of_mem _ hw2, hc2, by omega, ?_⟩
          intro w' hw' c hc
          rcases List.mem_cons.mp hw' with rfl | hw'
          · rw [hcf c hc]; omega
          · exact hmin w' hw' c hc
    · rename_i hlt
      obtain ⟨hall, hcase⟩ := ih _ _ _ h
      refine ⟨?_, ?_⟩
      · intro w' hw'
        rcases List.mem_cons.mp hw' with rfl | hw'
        · exact ⟨f, hf⟩
        · exact hall w' hw'
      · rcases hcase with ⟨rfl, hmin⟩ | ⟨w2, hw2, hc2, hlt2, hmin⟩
        · left
          refine ⟨rfl, ?_⟩
          intro w' hw' c hc
          rcases List.mem_cons.mp hw' with rfl | hw'
          · rw [hcf c hc]; omega
          · exact hmin w' hw' c hc
        · right
          refine ⟨w2, List.mem_cons_of_mem _ hw2, hc2, hlt2, ?_⟩
          intro w' hw' c hc
          rcases List.mem_cons.mp hw' with rfl | hw'
          · rw [hcf c hc]; omega
          · exact hmin w' hw' c hc

theorem write_compressed_frame_stereo (e : alac_context) (analysis : lpc_analysis)
    (channels : List (List Int)) (hC : channels.length = 2) :
    write_compressed_frame e analysis channels =
      leftweight_search (interlaced_candidate e analysis channels) (leftweights e.options)
        UINT_MAX e.best_interlaced_frame := by
  have h1 : ¬ channels.length = 1 := by omega
  unfold write_compressed_frame
  by_cases hb : e.bits_per_sample ≤ 16
  · rw [if_pos hb, if_neg h1]
    congr 1
    funext w
    simp only [interlaced_candidate, if_pos hb]
  · rw [if_neg hb]
    simp only [if_neg h1]
    congr 1
    funext w
    simp only [interlaced_candidate, if_neg hb]

/-- C6: for every stereo block on the compressed path (no residual overflow) with the
leftweight range 0..4 and candidates of fewer than UINT_MAX bits, the payload
`write_compressed_frame` copies to its sink is one of the five candidates built by
`write_interlaced_frame` for leftweight 0..4, all five candidates exist, and the payload is
no longer than any of them: its bit length is the minimum of the five bit lengths. -/
theorem write_compressed_frame_leftweight_minimum (e : alac_context) (analysis : lpc_analysis)
    (channels : List (List Int)) (payload : Bits) (hC : channels.length = 2)
    (hmin : e.options.minimum_interlacing_leftweight = 0)
    (hmax : e.options.maximum_interlacing_leftweight = 4)
    (hok : write_compressed_frame e analysis channels = .ok payload)
    (hsize : ∀ w, w ≤ 4 → shorter_than (interlaced_candidate e analysis channels w) UINT_MAX) :
    (∃ w, w ≤ 4 ∧ interlaced_candidate e analysis channels w = .ok payload) ∧
    (∀ w, w ≤ 4 → ∃ c, interlaced_candidate e analysis channels w = .ok c ∧
      bits_written payload ≤ bits_written c) := by
  have hws : leftweights e.options = [0, 1, 2, 3, 4] := by
    unfold leftweights
    rw [hmin, hmax]
    rfl
  have hmem : ∀ w, w ∈ [0, 1, 2, 3, 4] ↔ w ≤ 4 := by
    intro w
    simp only [List.mem_cons, List.mem_singleton, List.not_mem_nil, or_false]
    omega
  rw [write_compressed_frame_stereo e analysis channels hC, hws] at hok
  obtain ⟨hall, hcase⟩ := leftweight_search_spec _ _ _ _ _ hok
  rcases hcase with ⟨-, hbig⟩ | ⟨w, hw, hc, -, hmin'⟩
  · exfalso
    obtain ⟨c0, hc0⟩ := hall 0 (by simp)
    have h0 := hsize 0 (by omega)
    rw [hc0] at h0
    have := hbig 0 (by simp) c0 hc0
    simp only [shorter_than] at h0
    omega
  · refine ⟨⟨w, (hmem w).1 hw, hc⟩, fun w' hw' => ?_⟩
    obtain ⟨c, hc'⟩ := hall w' ((hmem w').2 hw')
    exact ⟨c, hc', hmin' w' ((hmem w').2 hw') c hc'⟩

end Alac

namespace Alac

theorem write_compressed_frame_leftweight_minimum_witness :
    ([[3, 1, 4, 1, 5, 9, 2, 6, 5, 3], [2, 7, 1, 8, 2, 8, 1, 8, 2, 8]] :
      List (List Int)).length = 2 ∧
    (∀ w, w ≤ 4 → shorter_than (interlaced_candidate ⟨⟨4096, 10, 40, 14, 0, 4⟩, 16, []⟩
      (fun _ => none) [[3, 1, 4, 1, 5, 9, 2, 6, 5, 3], [2, 7, 1, 8, 2, 8, 1, 8, 2, 8]] w)
      UINT_MAX) ∧
    ∃ payload,
      write_compressed_frame ⟨⟨4096, 10, 40, 14, 0, 4⟩, 16, []⟩ (fun _ => none)
        [[3, 1, 4, 1, 5, 9, 2, 6, 5, 3], [2, 7, 1, 8, 2, 8, 1, 8, 2, 8]] = .ok payload ∧
      ∃ w, w ≤ 4 ∧ interlaced_candidate ⟨⟨4096, 10, 40, 14, 0, 4⟩, 16, []⟩ (fun _ => none)
        [[3, 1, 4, 1, 5, 9, 2, 6, 5, 3], [2, 7, 1, 8, 2, 8, 1, 8, 2, 8]] w = .ok payload := by
  refine ⟨rfl, by set_option maxRecDepth 1000000 in decide, ?_⟩
  cases h : write_compressed_frame ⟨⟨4096, 10, 40, 14, 0, 4⟩, 16, []⟩ (fun _ => none)
      [[3, 1, 4, 1, 5, 9, 2, 6, 5, 3], [2, 7, 1, 8, 2, 8, 1, 8, 2, 8]] with
  | ok payload =>
    exact ⟨payload, rfl,
      (write_compressed_frame_leftweight_minimum ⟨⟨4096, 10, 40, 14, 0, 4⟩, 16, []⟩
        (fun _ => none) [[3, 1, 4, 1, 5, 9, 2, 6, 5, 3], [2, 7, 1, 8, 2, 8, 1, 8, 2, 8]]
        payload rfl rfl rfl h (by set_option maxRecDepth 1000000 in decide)).1⟩
  | residual_overflow => exact absurd h (by set_option maxRecDepth 1000000 in decide)
  | abort => exact absurd h (by set_option maxRecDepth 1000000 in decide)

end Alac

namespace Alac

/-! ## C11: `TRUNCATE_BITS` -/

theorem testBit_top (n k : Nat) (h : n < 2 ^ (k + 1)) : n.testBit k = true ↔ 2 ^ k ≤ n := by
  constructor
  · intro ht
    by_contra hlt
    rw [Nat.testBit_lt_two_pow (by omega)] at ht
    exact absurd ht (by decide)
  · intro hle
    have hd : n / 2 ^ k = 1 := by
      apply Nat.div_eq_of_lt_le
      · simpa using hle
      · rw [pow_succ] at h; omega
    rw [Nat.testBit_to_div_mod, hd]
    decide

theorem TRUNCATE_BITS_spec (value : Int) (bits : Nat) (h : 1 ≤ bits) :
    -(2 : Int) ^ (bits - 1) ≤ TRUNCATE_BITS value bits ∧
    TRUNCATE_BITS value bits < 2 ^ (bits - 1) ∧
    (TRUNCATE_BITS value bits = value % 2 ^ bits ∨
      TRUNCATE_BITS value bits = value % 2 ^ bits - 2 ^ bits) := by
  obtain ⟨k, rfl⟩ : ∃ k, bits = k + 1 := ⟨bits - 1, by omega⟩
  have hp : (0 : Int) < 2 ^ (k + 1) := by positivity
  have h1 := Int.emod_nonneg value (ne_of_gt hp)
  have h2 := Int.emod_lt_of_pos value hp
  have hcast : ((value % 2 ^ (k + 1)).toNat : Int) = value % 2 ^ (k + 1) := Int.toNat_of_nonneg h1
  have hnat : (value % 2 ^ (k + 1)).toNat < 2 ^ (k + 1) := by
    have : ((value % 2 ^ (k + 1)).toNat : Int) < ((2 ^ (k + 1) : Nat) : Int) := by
      rw [hcast]; push_cast; exact h2
    exact_mod_cast this
  have htb := testBit_top _ k hnat
  have hiff : (value % 2 ^ (k + 1)).toNat.testBit k = true ↔ (2 : Int) ^ k ≤ value % 2 ^ (k + 1) := by
    rw [htb, ← hcast]
    constructor
    · intro h; exact_mod_cast h
    · intro h; exact_mod_cast h
  have hpow : (2 : Int) ^ (k + 1) = 2 * 2 ^ k := by rw [pow_succ]; ring
  unfold TRUNCATE_BITS
  simp only [Nat.add_sub_cancel]
  by_cases hb : (value % 2 ^ (k + 1)).toNat.testBit k = true
  · rw [if_pos hb]
    have := hiff.1 hb
    refine ⟨by omega, by omega, Or.inr rfl⟩
  · rw [if_neg hb]
    have : ¬ (2 : Int) ^ k ≤ value % 2 ^ (k + 1) := fun h => hb (hiff.2 h)
    have hk : (0 : Int) < 2 ^ k := by positivity
    refine ⟨by omega, by omega, Or.inl rfl⟩

/-- C11: for every integer v and every width W >= 1 (the code uses 1 <= W < 32),
`TRUNCATE_BITS(v, W)` lies in [-2^(W-1), 2^(W-1)) and is congruent to v modulo 2^W. -/
theorem TRUNCATE_BITS_range_congruent (v : Int) (W : Nat) (hW : 1 ≤ W) :
    -(2 : Int) ^ (W - 1) ≤ TRUNCATE_BITS v W ∧
    TRUNCATE_BITS v W < 2 ^ (W - 1) ∧
    TRUNCATE_BITS v W ≡ v [ZMOD 2 ^ W] := by
  obtain ⟨h1, h2, h3⟩ := TRUNCATE_BITS_spec v W hW
  refine ⟨h1, h2, ?_⟩
  unfold Int.ModEq
  rcases h3 with h | h
  · rw [h, Int.emod_emod_of_dvd _ (dvd_refl _)]
  · rw [h, Int.sub_emod, Int.emod_self, sub_zero, Int.emod_emod_of_dvd _ (dvd_refl _),
      Int.emod_emod_of_dvd _ (dvd_refl _)]

theorem TRUNCATE_BITS_range_congruent_witness :
    1 ≤ 16 ∧ -(2 : Int) ^ (16 - 1) ≤ TRUNCATE_BITS 40000 16 ∧
    TRUNCATE_BITS 40000 16 < 2 ^ (16 - 1) ∧ TRUNCATE_BITS 40000 16 = -25536 :=
  ⟨by decide, (TRUNCATE_BITS_range_congruent 40000 16 (by decide)).1,
    (TRUNCATE_BITS_range_congruent 40000 16 (by decide)).2.1, by decide⟩

end Alac

namespace Alac

/-! ## C12: `correlate_channels` -/

theorem int32_of_is_int (x : Int) (h : is_int x) : int32 x = x := by
  unfold is_int at h
  unfold int32
  omega

theorem getD_map_range (f : Nat → Int) (n i : Nat) (h : i < n) :
    ((List.range n).map f).getD i 0 = f i := by
  rw [List.getD_eq_getElem?_getD, List.getElem?_map, List.getElem?_range h]
  rfl

theorem weighted_difference_is_int (d : Int) (shift leftweight : Nat) (hd : is_int d)
    (hw : leftweight ≤ 2 ^ shift) : is_int ((d * (leftweight : Int)) / 2 ^ shift) := by
  unfold is_int at *
  have hp : (0 : Int) < 2 ^ shift := by positivity
  have hw' : (leftweight : Int) ≤ 2 ^ shift := by exact_mod_cast hw
  have hw0 : (0 : Int) ≤ leftweight := Int.natCast_nonneg _
  by_cases h0 : 0 ≤ d
  · constructor
    · have : 0 ≤ d * (leftweight : Int) / 2 ^ shift :=
        Int.ediv_nonneg (mul_nonneg h0 hw0) (le_of_lt hp)
      omega
    · have h1 : d * (leftweight : Int) ≤ d * 2 ^ shift := mul_le_mul_of_nonneg_left hw' h0
      have h2 : d * (leftweight : Int) / 2 ^ shift ≤ d * 2 ^ shift / 2 ^ shift :=
        Int.ediv_le_ediv hp h1
      rw [Int.mul_ediv_cancel _ (ne_of_gt hp)] at h2
      omega
  · have hneg : d ≤ 0 := by omega
    constructor
    · have h1 : d * 2 ^ shift ≤ d * (leftweight : Int) :=
        mul_le_mul_of_nonpos_left hw' hneg
      have h2 : d * 2 ^ shift / 2 ^ shift ≤ d * (leftweight : Int) / 2 ^ shift :=
        Int.ediv_le_ediv hp h1
      rw [Int.mul_ediv_cancel _ (ne_of_gt hp)] at h2
      omega
    · have h1 : d * (leftweight : Int) ≤ 0 := mul_nonpos_of_nonpos_of_nonneg hneg hw0
      have h2 : d * (leftweight : Int) / 2 ^ shift ≤ 0 / 2 ^ shift := Int.ediv_le_ediv hp h1
      simp only [Int.zero_ediv] at h2
      omega

/-- C12: for every pair of equal-length channels (L, R): with leftweight 0,
`correlate_channels` returns (L, R) unchanged; with leftweight > 0 and shift s it returns two
lists of the input length with, for every frame i, correlated1[i] = L[i] - R[i] and
correlated0[i] = R[i] + floor(((L[i] - R[i]) * leftweight) / 2^s) (arithmetic right shift)
whenever that quotient is an `int`, which it is when L[i] - R[i] is an `int` and
leftweight <= 2^s (the encoder uses s = 2 and leftweight <= 4); in general the quotient goes
through the conversion `(int)`. -/
theorem correlate_channels_spec (L R : List Int) (s leftweight : Nat)
    (hlen : L.length = R.length) :
    (leftweight = 0 → correlate_channels [L, R] s leftweight = .ok [L, R]) ∧
    (leftweight > 0 →
      ∃ correlated0 correlated1,
        correlate_channels [L, R] s leftweight = .ok [correlated0, correlated1] ∧
        correlated0.length = L.length ∧ correlated1.length = L.length ∧
        ∀ i, i < L.length →
          correlated1.getD i 0 = L.getD i 0 - R.getD i 0 ∧
          correlated0.getD i 0 =
            R.getD i 0 + int32 (((L.getD i 0 - R.getD i 0) * (leftweight : Int)) / 2 ^ s) ∧
          (is_int (((L.getD i 0 - R.getD i 0) * (leftweight : Int)) / 2 ^ s) →
            correlated0.getD i 0 =
              R.getD i 0 + ((L.getD i 0 - R.getD i 0) * (leftweight : Int)) / 2 ^ s) ∧
          (is_int (L.getD i 0 - R.getD i 0) → leftweight ≤ 2 ^ s →
            correlated0.getD i 0 =
              R.getD i 0 + ((L.getD i 0 - R.getD i 0) * (leftweight : Int)) / 2 ^ s)) := by
  have hshift : ∀ x : Int, x >>> s = x / 2 ^ s := by
    intro x
    rw [Int.shiftRight_eq_div_pow]
    norm_cast
  constructor
  · intro h0
    unfold correlate_channels
    simp [hlen, h0]
  · intro hpos
    refine ⟨(List.range L.length).map (fun i =>
        R.getD i 0 + int32 (((L.getD i 0 - R.getD i 0) * (leftweight : Int)) >>> s)),
      (List.range L.length).map (fun i => L.getD i 0 - R.getD i 0), ?_, ?_, ?_, ?_⟩
    · unfold correlate_channels
      simp only [List.length_cons, List.length_nil, List.getD_cons_zero, List.getD_cons_succ]
      rw [if_neg (by omega), if_neg (by omega), if_pos hpos]
    · simp
    · simp
    · intro i hi
      rw [getD_map_range _ _ _ hi, getD_map_range _ _ _ hi, hshift]
      refine ⟨rfl, rfl, fun hfit => ?_, fun hd hw => ?_⟩
      · rw [int32_of_is_int _ hfit]
      · rw [int32_of_is_int _ (weighted_difference_is_int _ s leftweight hd hw)]

theorem correlate_channels_spec_witness :
    ([5, -3, 7] : List Int).length = ([1, 2, 3] : List Int).length ∧ 3 > 0 ∧
    ∃ correlated0 correlated1,
      correlate_channels [[5, -3, 7], [1, 2, 3]] 2 3 = .ok [correlated0, correlated1] ∧
      correlated0.length = 3 ∧ correlated1.length = 3 :=
  ⟨rfl, by decide,
    match (correlate_channels_spec [5, -3, 7] [1, 2, 3] 2 3 rfl).2 (by decide) with
    | ⟨c0, c1, h, h0, h1, _⟩ => ⟨c0, c1, h, h0, h1⟩⟩

end Alac

namespace Alac

/-! ## C13: LSB and MSB extraction for 24-bit samples -/

theorem flatMap_map_getElem? {α : Type} (f : Nat → Nat → α) (L C i c : Nat) (hi : i < L)
    (hc : c < C) :
    ((List.range L).flatMap fun i => (List.range C).map (f i))[i * C + c]? = some (f i c) := by
  obtain ⟨-, hslice⟩ := flatMap_range_slice (fun i => (List.range C).map (f i)) C L
    (fun j _ => by simp)
  rw [← List.getElem?_drop, ← List.getElem?_take_of_lt hc, hslice i hi, List.getElem?_map,
    List.getElem?_range hc]
  rfl

theorem flatMap_map_length {α : Type} (f : Nat → Nat → α) (L C : Nat) :
    ((List.range L).flatMap fun i => (List.range C).map (f i)).length = L * C :=
  (flatMap_range_slice (fun i => (List.range C).map (f i)) C L (fun j _ => by simp)).1

theorem frame_count_eq (channels : List (List Int)) (L : Nat)
    (hL : ∀ ch ∈ channels, ch.length = L) (hC : 0 < channels.length) :
    (channels.getD 0 []).length = L :=
  getD_length_of_mem channels L hL 0 hC

theorem extract_LSBs_length (B : Nat) (channels : List (List Int)) (L : Nat)
    (hL : ∀ ch ∈ channels, ch.length = L) :
    (extract_LSBs B channels).length = L * channels.length := by
  unfold extract_LSBs
  rw [flatMap_map_length]
  rcases Nat.eq_zero_or_pos channels.length with h0 | hpos
  · rw [h0]; simp
  · rw [frame_count_eq channels L hL hpos]

theorem extract_LSBs_getElem? (B : Nat) (channels : List (List Int)) (L i c : Nat)
    (hL : ∀ ch ∈ channels, ch.length = L) (hi : i < L) (hc : c < channels.length) :
    (extract_LSBs B channels)[i * channels.length + c]? =
      some (((channels.getD c []).getD i 0) % 2 ^ (B - 16)) := by
  unfold extract_LSBs
  rw [frame_count_eq channels L hL (by omega)]
  exact flatMap_map_getElem?
    (fun i c => ((channels.getD c []).getD i 0) % 2 ^ (B - 16)) L channels.length i c hi hc

theorem getD_map_range_gen {α : Type} (f : Nat → α) (n i : Nat) (d : α) (h : i < n) :
    ((List.range n).map f).getD i d = f i := by
  rw [List.getD_eq_getElem?_getD, List.getElem?_map, List.getElem?_range h]
  rfl

theorem extract_MSBs_getD (B : Nat) (channels : List (List Int)) (L i c : Nat)
    (hL : ∀ ch ∈ channels, ch.length = L) (hi : i < L) (hc : c < channels.length) :
    ((extract_MSBs B channels).getD c []).getD i 0 =
      ((channels.getD c []).getD i 0) >>> (B - 16) := by
  unfold extract_MSBs
  rw [frame_count_eq channels L hL (by omega), getD_map_range_gen _ _ _ _ hc,
    getD_map_range_gen _ _ _ _ hi]

/-- C13: for bits_per_sample = 24 and every frame of C equal-length channels of length L,
`write_compressed_frame` hands to the frame writers, with uncompressed_LSBs = 1, an LSB list
of exactly L*C entries whose entry i*C + c is the low 8 bits of sample (i, c) (a value in
[0, 256)), and MSB channels with MSB[c][i] = sample >> 8 (arithmetic, the floor of
sample / 256), so that MSB[c][i] * 256 + LSB[i*C + c] equals the original sample for every i
and c. -/
theorem write_compressed_frame_LSB_MSB (e : alac_context) (analysis : lpc_analysis)
    (channels : List (List Int)) (L : Nat) (hB : e.bits_per_sample = 24)
    (hL : ∀ ch ∈ channels, ch.length = L) :
    (channels.length = 1 →
      write_compressed_frame e analysis channels =
        write_non_interlaced_frame e analysis 1 (extract_LSBs 24 channels)
          (extract_MSBs 24 channels)) ∧
    (channels.length ≠ 1 →
      write_compressed_frame e analysis channels =
        leftweight_search
          (fun leftweight =>
            write_interlaced_frame e analysis 1 (extract_LSBs 24 channels) INTERLACING_SHIFT
              leftweight (extract_MSBs 24 channels))
          (leftweights e.options) UINT_MAX e.best_interlaced_frame) ∧
    (extract_LSBs 24 channels).length = L * channels.length ∧
    (extract_MSBs 24 channels).length = channels.length ∧
    ∀ i c, i < L → c < channels.length →
      (extract_LSBs 24 channels)[i * channels.length + c]? =
        some (((channels.getD c []).getD i 0) % 256) ∧
      0 ≤ ((channels.getD c []).getD i 0) % 256 ∧
      ((channels.getD c []).getD i 0) % 256 < 256 ∧
      ((extract_MSBs 24 channels).getD c []).length = L ∧
      ((extract_MSBs 24 channels).getD c []).getD i 0 =
        ((channels.getD c []).getD i 0) >>> (8 : Nat) ∧
      ((channels.getD c []).getD i 0) >>> (8 : Nat) = ((channels.getD c []).getD i 0) / 256 ∧
      ((extract_MSBs 24 channels).getD c []).getD i 0 * 256 +
        ((channels.getD c []).getD i 0) % 256 = (channels.getD c []).getD i 0 := by
  have h16 : ¬ e.bits_per_sample ≤ 16 := by omega
  refine ⟨fun h1 => ?_, fun h1 => ?_, extract_LSBs_length 24 channels L hL, ?_, ?_⟩
  · unfold write_compressed_frame
    rw [if_neg h16]
    simp only [hB, if_pos h1]
  · unfold write_compressed_frame
    rw [if_neg h16]
    simp only [hB, if_neg h1]
  · simp [extract_MSBs]
  · intro i c hi hc
    have hshift : ((channels.getD c []).getD i 0) >>> (8 : Nat) =
        ((channels.getD c []).getD i 0) / 256 := by
      rw [Int.shiftRight_eq_div_pow]; norm_num
    have hmsb : ((extract_MSBs 24 channels).getD c []).getD i 0 =
        ((channels.getD c []).getD i 0) >>> (8 : Nat) :=
      extract_MSBs_getD 24 channels L i c hL hi hc
    have hlsb := extract_LSBs_getElem? 24 channels L i c hL hi hc
    rw [show (2 : Int) ^ (24 - 16) = 256 by norm_num] at hlsb
    refine ⟨hlsb, by omega, by omega, ?_, hmsb, hshift, ?_⟩
    · unfold extract_MSBs
      rw [frame_count_eq channels L hL (by omega), getD_map_range_gen _ _ _ _ hc]
      simp
    · rw [hmsb, hshift]
      omega

theorem write_compressed_frame_LSB_MSB_witness :
    (⟨⟨4096, 10, 40, 14, 0, 4⟩, 24, []⟩ : alac_context).bits_per_sample = 24 ∧
    (∀ ch ∈ ([[-70000, 513], [255, -1]] : List (List Int)), ch.length = 2) ∧
    (extract_LSBs 24 [[-70000, 513], [255, -1]]).length = 2 * 2 ∧
    extract_LSBs 24 [[-70000, 513], [255, -1]] = [144, 255, 1, 255] ∧
    extract_MSBs 24 [[-70000, 513], [255, -1]] = [[-274, 2], [0, -1]] :=
  ⟨rfl, by decide,
    (write_compressed_frame_LSB_MSB ⟨⟨4096, 10, 40, 14, 0, 4⟩, 24, []⟩ (fun _ => none)
      [[-70000, 513], [255, -1]] 2 rfl (by decide)).2.2.1, by decide, by decide⟩

end Alac

namespace Alac

/-! ## C15: `write_subframe_header` -/

theorem write_succ (n value : Nat) : write (n + 1) value = value.testBit n :: write n value := by
  unfold write
  rw [List.range_succ_eq_map, List.map_cons, List.map_map]
  congr 1
  apply List.map_congr_left
  intro i _
  simp only [Function.comp_apply]
  congr 1
  omega

theorem bits_value_foldl (bits : Bits) (acc : Nat) :
    bits.foldl (fun acc b => 2 * acc + (if b then 1 else 0)) acc =
      acc * 2 ^ bits.length + bits_value bits := by
  induction bits generalizing acc with
  | nil => simp [bits_value]
  | cons b bs ih =>
    unfold bits_value
    rw [List.foldl_cons, List.foldl_cons, ih, ih (2 * 0 + if b = true then 1 else 0),
      List.length_cons, pow_succ]
    ring

theorem bits_value_cons (b : Bool) (bits : Bits) :
    bits_value (b :: bits) = (if b then 1 else 0) * 2 ^ bits.length + bits_value bits := by
  unfold bits_value
  rw [List.foldl_cons, bits_value_foldl]
  simp [bits_value]

theorem bits_value_write (n value : Nat) : bits_value (write n value) = value % 2 ^ n := by
  induction n with
  | zero => simp [write, bits_value, Nat.mod_one]
  | succ n ih =>
    rw [write_succ, bits_value_cons, ih, write_length, Nat.mod_pow_succ,
      Nat.testBit_to_div_mod]
    have h2 : value / 2 ^ n % 2 = 0 ∨ value / 2 ^ n % 2 = 1 := by omega
    rcases h2 with h | h
    · simp [h]
    · simp [h]
      ring

theorem map_getD_range (q : List Int) : (List.range q.length).map (fun i => q.getD i 0) = q := by
  apply List.ext_getElem
  · simp
  · intro i h1 h2
    simp [List.getD_eq_getElem?_getD, List.getElem?_eq_getElem h2]

/-- C15: for every coefficient list q of length M < 32, `write_subframe_header` emits exactly
16 + 16*M bits: the 4-bit value 0, the 4-bit value 9, the 3-bit value 4, M as a 5-bit field
(whose value is M), then q[0..M) in order, each as a 16-bit two's-complement field. -/
theorem write_subframe_header_layout (q : List Int) (hM : q.length < 32) :
    ∃ body : Bits,
      write_subframe_header q =
        [false, false, false, false] ++ [true, false, false, true] ++ [true, false, false] ++
          write 5 q.length ++ body ∧
      bits_value [false, false, false, false] = 0 ∧
      bits_value [true, false, false, true] = 9 ∧
      bits_value [true, false, false] = 4 ∧
      (write 5 q.length).length = 5 ∧
      bits_value (write 5 q.length) = q.length ∧
      body.length = 16 * q.length ∧
      (∀ i, i < q.length → (body.drop (i * 16)).take 16 = write_signed 16 (q.getD i 0)) ∧
      (write_subframe_header q).length = 16 + 16 * q.length := by
  have hbody : (q.flatMap fun c => write_signed 16 c) =
      (List.range q.length).flatMap fun i => write_signed 16 (q.getD i 0) := by
    conv_lhs => rw [← map_getD_range q]
    rw [List.flatMap_map]
  obtain ⟨hlen, hslice⟩ := flatMap_range_slice (fun i => write_signed 16 (q.getD i 0)) 16
    q.length (fun j _ => write_signed_length _ _)
  refine ⟨(List.range q.length).flatMap fun i => write_signed 16 (q.getD i 0), ?_, by decide,
    by decide, by decide, write_length _ _, ?_, ?_, hslice, write_subframe_header_length q⟩
  · unfold write_subframe_header
    rw [hbody]
    rfl
  · rw [bits_value_write]
    exact Nat.mod_eq_of_lt (by norm_num; omega)
  · rw [hlen]; ring

theorem write_subframe_header_layout_witness :
    ([160, -80, 32, -8] : List Int).length < 32 ∧
    (write_subframe_header [160, -80, 32, -8]).length = 16 + 16 * 4 :=
  ⟨by decide,
    match write_subframe_header_layout [160, -80, 32, -8] (by decide) with
    | ⟨_, h⟩ => h.2.2.2.2.2.2.2.2⟩

end Alac

namespace Alac

/-! ## C17: first residuals of `calculate_residuals` -/

theorem calculate_residuals_loop_length (samples : List Int) (sample_size coeff_count : Nat)
    (n : Nat) : ∀ (i : Nat) (coefficients : List Int),
      (calculate_residuals_loop samples sample_size coeff_count n i coefficients).length = n := by
  induction n with
  | zero => intro i coefficients; rfl
  | succ n ih =>
    intro i coefficients
    rw [calculate_residuals_loop, List.length_cons, ih]

theorem foldl_add_eq_sum (g : Nat → Int) (l : List Nat) (init : Int) :
    l.foldl (fun acc j => acc + g j) init = init + (l.map g).sum := by
  induction l generalizing init with
  | nil => simp
  | cons x xs ih =>
    rw [List.foldl_cons, ih, List.map_cons, List.sum_cons]
    ring

theorem lpc_sum_eq (samples coefficients : List Int) (i coeff_count : Nat) (base_sample : Int) :
    lpc_sum samples coefficients i coeff_count base_sample =
      256 + ((List.range coeff_count).map fun j =>
        coefficients.getD j 0 * (samples.getD (i - j - 1) 0 - base_sample)).sum := by
  unfold lpc_sum
  exact foldl_add_eq_sum
    (fun j => coefficients.getD j 0 * (samples.getD (i - j - 1) 0 - base_sample)) _ 256

theorem TRUNCATE_BITS_congr (a b : Int) (bits : Nat) (h : a % 2 ^ bits = b % 2 ^ bits) :
    TRUNCATE_BITS a bits = TRUNCATE_BITS b bits := by
  unfold TRUNCATE_BITS
  rw [h]

theorem int32_emod (x : Int) (bits : Nat) (h : bits ≤ 32) :
    (int32 x) % 2 ^ bits = x % 2 ^ bits := by
  have hdvd : (2 : Int) ^ bits ∣ 4294967296 := by
    have : (4294967296 : Int) = 2 ^ 32 := by norm_num
    rw [this]
    exact pow_dvd_pow 2 h
  have h32 : int32 x = x - 4294967296 * ((x + 2147483648) / 4294967296) := by
    unfold int32
    omega
  rw [Int.emod_emod_of_dvd x hdvd |>.symm, Int.emod_emod_of_dvd (int32 x) hdvd |>.symm]
  congr 1
  rw [h32]
  omega

theorem calculate_residuals_unfold (s q : List Int) (W : Nat) (hM : q.length < 31) :
    calculate_residuals s W q =
      s.getD 0 0 ::
        (((List.range q.length).map fun t =>
            TRUNCATE_BITS (s.getD (t + 1) 0 - s.getD t 0) W) ++
          calculate_residuals_loop s W q.length (s.length - (q.length + 1)) (q.length + 1) q) := by
  unfold calculate_residuals
  simp only [if_pos hM, List.cons_append]

/-- C17: for every sample sequence s of length N >= M + 1, every width W <= 32 (the code uses
W < 32) and every coefficient list q of length M in {4, 8}, `calculate_residuals` returns
exactly N residuals with e[0] = s[0] (not truncated), e[i] = TRUNCATE_W(s[i] - s[i-1]) for
i = 1..M, and, when N > M + 1,
e[M+1] = TRUNCATE_W(s[M+1] - s[0] - ((256 + sum_{j<M} q[j]*(s[M-j] - s[0])) >> 9)), computed
with the unrefined coefficients. -/
theorem calculate_residuals_first_entries (s q : List Int) (W : Nat)
    (hM : q.length = 4 ∨ q.length = 8) (hN : q.length + 1 ≤ s.length) (hW : W ≤ 32) :
    (calculate_residuals s W q).length = s.length ∧
    (calculate_residuals s W q)[0]? = some (s.getD 0 0) ∧
    (∀ i, 1 ≤ i → i ≤ q.length →
      (calculate_residuals s W q)[i]? =
        some (TRUNCATE_BITS (s.getD i 0 - s.getD (i - 1) 0) W)) ∧
    (q.length + 1 < s.length →
      (calculate_residuals s W q)[q.length + 1]? =
        some (TRUNCATE_BITS
          (s.getD (q.length + 1) 0 - s.getD 0 0 - spec_first_prediction s q q.length) W)) := by
  have hM31 : q.length < 31 := by omega
  rw [calculate_residuals_unfold s q W hM31]
  refine ⟨?_, by simp, ?_, ?_⟩
  · simp only [List.length_cons, List.length_append, List.length_map, List.length_range,
      calculate_residuals_loop_length]
    omega
  · intro i h1 h2
    obtain ⟨t, rfl⟩ : ∃ t, i = t + 1 := ⟨i - 1, by omega⟩
    rw [List.getElem?_cons_succ, List.getElem?_append_left (by simp; omega),
      List.getElem?_map, List.getElem?_range (by omega)]
    rfl
  · intro hgt
    obtain ⟨n, hn⟩ : ∃ n, s.length - (q.length + 1) = n + 1 :=
      ⟨s.length - (q.length + 1) - 1, by omega⟩
    rw [List.getElem?_cons_succ, List.getElem?_append_right (by simp), hn,
      calculate_residuals_loop]
    simp only [List.length_map, List.length_range, Nat.sub_self, List.getElem?_cons_zero,
      Option.some.injEq]
    apply TRUNCATE_BITS_congr
    have hbase : q.length + 1 - q.length - 1 = 0 := by omega
    have hidx : ∀ j, q.length + 1 - j - 1 = q.length - j := by intro j; omega
    rw [hbase, lpc_sum_eq]
    simp only [hidx]
    have hpred : spec_first_prediction s q q.length =
        (256 + ((List.range q.length).map fun j =>
          q.getD j 0 * (s.getD (q.length - j) 0 - s.getD 0 0)).sum) >>> (9 : Nat) := rfl
    rw [hpred, Int.sub_emod, int32_emod _ _ hW, ← Int.sub_emod]

theorem calculate_residuals_first_entries_witness :
    (([160, -80, 32, -8] : List Int).length = 4 ∨ ([160, -80, 32, -8] : List Int).length = 8) ∧
    ([160, -80, 32, -8] : List Int).length + 1 ≤
      ([4, -3, 12, 40, 1, 7, 0, -20, 5, 9, 11, 2] : List Int).length ∧
    16 ≤ 32 ∧
    (calculate_residuals [4, -3, 12, 40, 1, 7, 0, -20, 5, 9, 11, 2] 16
      [160, -80, 32, -8]).length = 12 :=
  ⟨by decide, by decide, by decide,
    (calculate_residuals_first_entries [4, -3, 12, 40, 1, 7, 0, -20, 5, 9, 11, 2]
      [160, -80, 32, -8] 16 (by decide) (by decide) (by decide)).1⟩

end Alac

namespace Alac

/-! ## Size of a residual block -/

theorem write_residual_length_le (value k sample_size : Nat) (code : Bits)
    (h : write_residual value k sample_size = .ok code) :
    code.length ≤ 9 + sample_size + k := by
  unfold write_residual at h
  simp only at h
  split at h
  · simp at h
  · split at h
    · simp only [Outcome.ok.injEq] at h
      rw [← h]
      simp only [List.length_append, write_length]
      omega
    · rename_i hmsb
      simp only [Outcome.ok.injEq] at h
      rw [← h]
      simp only [List.length_append, write_unary_length]
      split
      · split <;> simp only [write_length] <;> omega
      · simp only [List.length_nil]
        omega

theorem encode_residuals_loop_length_le (o : alac_encoding_options) (sample_size : Nat)
    (fuel : Nat) :
    ∀ (history : Int) (sign_modifier : Nat) (remaining : List Int) (block : Bits),
      encode_residuals_loop o sample_size fuel history sign_modifier remaining = .ok block →
      block.length ≤ remaining.length * (34 + sample_size + 2 * o.maximum_k) := by
  obtain ⟨T, hT⟩ : ∃ T, T = 34 + sample_size + 2 * o.maximum_k := ⟨_, rfl⟩
  rw [← hT]
  induction fuel with
  | zero =>
    intro history sign_modifier remaining block h
    simp only [encode_residuals_loop, Outcome.ok.injEq] at h
    rw [← h]
    simp
  | succ fuel ih =>
    intro history sign_modifier remaining block h
    cases remaining with
    | nil =>
      simp only [encode_residuals_loop, Outcome.ok.injEq] at h
      rw [← h]
      simp
    | cons r rest =>
      have hdl : (rest.dropWhile (fun x => decide (x = 0))).length ≤ rest.length :=
        (List.dropWhile_suffix _).length_le
      have hmul : (r :: rest).length * T = rest.length * T + T := by
        rw [List.length_cons]; ring
      rw [hmul]
      simp only [encode_residuals_loop] at h
      split at h
      · simp at h
      · simp only [Outcome.bind_eq_ok] at h
        obtain ⟨l, -, code, hcode, h⟩ := h
        have hc := write_residual_length_le _ _ _ _ hcode
        have hk : min l o.maximum_k ≤ o.maximum_k := min_le_right _ _
        split at h
        · split at h
          · simp only [Outcome.bind_eq_ok, Outcome.ok.injEq] at h
            obtain ⟨l0, -, run, hrun, tail, htail, hb⟩ := h
            have hr := write_residual_length_le _ _ _ _ hrun
            have ht := ih _ _ _ _ htail
            have hk0 : min (uint32 (7 - (l0 : Int) + (uint32 ((history +
                (int32 ((fold_residual r * o.history_multiplier : Nat) : Int) -
                  ((history * int32 o.history_multiplier) >>> (9 : Nat))) + 16) >>> (6 : Nat)) :
                    Int))) o.maximum_k ≤ o.maximum_k := min_le_right _ _
            have hm := Nat.mul_le_mul_right T hdl
            rw [← hb]
            simp only [List.length_append]
            omega
          · simp only [Outcome.bind_eq_ok, Outcome.ok.injEq] at h
            obtain ⟨tail, htail, hb⟩ := h
            have ht := ih _ _ _ _ htail
            rw [← hb]
            simp only [List.length_append]
            omega
        · simp only [Outcome.bind_eq_ok, Outcome.ok.injEq] at h
          obtain ⟨tail, htail, hb⟩ := h
          have ht := ih _ _ _ _ htail
          rw [← hb]
          simp only [List.length_append]
          omega

theorem encode_residuals_length_le (o : alac_encoding_options) (sample_size : Nat)
    (residuals : List Int) (block : Bits)
    (h : encode_residuals o sample_size residuals = .ok block) :
    block.length ≤ residuals.length * (34 + sample_size + 2 * o.maximum_k) :=
  encode_residuals_loop_length_le o sample_size _ _ _ _ _ h

end Alac

namespace Alac

/-! ## C19: constant channels -/

theorem TRUNCATE_BITS_zero (bits : Nat) : TRUNCATE_BITS 0 bits = 0 := by
  unfold TRUNCATE_BITS
  simp

theorem getD_replicate_lt (N i : Nat) (c : Int) (h : i < N) :
    (List.replicate N c).getD i 0 = c := by
  rw [List.getD_eq_getElem?_getD, List.getElem?_replicate, if_pos h]
  rfl

theorem lpc_sum_constant (N : Nat) (c : Int) (coefficients : List Int) (i coeff_count : Nat)
    (hi : i < N) :
    lpc_sum (List.replicate N c) coefficients i coeff_count c = 256 := by
  rw [lpc_sum_eq]
  have : ((List.range coeff_count).map fun j =>
      coefficients.getD j 0 * ((List.replicate N c).getD (i - j - 1) 0 - c)) =
      (List.range coeff_count).map fun _ => (0 : Int) := by
    apply List.map_congr_left
    intro j _
    rw [getD_replicate_lt N (i - j - 1) c (by omega)]
    ring
  rw [this]
  simp

theorem calculate_residuals_loop_constant (N : Nat) (c : Int) (sample_size coeff_count : Nat)
    (n : Nat) : ∀ (i : Nat) (coefficients : List Int), i + n ≤ N →
      calculate_residuals_loop (List.replicate N c) sample_size coeff_count n i coefficients =
        List.replicate n 0 := by
  induction n with
  | zero => intro i coefficients _; rfl
  | succ n ih =>
    intro i coefficients hi
    have hsum : lpc_sum (List.replicate N c) coefficients i coeff_count c >>> (9 : Nat) = 0 := by
      rw [lpc_sum_constant N c coefficients i coeff_count (by omega)]
      decide
    have herr : TRUNCATE_BITS ((List.replicate N c).getD i 0 -
        (List.replicate N c).getD (i - coeff_count - 1) 0 -
        int32 (lpc_sum (List.replicate N c) coefficients i coeff_count
          ((List.replicate N c).getD (i - coeff_count - 1) 0) >>> (9 : Nat))) sample_size = 0 := by
      rw [getD_replicate_lt N i c (by omega),
        getD_replicate_lt N (i - coeff_count - 1) c (by omega), hsum]
      have : c - c - int32 0 = 0 := by
        have : int32 0 = 0 := by decide
        rw [this]; ring
      rw [this, TRUNCATE_BITS_zero]
    rw [calculate_residuals_loop]
    simp only [herr, lt_self_iff_false, if_false]
    rw [ih (i + 1) coefficients (by omega), List.replicate_succ]

theorem calculate_residuals_constant (N : Nat) (c : Int) (sample_size : Nat) (q : List Int)
    (hM : q.length < 31) (hN : q.length + 1 ≤ N) :
    calculate_residuals (List.replicate N c) sample_size q = c :: List.replicate (N - 1) 0 := by
  rw [calculate_residuals_unfold _ q sample_size hM, List.length_replicate,
    calculate_residuals_loop_constant N c sample_size q.length _ _ _ (by omega),
    getD_replicate_lt N 0 c (by omega)]
  congr 1
  have hwarm : ((List.range q.length).map fun t =>
      TRUNCATE_BITS ((List.replicate N c).getD (t + 1) 0 - (List.replicate N c).getD t 0)
        sample_size) = List.replicate q.length 0 := by
    rw [List.eq_replicate_iff]
    refine ⟨by simp, ?_⟩
    intro x hx
    rw [List.mem_map] at hx
    obtain ⟨t, ht, rfl⟩ := hx
    rw [List.mem_range] at ht
    rw [getD_replicate_lt N (t + 1) c (by omega), getD_replicate_lt N t c (by omega), sub_self,
      TRUNCATE_BITS_zero]
  rw [hwarm, ← List.replicate_add]
  congr 1
  omega

end Alac

namespace Alac

theorem spec_fold_zero_lt (sample_size : Nat) : ¬ (2 : Int) ^ sample_size ≤ spec_fold 0 := by
  have hp : (0 : Int) < 2 ^ sample_size := by positivity
  have : spec_fold 0 = 0 := by decide
  rw [this]
  omega

theorem compute_coefficients_constant (o : alac_encoding_options) (analysis : lpc_analysis)
    (N : Nat) (c : Int) (sample_size : Nat) (q : qlp_orders) (hN : 10 ≤ N)
    (hq : analysis (List.replicate N c) = some q)
    (hsize : N * (34 + sample_size + 2 * o.maximum_k) + 64 < 4294967296) :
    compute_coefficients o analysis (List.replicate N c) sample_size =
      (encode_residuals o sample_size (c :: List.replicate (N - 1) 0)).bind fun b =>
        .ok (q.qlp_coefficients4, b) := by
  have h4 := calculate_residuals_constant N c sample_size q.qlp_coefficients4
    (by rw [q.length4]; decide) (by rw [q.length4]; omega)
  have h8 := calculate_residuals_constant N c sample_size q.qlp_coefficients8
    (by rw [q.length8]; decide) (by rw [q.length8]; omega)
  unfold compute_coefficients
  rw [hq]
  simp only [h4, h8]
  cases hb : encode_residuals o sample_size (c :: List.replicate (N - 1) 0) with
  | ok b =>
    have hlen := encode_residuals_length_le o sample_size _ b hb
    simp only [List.length_cons, List.length_replicate] at hlen
    have hN1 : N - 1 + 1 = N := by omega
    rw [hN1] at hlen
    simp only [Outcome.ok_bind, bits_written]
    have hmod : (b.length + 64) % 4294967296 = b.length + 64 := Nat.mod_eq_of_lt (by omega)
    rw [if_pos (by omega)]
  | residual_overflow => rfl
  | abort => rfl

/-- C19: for every constant channel (all N >= 10 samples equal to the same value c) and every
coefficient list of length 4 or 8, `calculate_residuals` returns c followed by N - 1 zeros;
the order-4 and order-8 residual blocks are therefore the same, and, for a non-silent analysis
and block sizes in the range of `unsigned`, `compute_coefficients` does with the order-4
coefficients whatever `encode_residuals` does with that residual list: it returns them with
the block, which exists under the reference parameters when c is an `int` whose folded value
is below 2^sample_size. -/
theorem constant_channel_selects_order4 (o : alac_encoding_options) (analysis : lpc_analysis)
    (N : Nat) (c : Int) (sample_size : Nat) (hN : 10 ≤ N) :
    (∀ q : List Int, q.length = 4 ∨ q.length = 8 →
      calculate_residuals (List.replicate N c) sample_size q = c :: List.replicate (N - 1) 0) ∧
    (∀ q : qlp_orders, analysis (List.replicate N c) = some q →
      encode_residuals o sample_size
          (calculate_residuals (List.replicate N c) sample_size q.qlp_coefficients4) =
        encode_residuals o sample_size
          (calculate_residuals (List.replicate N c) sample_size q.qlp_coefficients8) ∧
      (N * (34 + sample_size + 2 * o.maximum_k) + 64 < 4294967296 →
        compute_coefficients o analysis (List.replicate N c) sample_size =
          (encode_residuals o sample_size (c :: List.replicate (N - 1) 0)).bind fun b =>
            .ok (q.qlp_coefficients4, b)) ∧
      (N * (34 + sample_size + 2 * o.maximum_k) + 64 < 4294967296 →
        reference_parameters o → is_int c → spec_fold c < 2 ^ sample_size →
        ∃ b, compute_coefficients o analysis (List.replicate N c) sample_size =
          .ok (q.qlp_coefficients4, b))) := by
  have hres : ∀ q : List Int, q.length = 4 ∨ q.length = 8 →
      calculate_residuals (List.replicate N c) sample_size q = c :: List.replicate (N - 1) 0 :=
    fun q hq => calculate_residuals_constant N c sample_size q (by omega) (by omega)
  refine ⟨hres, fun q hq => ⟨?_, fun hsize => ?_, fun hsize href hc hfold => ?_⟩⟩
  · rw [hres _ (Or.inl q.length4), hres _ (Or.inr q.length8)]
  · exact compute_coefficients_constant o analysis N c sample_size q hN hq hsize
  · rw [compute_coefficients_constant o analysis N c sample_size q hN hq hsize]
    have hints : ∀ r ∈ c :: List.replicate (N - 1) 0, is_int r := by
      intro r hr
      rcases List.mem_cons.mp hr with rfl | hr
      · exact hc
      · rw [List.eq_of_mem_replicate hr]; decide
    have hna := encode_residuals_no_abort o href sample_size (c :: List.replicate (N - 1) 0)
      (fun r hr => hints r (List.mem_of_mem_tail hr))
    have hs := (encode_residuals_sound o sample_size _ hints).1
    cases hb : encode_residuals o sample_size (c :: List.replicate (N - 1) 0) with
    | ok b => exact ⟨b, rfl⟩
    | residual_overflow =>
      obtain ⟨r, hr, hro⟩ := hs hb
      rcases List.mem_cons.mp hr with rfl | hr
      · omega
      · rw [List.eq_of_mem_replicate hr] at hro
        exact absurd hro (spec_fold_zero_lt sample_size)
    | abort => exact absurd hb hna

theorem constant_channel_selects_order4_witness :
    10 ≤ 4096 ∧
    calculate_residuals (List.replicate 4096 100) 16 [160, -80, 32, -8] =
      100 :: List.replicate (4096 - 1) 0 ∧
    ∃ b, compute_coefficients ⟨4096, 10, 40, 14, 0, 4⟩
      (fun _ => some ⟨[160, -80, 32, -8], [160, -80, 32, -8, 4, -2, 1, 0], rfl, rfl⟩)
      (List.replicate 4096 100) 16 = .ok ([160, -80, 32, -8], b) :=
  ⟨by decide,
    (constant_channel_selects_order4 ⟨4096, 10, 40, 14, 0, 4⟩
      (fun _ => some ⟨[160, -80, 32, -8], [160, -80, 32, -8, 4, -2, 1, 0], rfl, rfl⟩)
      4096 100 16 (by decide)).1 [160, -80, 32, -8] (Or.inl rfl),
    ((constant_channel_selects_order4 ⟨4096, 10, 40, 14, 0, 4⟩
      (fun _ => some ⟨[160, -80, 32, -8], [160, -80, 32, -8, 4, -2, 1, 0], rfl, rfl⟩)
      4096 100 16 (by decide)).2
      ⟨[160, -80, 32, -8], [160, -80, 32, -8, 4, -2, 1, 0], rfl, rfl⟩ rfl).2.2
      (by decide) (by decide) (by decide) (by decide)⟩

end Alac

namespace Alac

/-! ## C18: all-zero channels -/

theorem write_residual_length_le_max (value k sample_size : Nat) (code : Bits)
    (h : write_residual value k sample_size = .ok code) :
    code.length ≤ 9 + max sample_size k := by
  unfold write_residual at h
  simp only at h
  split at h
  · simp at h
  · split at h
    · simp only [Outcome.ok.injEq] at h
      rw [← h]
      simp only [List.length_append, write_length]
      omega
    · rename_i hmsb
      simp only [Outcome.ok.injEq] at h
      rw [← h]
      simp only [List.length_append, write_unary_length]
      split
      · split <;> simp only [write_length] <;> omega
      · simp only [List.length_nil]
        omega

theorem write_residual_zero_one (sample_size : Nat) :
    write_residual 0 1 sample_size = .ok [false] := by
  unfold write_residual
  simp [write_unary]

theorem encode_residuals_loop_nil (o : alac_encoding_options) (sample_size fuel : Nat)
    (history : Int) (sign_modifier : Nat) :
    encode_residuals_loop o sample_size fuel history sign_modifier [] = .ok [] := by
  cases fuel <;> rfl

theorem takeWhile_zero_replicate (n : Nat) :
    (List.replicate n (0 : Int)).takeWhile (fun x => decide (x = 0)) = List.replicate n 0 := by
  induction n with
  | zero => rfl
  | succ n ih => rw [List.replicate_succ, List.takeWhile_cons_of_pos (by simp), ih]

theorem dropWhile_zero_replicate (n : Nat) :
    (List.replicate n (0 : Int)).dropWhile (fun x => decide (x = 0)) = [] := by
  induction n with
  | zero => rfl
  | succ n ih => rw [List.replicate_succ, List.dropWhile_cons_of_pos (by simp), ih]

theorem encode_residuals_zeros (o : alac_encoding_options) (ho : reference_parameters o)
    (sample_size N : Nat) (hN : 2 ≤ N) :
    encode_residuals o sample_size (List.replicate N 0) =
      (write_residual (N - 1) (min 4 o.maximum_k) 16).bind fun run => .ok ([false] ++ run) := by
  obtain ⟨hi, hm, hk⟩ := ho
  obtain ⟨n, rfl⟩ : ∃ n, N = n + 2 := ⟨N - 2, by omega⟩
  have hp : ¬ fold_residual 0 ≥ 1 <<< sample_size := by
    rw [fold_residual_zero, Nat.one_shiftLeft]
    have := Nat.pos_pow_of_pos sample_size (show 0 < 2 by decide)
    omega
  have h1 : LOG2 (uint32 (((10 : Int) >>> (9 : Nat)) + 3)) = .ok 1 := by decide
  have h2 : (10 : Int) + (int32 ((0 * 40 : Nat) : Int) -
      ((10 * int32 ((40 : Nat) : Int)) >>> (9 : Nat))) = 10 := by decide
  have h3 : LOG2 (uint32 (10 : Int)) = .ok 3 := by decide
  have h4 : uint32 (7 - ((3 : Nat) : Int) + (uint32 (((10 : Int) + 16) >>> (6 : Nat)) : Int)) = 4 := by
    decide
  have h5 : int32 ((10 : Nat) : Int) = 10 := by decide
  have hk1 : min 1 o.maximum_k = 1 := by omega
  unfold encode_residuals
  have h6 : uint32 (((0 : Nat) : Int) - ((0 : Nat) : Int)) = 0 := by decide
  have hne : List.replicate (n + 1) (0 : Int) ≠ [] := by simp
  rw [List.length_replicate, hi, h5, List.replicate_succ, encode_residuals_loop]
  simp only [hm, if_neg hp, fold_residual_zero, h1, Outcome.ok_bind, hk1, h6,
    write_residual_zero_one, h2, h3, h4, Nat.zero_le, if_true, hne, ne_eq, not_false_eq_true,
    and_true, takeWhile_zero_replicate, dropWhile_zero_replicate, encode_residuals_loop_nil,
    List.length_replicate, List.append_nil, Nat.add_sub_cancel]
  have hp' : ¬ 0 ≥ 1 <<< sample_size := by rw [fold_residual_zero] at hp; exact hp
  rw [if_neg hp', if_pos (by decide)]
  rfl

end Alac

namespace Alac

theorem frame_header_eq (block_size L uncompressed_LSBs interlacing_shift
    interlacing_leftweight : Nat) :
    write 16 0 ++ (if L = block_size then write 1 0 else write 1 1) ++
      write 2 uncompressed_LSBs ++ write 1 0 ++
      (if L ≠ block_size then write 32 L else []) ++ write 8 interlacing_shift ++
      write 8 interlacing_leftweight =
    spec_frame_header block_size L uncompressed_LSBs interlacing_shift
      interlacing_leftweight := by
  have h16 : write 16 0 = List.replicate 16 false := write_zero_value 16
  have h11 : write 1 1 = [true] := by decide
  have h10 : write 1 0 = [false] := by decide
  have hflag : (if L = block_size then write 1 0 else write 1 1) =
      [decide (L ≠ block_size)] := by
    by_cases hb : L = block_size <;> simp [hb, h10, h11]
  unfold spec_frame_header
  rw [hflag, h16, h10]

theorem spec_frame_header_length (block_size L uncompressed_LSBs interlacing_shift
    interlacing_leftweight : Nat) :
    (spec_frame_header block_size L uncompressed_LSBs interlacing_shift
      interlacing_leftweight).length = 36 + (if L ≠ block_size then 32 else 0) := by
  unfold spec_frame_header
  simp only [List.length_append, List.length_replicate, List.length_cons, List.length_nil,
    write_length]
  split <;> simp [write_length]

theorem write_non_interlaced_frame_eq (e : alac_context) (analysis : lpc_analysis)
    (uncompressed_LSBs : Nat) (LSBs : List Int) (channel : List Int) :
    write_non_interlaced_frame e analysis uncompressed_LSBs LSBs [channel] =
      (compute_coefficients e.options analysis channel
        (e.bits_per_sample - uncompressed_LSBs * 8)).bind fun (qlp_coefficients, residual) =>
      .ok (spec_frame_header e.options.block_size channel.length uncompressed_LSBs 0 0 ++
        write_subframe_header qlp_coefficients ++ write_LSBs uncompressed_LSBs LSBs ++
        residual) := by
  unfold write_non_interlaced_frame
  simp only [List.length_cons, List.length_nil, List.getD_cons_zero]
  rw [if_neg (by omega), frame_header_eq]

theorem write_interlaced_frame_eq (e : alac_context) (analysis : lpc_analysis)
    (uncompressed_LSBs : Nat) (LSBs : List Int)
    (interlacing_shift interlacing_leftweight : Nat) (channel0 channel1 : List Int) :
    write_interlaced_frame e analysis uncompressed_LSBs LSBs interlacing_shift
        interlacing_leftweight [channel0, channel1] =
      (correlate_channels [channel0, channel1] interlacing_shift interlacing_leftweight).bind
        fun correlated_channels =>
      (compute_coefficients e.options analysis (correlated_channels.getD 0 [])
          (e.bits_per_sample - uncompressed_LSBs * 8 + 1)).bind
        fun (qlp_coefficients0, residual0) =>
      (compute_coefficients e.options analysis (correlated_channels.getD 1 [])
          (e.bits_per_sample - uncompressed_LSBs * 8 + 1)).bind
        fun (qlp_coefficients1, residual1) =>
      .ok (spec_frame_header e.options.block_size channel0.length uncompressed_LSBs
          interlacing_shift interlacing_leftweight ++
        write_subframe_header qlp_coefficients0 ++ write_subframe_header qlp_coefficients1 ++
        write_LSBs uncompressed_LSBs LSBs ++ residual0 ++ residual1) := by
  unfold write_interlaced_frame
  simp only [List.length_cons, List.length_nil, List.getD_cons_zero]
  rw [if_neg (by omega), frame_header_eq]

theorem extract_MSBs_zeros (B N : Nat) :
    extract_MSBs B [List.replicate N 0] = [List.replicate N 0] := by
  unfold extract_MSBs
  simp only [List.length_cons, List.length_nil, List.getD_cons_zero, List.length_replicate]
  have : List.range (0 + 1) = [0] := rfl
  rw [this, List.map_cons, List.map_nil, List.getD_cons_zero]
  congr 1
  rw [List.eq_replicate_iff]
  refine ⟨by simp, ?_⟩
  intro x hx
  rw [List.mem_map] at hx
  obtain ⟨i, hi, rfl⟩ := hx
  rw [List.mem_range] at hi
  rw [getD_replicate_lt N i 0 hi]
  simp

theorem compute_coefficients_silent_zeros (o : alac_encoding_options)
    (ho : reference_parameters o) (analysis : lpc_analysis) (N sample_size : Nat)
    (hN : 10 ≤ N) (hsilent : analysis (List.replicate N 0) = none) :
    ∃ run, write_residual (N - 1) (min 4 o.maximum_k) 16 = .ok run ∧ run.length ≤ 25 ∧
      calculate_residuals (List.replicate N 0) sample_size (List.replicate 4 0) =
        List.replicate N 0 ∧
      encode_residuals o sample_size (List.replicate N 0) = .ok ([false] ++ run) ∧
      compute_coefficients o analysis (List.replicate N 0) sample_size =
        .ok (List.replicate 4 0, [false] ++ run) := by
  obtain ⟨run, hrun⟩ := write_residual_ok (N - 1) (min 4 o.maximum_k) 16 (by have := ho.2.2; omega)
  have hlen := write_residual_length_le_max _ _ _ _ hrun
  have hres : calculate_residuals (List.replicate N 0) sample_size (List.replicate 4 0) =
      List.replicate N 0 := by
    rw [calculate_residuals_constant N 0 sample_size _ (by simp) (by simp; omega),
      ← List.replicate_succ]
    congr 1
    omega
  have henc : encode_residuals o sample_size (List.replicate N 0) = .ok ([false] ++ run) := by
    rw [encode_residuals_zeros o ho sample_size N (by omega), hrun, Outcome.ok_bind]
  refine ⟨run, hrun, ?_, hres, henc, ?_⟩
  · have : min 4 o.maximum_k ≤ 4 := min_le_left _ _
    omega
  · unfold compute_coefficients
    rw [hsilent]
    simp only [hres, henc, Outcome.ok_bind]

end Alac

namespace Alac

theorem write_LSBs_length (uncompressed_LSBs : Nat) (LSBs : List Int)
    (h : 0 < uncompressed_LSBs) :
    (write_LSBs uncompressed_LSBs LSBs).length = LSBs.length * (uncompressed_LSBs * 8) := by
  unfold write_LSBs
  rw [if_pos h]
  induction LSBs with
  | nil => simp
  | cons v vs ih =>
    rw [List.flatMap_cons, List.length_append, ih, write_length, List.length_cons]
    ring

theorem write_LSBs_zero (LSBs : List Int) : write_LSBs 0 LSBs = [] := by
  unfold write_LSBs
  simp

theorem write_frame_silent_zeros (e : alac_context) (analysis : lpc_analysis) (N : Nat)
    (ho : reference_parameters e.options) (hN : 10 ≤ N)
    (hsilent : analysis (List.replicate N 0) = none) :
    ∃ run, write_residual (N - 1) (min 4 e.options.maximum_k) 16 = .ok run ∧
      run.length ≤ 25 ∧
      write_frame e analysis [List.replicate N 0] =
        some (write 3 0 ++
          (spec_frame_header e.options.block_size N
              (if e.bits_per_sample ≤ 16 then 0 else (e.bits_per_sample - 16) / 8) 0 0 ++
            write_subframe_header (List.replicate 4 0) ++
            write_LSBs (if e.bits_per_sample ≤ 16 then 0 else (e.bits_per_sample - 16) / 8)
              (if e.bits_per_sample ≤ 16 then []
                else extract_LSBs e.bits_per_sample [List.replicate N 0]) ++
            ([false] ++ run))) := by
  obtain ⟨run, hrun, hlen, -, -, -⟩ :=
    compute_coefficients_silent_zeros e.options ho analysis N 0 hN hsilent
  have hcomp : ∀ ss, compute_coefficients e.options analysis (List.replicate N 0) ss =
      .ok (List.replicate 4 0, [false] ++ run) := by
    intro ss
    obtain ⟨run', hrun', -, -, -, hc⟩ :=
      compute_coefficients_silent_zeros e.options ho analysis N ss hN hsilent
    rw [hrun] at hrun'
    simp only [Outcome.ok.injEq] at hrun'
    rw [hc, hrun']
  refine ⟨run, hrun, hlen, ?_⟩
  unfold write_frame
  simp only [List.length_cons, List.length_nil, List.getD_cons_zero, List.length_replicate]
  rw [if_neg (by simp), if_pos (by omega)]
  unfold write_compressed_frame
  by_cases hb : e.bits_per_sample ≤ 16
  · simp only [if_pos hb, List.length_cons, List.length_nil]
    rw [if_pos trivial, write_non_interlaced_frame_eq, hcomp, Outcome.ok_bind]
    simp only [List.length_replicate]
  · simp only [if_neg hb, List.length_cons, List.length_nil]
    rw [if_pos trivial, extract_MSBs_zeros, write_non_interlaced_frame_eq, hcomp, Outcome.ok_bind]
    simp only [List.length_replicate]

/-- C18 (as stated, refuted): with 24-bit samples the frame of an all-zero channel carries 8
uncompressed LSB bits per sample, so under the reference parameters and a silent analysis no
constant bounds the bit length of the frames of all-zero channels of every length N >= 10. -/
theorem silent_frame_24_bit_unbounded :
    ¬ ∃ K : Nat, ∀ N : Nat, 10 ≤ N → ∀ frame : Bits,
      write_frame ⟨⟨4096, 10, 40, 14, 0, 4⟩, 24, []⟩ (fun _ => none) [List.replicate N 0] =
        some frame → frame.length ≤ K := by
  rintro ⟨K, hK⟩
  obtain ⟨run, -, -, hframe⟩ := write_frame_silent_zeros
    ⟨⟨4096, 10, 40, 14, 0, 4⟩, 24, []⟩ (fun _ => none) (K + 10) (by decide) (by omega) rfl
  have hle := hK (K + 10) (by omega) _ hframe
  have hlsb : (extract_LSBs 24 [List.replicate (K + 10) 0]).length = (K + 10) * 1 :=
    extract_LSBs_length 24 [List.replicate (K + 10) 0] (K + 10) (by simp)
  simp only [show ¬ (24 ≤ 16) by decide, if_false, List.length_append, write_length,
    write_LSBs_length _ _ (show 0 < (24 - 16) / 8 by decide), hlsb] at hle
  omega

/-- C18 (amended): for every N >= 10 and the reference parameters (initial history 10,
history multiplier 40, any maximum_k >= 1, in particular 14), an all-zero channel of length N
whose analysis is silent is encoded on the compressed path with exactly four coefficients all
equal to 0, all residuals equal to 0, and a residual block made of one ordinary code (a single
zero bit) followed by a single zero-run code, whose length is at most 26 bits whatever N is;
hence, for bits_per_sample <= 16, the frame's bit length is bounded by a constant (177)
independent of N. -/
theorem silent_channel_encoding (e : alac_context) (analysis : lpc_analysis) (N : Nat)
    (ho : reference_parameters e.options) (hN : 10 ≤ N)
    (hsilent : analysis (List.replicate N 0) = none) :
    ∃ run : Bits,
      write_residual (N - 1) (min 4 e.options.maximum_k) 16 = .ok run ∧
      ([false] ++ run).length ≤ 26 ∧
      (∀ sample_size,
        write_residual 0 1 sample_size = .ok [false] ∧
        calculate_residuals (List.replicate N 0) sample_size (List.replicate 4 0) =
          List.replicate N 0 ∧
        encode_residuals e.options sample_size (List.replicate N 0) = .ok ([false] ++ run) ∧
        compute_coefficients e.options analysis (List.replicate N 0) sample_size =
          .ok (List.replicate 4 0, [false] ++ run)) ∧
      (e.bits_per_sample ≤ 16 →
        ∃ frame, write_frame e analysis [List.replicate N 0] = some frame ∧
          frame.length ≤ 177) := by
  obtain ⟨run, hrun, hlen, hframe⟩ := write_frame_silent_zeros e analysis N ho hN hsilent
  refine ⟨run, hrun, ?_, fun ss => ?_, fun hb => ⟨_, hframe, ?_⟩⟩
  · simp only [List.length_append, List.length_cons, List.length_nil]
    omega
  · obtain ⟨run', hrun', -, hres, henc, hc⟩ :=
      compute_coefficients_silent_zeros e.options ho analysis N ss hN hsilent
    rw [hrun] at hrun'
    simp only [Outcome.ok.injEq] at hrun'
    subst hrun'
    exact ⟨write_residual_zero_one ss, hres, henc, hc⟩
  · simp only [if_pos hb, write_LSBs_zero, List.length_append, write_length,
      spec_frame_header_length, write_subframe_header_length, List.length_replicate,
      List.length_cons, List.length_nil]
    split <;> omega

theorem silent_channel_encoding_witness :
    reference_parameters (⟨⟨4096, 10, 40, 14, 0, 4⟩, 16, []⟩ : alac_context).options ∧
    10 ≤ 4096 ∧
    (fun _ => none : lpc_analysis) (List.replicate 4096 0) = none ∧
    ∃ run : Bits,
      write_residual (4096 - 1) (min 4 14) 16 = .ok run ∧ ([false] ++ run).length ≤ 26 ∧
      compute_coefficients ⟨4096, 10, 40, 14, 0, 4⟩ (fun _ => none) (List.replicate 4096 0) 16 =
        .ok (List.replicate 4 0, [false] ++ run) ∧
      ∃ frame, write_frame ⟨⟨4096, 10, 40, 14, 0, 4⟩, 16, []⟩ (fun _ => none)
        [List.replicate 4096 0] = some frame ∧ frame.length ≤ 177 :=
  ⟨by decide, by decide, rfl,
    match silent_channel_encoding ⟨⟨4096, 10, 40, 14, 0, 4⟩, 16, []⟩ (fun _ => none) 4096
      (by decide) (by decide) rfl with
    | ⟨run, h1, h2, h3, h4⟩ => ⟨run, h1, h2, (h3 16).2.2.2, h4 (by decide)⟩⟩

end Alac

namespace Alac

/-! ## C14: `uncompressed_LSBs` and `sample_size` per bit depth -/

theorem extract_MSBs_one (B : Nat) (channel : List Int) :
    extract_MSBs B [channel] =
      [(List.range channel.length).map fun i => channel.getD i 0 >>> (B - 16)] := by
  unfold extract_MSBs
  simp only [List.length_cons, List.length_nil, List.getD_cons_zero]
  have : List.range (0 + 1) = [0] := rfl
  rw [this, List.map_cons, List.map_nil, List.getD_cons_zero]

theorem extract_MSBs_two (B : Nat) (channel0 channel1 : List Int) :
    extract_MSBs B [channel0, channel1] =
      [(List.range channel0.length).map fun i => channel0.getD i 0 >>> (B - 16),
       (List.range channel0.length).map fun i => channel1.getD i 0 >>> (B - 16)] := by
  unfold extract_MSBs
  simp only [List.length_cons, List.length_nil, List.getD_cons_zero]
  have : List.range (0 + 1 + 1) = [0, 1] := rfl
  rw [this, List.map_cons, List.map_cons, List.map_nil, List.getD_cons_zero,
    List.getD_cons_succ, List.getD_cons_zero]

/-- C14: the uncompressed_LSBs header field and the sample_size that reaches
calculate_residuals and encode_residuals (through compute_coefficients, which hands its
sample_size to both unchanged).  For B <= 16 (in particular B = 16) the field is 0 and
sample_size is B for a mono frame and B + 1 for every stereo candidate; for B = 24 the field
is 1, the channels are the 16-bit MSB channels, and sample_size is 16 (mono) or 17
(stereo). -/
theorem uncompressed_LSBs_and_sample_size (e : alac_context) (analysis : lpc_analysis)
    (channel channel0 channel1 : List Int) (leftweight : Nat) :
    (e.bits_per_sample ≤ 16 →
      write_compressed_frame e analysis [channel] =
        ((compute_coefficients e.options analysis channel e.bits_per_sample).bind
          fun (qlp_coefficients, residual) =>
          .ok (spec_frame_header e.options.block_size channel.length 0 0 0 ++
            write_subframe_header qlp_coefficients ++ residual)) ∧
      interlaced_candidate e analysis [channel0, channel1] leftweight =
        ((correlate_channels [channel0, channel1] INTERLACING_SHIFT leftweight).bind
          fun correlated_channels =>
          (compute_coefficients e.options analysis (correlated_channels.getD 0 [])
            (e.bits_per_sample + 1)).bind fun (qlp_coefficients0, residual0) =>
          (compute_coefficients e.options analysis (correlated_channels.getD 1 [])
            (e.bits_per_sample + 1)).bind fun (qlp_coefficients1, residual1) =>
          .ok (spec_frame_header e.options.block_size channel0.length 0 INTERLACING_SHIFT
              leftweight ++
            write_subframe_header qlp_coefficients0 ++
            write_subframe_header qlp_coefficients1 ++ residual0 ++ residual1))) ∧
    (e.bits_per_sample = 24 →
      write_compressed_frame e analysis [channel] =
        ((compute_coefficients e.options analysis
            ((List.range channel.length).map fun i => channel.getD i 0 >>> (8 : Nat)) 16).bind
          fun (qlp_coefficients, residual) =>
          .ok (spec_frame_header e.options.block_size channel.length 1 0 0 ++
            write_subframe_header qlp_coefficients ++
            write_LSBs 1 (extract_LSBs 24 [channel]) ++ residual)) ∧
      interlaced_candidate e analysis [channel0, channel1] leftweight =
        ((correlate_channels
            [(List.range channel0.length).map fun i => channel0.getD i 0 >>> (8 : Nat),
             (List.range channel0.length).map fun i => channel1.getD i 0 >>> (8 : Nat)]
            INTERLACING_SHIFT leftweight).bind
          fun correlated_channels =>
          (compute_coefficients e.options analysis (correlated_channels.getD 0 []) 17).bind
            fun (qlp_coefficients0, residual0) =>
          (compute_coefficients e.options analysis (correlated_channels.getD 1 []) 17).bind
            fun (qlp_coefficients1, residual1) =>
          .ok (spec_frame_header e.options.block_size channel0.length 1 INTERLACING_SHIFT
              leftweight ++
            write_subframe_header qlp_coefficients0 ++
            write_subframe_header qlp_coefficients1 ++
            write_LSBs 1 (extract_LSBs 24 [channel0, channel1]) ++ residual0 ++ residual1))) ∧
    (∀ (samples : List Int) (sample_size : Nat),
      compute_coefficients e.options analysis samples sample_size =
        match analysis samples with
        | some q =>
          (encode_residuals e.options sample_size
            (calculate_residuals samples sample_size q.qlp_coefficients4)).bind
            fun residual_block4 =>
          (encode_residuals e.options sample_size
            (calculate_residuals samples sample_size q.qlp_coefficients8)).bind
            fun residual_block8 =>
          if bits_written residual_block4 < (bits_written residual_block8 + 64) % 4294967296
          then .ok (q.qlp_coefficients4, residual_block4)
          else .ok (q.qlp_coefficients8, residual_block8)
        | none =>
          (encode_residuals e.options sample_size
            (calculate_residuals samples sample_size (List.replicate 4 0))).bind
            fun residual => .ok (List.replicate 4 0, residual)) := by
  refine ⟨fun hb => ⟨?_, ?_⟩, fun hb => ⟨?_, ?_⟩, fun samples sample_size => rfl⟩
  · unfold write_compressed_frame
    rw [if_pos hb, if_pos (by rfl), write_non_interlaced_frame_eq]
    simp only [Nat.zero_mul, Nat.sub_zero, write_LSBs_zero, List.append_nil]
  · unfold interlaced_candidate
    rw [if_pos hb, write_interlaced_frame_eq]
    simp only [Nat.zero_mul, Nat.sub_zero, write_LSBs_zero, List.append_nil]
  · unfold write_compressed_frame
    rw [if_neg (by omega)]
    simp only [List.length_cons, List.length_nil]
    rw [if_pos trivial, extract_MSBs_one, write_non_interlaced_frame_eq, hb]
    simp only [List.length_map, List.length_range]
  · unfold interlaced_candidate
    rw [if_neg (by omega), extract_MSBs_two, write_interlaced_frame_eq, hb]
    simp only [List.length_map, List.length_range]


theorem uncompressed_LSBs_and_sample_size_witness :
    (⟨⟨4096, 10, 40, 14, 0, 4⟩, 16, []⟩ : alac_context).bits_per_sample ≤ 16 ∧
    write_compressed_frame ⟨⟨4096, 10, 40, 14, 0, 4⟩, 16, []⟩ (fun _ => none)
        [[1, 2, 3, 4, 5, 6, 7, 8, 9, 10]] =
      ((compute_coefficients ⟨4096, 10, 40, 14, 0, 4⟩ (fun _ => none)
          [1, 2, 3, 4, 5, 6, 7, 8, 9, 10] 16).bind
        fun (qlp_coefficients, residual) =>
        .ok (spec_frame_header 4096 10 0 0 0 ++
          write_subframe_header qlp_coefficients ++ residual)) ∧
    (⟨⟨4096, 10, 40, 14, 0, 4⟩, 24, []⟩ : alac_context).bits_per_sample = 24 ∧
    write_compressed_frame ⟨⟨4096, 10, 40, 14, 0, 4⟩, 24, []⟩ (fun _ => none)
        [[256, 512, 768, 1024, 1280, 1536, 1792, 2048, 2304, 2561]] =
      ((compute_coefficients ⟨4096, 10, 40, 14, 0, 4⟩ (fun _ => none)
          ((List.range 10).map fun i =>
            ([256, 512, 768, 1024, 1280, 1536, 1792, 2048, 2304, 2561] : List Int).getD i 0
              >>> (8 : Nat)) 16).bind
        fun (qlp_coefficients, residual) =>
        .ok (spec_frame_header 4096 10 1 0 0 ++
          write_subframe_header qlp_coefficients ++
          write_LSBs 1 (extract_LSBs 24
            [[256, 512, 768, 1024, 1280, 1536, 1792, 2048, 2304, 2561]]) ++ residual)) :=
  ⟨by decide,
    ((uncompressed_LSBs_and_sample_size ⟨⟨4096, 10, 40, 14, 0, 4⟩, 16, []⟩ (fun _ => none)
      [1, 2, 3, 4, 5, 6, 7, 8, 9, 10] [] [] 0).1 (by decide)).1,
    rfl,
    ((uncompressed_LSBs_and_sample_size ⟨⟨4096, 10, 40, 14, 0, 4⟩, 24, []⟩ (fun _ => none)
      [256, 512, 768, 1024, 1280, 1536, 1792, 2048, 2304, 2561] [] [] 0).2.1 rfl).1⟩

end Alac

namespace Alac

/-! ## C16: layout of the stereo payload -/

theorem write_LSBs_one (LSBs : List Int) :
    write_LSBs 1 LSBs = LSBs.flatMap fun v => write 8 (uint32 v) := by
  unfold write_LSBs
  rw [if_pos (by decide)]

theorem write_interlaced_frame_parts (e : alac_context) (analysis : lpc_analysis)
    (uncompressed_LSBs : Nat) (LSBs : List Int)
    (interlacing_shift interlacing_leftweight : Nat) (channel0 channel1 : List Int)
    (payload : Bits)
    (hok : write_interlaced_frame e analysis uncompressed_LSBs LSBs interlacing_shift
      interlacing_leftweight [channel0, channel1] = .ok payload) :
    ∃ correlated_channels qlp_coefficients0 residual0 qlp_coefficients1 residual1,
      correlate_channels [channel0, channel1] interlacing_shift interlacing_leftweight =
        .ok correlated_channels ∧
      compute_coefficients e.options analysis (correlated_channels.getD 0 [])
        (e.bits_per_sample - uncompressed_LSBs * 8 + 1) = .ok (qlp_coefficients0, residual0) ∧
      compute_coefficients e.options analysis (correlated_channels.getD 1 [])
        (e.bits_per_sample - uncompressed_LSBs * 8 + 1) = .ok (qlp_coefficients1, residual1) ∧
      payload =
        spec_frame_header e.options.block_size channel0.length uncompressed_LSBs
          interlacing_shift interlacing_leftweight ++
        write_subframe_header qlp_coefficients0 ++ write_subframe_header qlp_coefficients1 ++
        write_LSBs uncompressed_LSBs LSBs ++ residual0 ++ residual1 := by
  rw [write_interlaced_frame_eq] at hok
  simp only [Outcome.bind_eq_ok] at hok
  obtain ⟨cc, hcc, ⟨q0, r0⟩, h0, ⟨q1, r1⟩, h1, hp⟩ := hok
  simp only [Outcome.ok.injEq] at hp
  exact ⟨cc, q0, r0, q1, r1, hcc, h0, h1, hp.symm⟩

/-- C16: for every stereo frame (channels channel0, channel1) and every leftweight, the
payload that write_interlaced_frame writes for write_compressed_frame is the concatenation,
in this order, of the frame header (16 zero bits, has-size bit, 2-bit uncompressed_LSBs,
compressed bit 0, optional 32-bit L, 8-bit shift, 8-bit leftweight), the sub-frame header of
correlated channel 0, the sub-frame header of correlated channel 1, the LSB fields written
once (none when uncompressed_LSBs = 0, i.e. bits_per_sample <= 16; L*2 fields of 8 bits
when uncompressed_LSBs = 1, i.e. bits_per_sample = 24), residual block 0, residual block 1. -/
theorem write_interlaced_frame_layout (e : alac_context) (analysis : lpc_analysis)
    (channel0 channel1 : List Int) (leftweight : Nat) (payload : Bits)
    (hlen : channel0.length = channel1.length)
    (hB : e.bits_per_sample ≤ 16 ∨ e.bits_per_sample = 24)
    (hok : interlaced_candidate e analysis [channel0, channel1] leftweight = .ok payload) :
    ∃ correlated_channels qlp_coefficients0 residual0 qlp_coefficients1 residual1,
      correlate_channels
        (if e.bits_per_sample ≤ 16 then [channel0, channel1]
          else extract_MSBs e.bits_per_sample [channel0, channel1])
        INTERLACING_SHIFT leftweight = .ok correlated_channels ∧
      compute_coefficients e.options analysis (correlated_channels.getD 0 [])
        (if e.bits_per_sample ≤ 16 then e.bits_per_sample + 1 else 17) =
          .ok (qlp_coefficients0, residual0) ∧
      compute_coefficients e.options analysis (correlated_channels.getD 1 [])
        (if e.bits_per_sample ≤ 16 then e.bits_per_sample + 1 else 17) =
          .ok (qlp_coefficients1, residual1) ∧
      payload =
        (List.replicate 16 false ++ [decide (channel0.length ≠ e.options.block_size)] ++
          write 2 (if e.bits_per_sample ≤ 16 then 0 else 1) ++ [false] ++
          (if channel0.length ≠ e.options.block_size then write 32 channel0.length else []) ++
          write 8 INTERLACING_SHIFT ++ write 8 leftweight) ++
        write_subframe_header qlp_coefficients0 ++
        write_subframe_header qlp_coefficients1 ++
        (if e.bits_per_sample ≤ 16 then []
          else (extract_LSBs 24 [channel0, channel1]).flatMap fun v => write 8 (uint32 v)) ++
        residual0 ++ residual1 ∧
      (e.bits_per_sample = 24 →
        (extract_LSBs 24 [channel0, channel1]).length = channel0.length * 2 ∧
        ((extract_LSBs 24 [channel0, channel1]).flatMap fun v =>
          write 8 (uint32 v)).length = channel0.length * 2 * 8) := by
  have hcount : (extract_LSBs 24 [channel0, channel1]).length = channel0.length * 2 :=
    extract_LSBs_length 24 [channel0, channel1] channel0.length (by
      intro ch hch
      simp only [List.mem_cons, List.mem_singleton, List.not_mem_nil, or_false] at hch
      rcases hch with rfl | rfl
      · rfl
      · exact hlen.symm)
  have hfields : ((extract_LSBs 24 [channel0, channel1]).flatMap fun v =>
      write 8 (uint32 v)).length = channel0.length * 2 * 8 := by
    rw [← write_LSBs_one, write_LSBs_length _ _ (by decide), hcount]
  unfold interlaced_candidate at hok
  rcases hB with hb | hb
  · rw [if_pos hb] at hok
    obtain ⟨cc, q0, r0, q1, r1, hcc, h0, h1, hp⟩ :=
      write_interlaced_frame_parts e analysis 0 [] INTERLACING_SHIFT leftweight channel0
        channel1 payload hok
    refine ⟨cc, q0, r0, q1, r1, ?_, ?_, ?_, ?_, fun h24 => ⟨hcount, hfields⟩⟩
    · rw [if_pos hb]; exact hcc
    · rw [if_pos hb]; simpa using h0
    · rw [if_pos hb]; simpa using h1
    · rw [hp, write_LSBs_zero]
      simp only [if_pos hb, spec_frame_header]
  · have hnb : ¬ e.bits_per_sample ≤ 16 := by omega
    rw [if_neg hnb, extract_MSBs_two] at hok
    obtain ⟨cc, q0, r0, q1, r1, hcc, h0, h1, hp⟩ :=
      write_interlaced_frame_parts e analysis _ _ INTERLACING_SHIFT leftweight _ _ payload hok
    have hU : (e.bits_per_sample - 16) / 8 = 1 := by rw [hb]
    rw [hU] at h0 h1 hp
    have hss : e.bits_per_sample - 1 * 8 + 1 = 17 := by rw [hb]
    rw [hss] at h0 h1
    refine ⟨cc, q0, r0, q1, r1, ?_, ?_, ?_, ?_, fun h24 => ⟨hcount, hfields⟩⟩
    · rw [if_neg hnb, extract_MSBs_two]; exact hcc
    · rw [if_neg hnb]; exact h0
    · rw [if_neg hnb]; exact h1
    · rw [hp, write_LSBs_one, hb]
      simp only [show ¬ (24 ≤ 16) by decide, if_false, spec_frame_header, List.length_map,
        List.length_range]


theorem write_interlaced_frame_layout_witness :
    ([300, 1, 4, 1, 5, 9, 2, 6, 5, 3] : List Int).length =
      ([2, 7, 1, 8, 2, 8, 1, 8, 2, 515] : List Int).length ∧
    ((⟨⟨4096, 10, 40, 14, 0, 4⟩, 24, []⟩ : alac_context).bits_per_sample ≤ 16 ∨
      (⟨⟨4096, 10, 40, 14, 0, 4⟩, 24, []⟩ : alac_context).bits_per_sample = 24) ∧
    ∃ payload qlp_coefficients0 residual0 qlp_coefficients1 residual1,
      interlaced_candidate ⟨⟨4096, 10, 40, 14, 0, 4⟩, 24, []⟩ (fun _ => none)
        [[300, 1, 4, 1, 5, 9, 2, 6, 5, 3], [2, 7, 1, 8, 2, 8, 1, 8, 2, 515]] 1 =
          .ok payload ∧
      payload =
        (List.replicate 16 false ++ [true] ++ write 2 1 ++ [false] ++ write 32 10 ++
          write 8 2 ++ write 8 1) ++
        write_subframe_header qlp_coefficients0 ++
        write_subframe_header qlp_coefficients1 ++
        ((extract_LSBs 24 [[300, 1, 4, 1, 5, 9, 2, 6, 5, 3],
          [2, 7, 1, 8, 2, 8, 1, 8, 2, 515]]).flatMap fun v => write 8 (uint32 v)) ++
        residual0 ++ residual1 := by
  refine ⟨rfl, Or.inr rfl, ?_⟩
  cases h : interlaced_candidate ⟨⟨4096, 10, 40, 14, 0, 4⟩, 24, []⟩ (fun _ => none)
      [[300, 1, 4, 1, 5, 9, 2, 6, 5, 3], [2, 7, 1, 8, 2, 8, 1, 8, 2, 515]] 1 with
  | ok payload =>
    obtain ⟨-, q0, r0, q1, r1, -, -, -, hp, -⟩ :=
      write_interlaced_frame_layout ⟨⟨4096, 10, 40, 14, 0, 4⟩, 24, []⟩ (fun _ => none)
        [300, 1, 4, 1, 5, 9, 2, 6, 5, 3] [2, 7, 1, 8, 2, 8, 1, 8, 2, 515] 1 payload rfl
        (Or.inr rfl) h
    exact ⟨payload, q0, r0, q1, r1, rfl, hp⟩
  | residual_overflow => exact absurd h (by set_option maxRecDepth 1000000 in decide)
  | abort => exact absurd h (by set_option maxRecDepth 1000000 in decide)

end Alac

namespace Alac

/-! ## C20: `quantize_coefficients` -/

theorem round_half_away_error (x : ℚ) :
    x - 1 / 2 ≤ (round_half_away x : ℚ) ∧ (round_half_away x : ℚ) ≤ x + 1 / 2 := by
  unfold round_half_away
  split
  · have h1 := Int.floor_le (x + 1 / 2)
    have h2 := Int.lt_floor_add_one (x + 1 / 2)
    constructor <;> linarith
  · have h1 := Int.floor_le (-x + 1 / 2)
    have h2 := Int.lt_floor_add_one (-x + 1 / 2)
    push_cast
    constructor <;> linarith

theorem spec_running_error_from_cons (error c : ℚ) (cs : List ℚ) (i : Nat) :
    spec_running_error_from error (c :: cs) (i + 1) =
      spec_running_error_from (error + c * 512 - (round_half_away (error + c * 512) : ℚ))
        cs i := by
  induction i with
  | zero => simp only [spec_running_error_from, List.getD_cons_zero]
  | succ i ih =>
    rw [spec_running_error_from, ih, List.getD_cons_succ]
    rfl

theorem quantize_loop_spec (a : List ℚ) :
    ∀ error : ℚ, |error| ≤ 1 / 2 → (∀ c ∈ a, |c| ≤ 2097152) →
      ∃ q, quantize_loop a error = .ok q ∧ q.length = a.length ∧
        ∀ i, i < a.length →
          |spec_running_error_from error a i| ≤ 1 / 2 ∧
          is_int (round_half_away (spec_running_error_from error a i + a.getD i 0 * 512)) ∧
          q.getD i 0 =
            min (max (round_half_away (spec_running_error_from error a i + a.getD i 0 * 512))
              (-32768)) 32767 := by
  induction a with
  | nil =>
    intro error _ _
    exact ⟨[], rfl, rfl, fun i hi => absurd hi (by simp)⟩
  | cons c cs ih =>
    intro error herr hbound
    have hc : |c| ≤ 2097152 := hbound c (List.mem_cons_self _ _)
    have hr := round_half_away_error (error + c * 512)
    rw [abs_le] at herr hc
    have hint : is_int (round_half_away (error + c * 512)) := by
      unfold is_int
      constructor
      · have : ((-2147483648 : Int) : ℚ) ≤ (round_half_away (error + c * 512) : ℚ) := by
          push_cast
          linarith [hr.1, herr.1, hc.1]
        exact_mod_cast this
      · have : (round_half_away (error + c * 512) : ℚ) < ((2147483648 : Int) : ℚ) := by
          push_cast
          linarith [hr.2, herr.2, hc.2]
        exact_mod_cast this
    have herr' : |error + c * 512 - (round_half_away (error + c * 512) : ℚ)| ≤ 1 / 2 := by
      rw [abs_le]
      constructor <;> linarith [hr.1, hr.2]
    obtain ⟨q, hq, hqlen, hqi⟩ := ih _ herr' (fun c' hc' => hbound c' (List.mem_cons_of_mem _ hc'))
    refine ⟨min (max (round_half_away (error + c * 512)) (-32768)) 32767 :: q, ?_, ?_, ?_⟩
    · rw [quantize_loop]
      simp only [if_pos hint, hq, Outcome.ok_bind]
    · rw [List.length_cons, List.length_cons, hqlen]
    · intro i hi
      cases i with
      | zero =>
        simp only [spec_running_error_from, List.getD_cons_zero]
        exact ⟨abs_le.2 herr, hint, trivial⟩
      | succ i =>
        rw [spec_running_error_from_cons, List.getD_cons_succ, List.getD_cons_succ]
        exact hqi i (by simpa using hi)

/-- C20: for order 4 or 8 and every list of rational LP coefficients of that order (row
order - 1 of lp_coefficients, entries of absolute value at most 2^21 so that every rounded
value is a C int), quantize_coefficients returns exactly order integers, each in
[-2^15, 2^15 - 1]; entry i is the clamp to that range of the round-half-away-from-zero of the
running error after adding coefficient i * 2^9, the running error starts at 0, the unclamped
rounded value is what is subtracted from it, and it stays within [-1/2, 1/2]. -/
theorem quantize_coefficients_spec (lp_coefficients : List (List ℚ)) (order : Nat)
    (horder : order = 4 ∨ order = 8)
    (hlen : (lp_coefficients.getD (order - 1) []).length = order)
    (hbound : ∀ c ∈ lp_coefficients.getD (order - 1) [], |c| ≤ 2097152) :
    ∃ q, quantize_coefficients lp_coefficients order = .ok q ∧ q.length = order ∧
      spec_running_error (lp_coefficients.getD (order - 1) []) 0 = 0 ∧
      ∀ i, i < order →
        -2 ^ 15 ≤ q.getD i 0 ∧ q.getD i 0 ≤ 2 ^ 15 - 1 ∧
        q.getD i 0 =
          min (max (round_half_away
            (spec_running_error (lp_coefficients.getD (order - 1) []) i +
              (lp_coefficients.getD (order - 1) []).getD i 0 * 2 ^ 9)) (-2 ^ 15)) (2 ^ 15 - 1) ∧
        spec_running_error (lp_coefficients.getD (order - 1) []) (i + 1) =
          spec_running_error (lp_coefficients.getD (order - 1) []) i +
            (lp_coefficients.getD (order - 1) []).getD i 0 * 2 ^ 9 -
          (round_half_away
            (spec_running_error (lp_coefficients.getD (order - 1) []) i +
              (lp_coefficients.getD (order - 1) []).getD i 0 * 2 ^ 9) : ℚ) ∧
        |spec_running_error (lp_coefficients.getD (order - 1) []) (i + 1)| ≤ 1 / 2 := by
  obtain ⟨q, hq, hqlen, hqi⟩ :=
    quantize_loop_spec (lp_coefficients.getD (order - 1) []) 0 (by norm_num) hbound
  refine ⟨q, ?_, by rw [hqlen, hlen], rfl, fun i hi => ?_⟩
  · unfold quantize_coefficients
    rw [if_neg (by omega)]
    simp only [hlen, ne_eq, not_true_eq_false, if_false]
    exact hq
  · obtain ⟨-, -, hval⟩ := hqi i (by rw [hlen]; exact hi)
    have h29 : (2 : ℚ) ^ 9 = 512 := by norm_num
    have hr := round_half_away_error
      (spec_running_error (lp_coefficients.getD (order - 1) []) i +
        (lp_coefficients.getD (order - 1) []).getD i 0 * 512)
    rw [h29]
    unfold spec_running_error at hr ⊢
    refine ⟨?_, ?_, ?_, rfl, ?_⟩
    · rw [hval]; norm_num
    · rw [hval]; norm_num
    · rw [hval]; norm_num
    · rw [spec_running_error_from, abs_le]
      constructor <;> linarith [hr.1, hr.2]


theorem quantize_coefficients_spec_witness :
    ((4 : Nat) = 4 ∨ (4 : Nat) = 8) ∧
    (([[1], [1, 1], [1, 1, 1], [1 / 2, -1 / 4, 1 / 1024, 100]] : List (List ℚ)).getD
      (4 - 1) []).length = 4 ∧
    ∃ q, quantize_coefficients [[1], [1, 1], [1, 1, 1], [1 / 2, -1 / 4, 1 / 1024, 100]] 4 =
        .ok q ∧ q.length = 4 ∧
      q.getD 3 0 =
        min (max (round_half_away
          (spec_running_error [1 / 2, -1 / 4, 1 / 1024, 100] 3 + 100 * 2 ^ 9)) (-2 ^ 15))
          (2 ^ 15 - 1) :=
  ⟨Or.inl rfl, rfl,
    match quantize_coefficients_spec [[1], [1, 1], [1, 1, 1], [1 / 2, -1 / 4, 1 / 1024, 100]] 4
      (Or.inl rfl) rfl (by
        intro c hc
        simp only [List.getD_eq_getElem?_getD, List.mem_cons, List.mem_singleton] at hc
        norm_num at hc
        rcases hc with rfl | rfl | rfl | rfl <;> norm_num [abs_le]) with
    | ⟨q, h1, h2, _, h3⟩ => ⟨q, h1, h2, (h3 3 (by decide)).2.2.1⟩⟩

theorem quantize_coefficients_example :
    quantize_coefficients [[1], [1, 1], [1, 1, 1], [1 / 2, -1 / 4, 1 / 1024, 100]] 4 =
      .ok [256, -128, 1, 32767] := by
  simp only [quantize_coefficients, quantize_loop, round_half_away, is_int]
  norm_num [Outcome.bind]

end Alac

namespace Alac

/-! ## C26: `LOG2` -/

theorem LOG2_loop_steps (fuel : Nat) :
    ∀ value bits, value ≠ 0 → value < 2 ^ fuel →
      ∃ l, LOG2_loop fuel value bits = bits + l + 1 ∧ 2 ^ l ≤ value ∧ value < 2 ^ (l + 1) := by
  induction fuel with
  | zero =>
    intro value bits h0 hlt
    simp only [pow_zero, Nat.lt_one_iff] at hlt
    exact absurd hlt h0
  | succ fuel ih =>
    intro value bits h0 hlt
    rw [LOG2_loop, if_neg h0, Nat.shiftRight_eq_div_pow, pow_one]
    by_cases h1 : value / 2 = 0
    · rw [h1, LOG2_loop_zero]
      exact ⟨0, rfl, by omega, by omega⟩
    · have hlt2 : value / 2 < 2 ^ fuel := by
        rw [pow_succ] at hlt
        omega
      obtain ⟨l, hl, hlo, hhi⟩ := ih (value / 2) (bits + 1) h1 hlt2
      refine ⟨l + 1, by rw [hl]; omega, ?_, ?_⟩
      · rw [pow_succ]; omega
      · rw [pow_succ]; omega

/-- C26: for every unsigned value v > 0, LOG2(v) is the floor of log2 v, that is
2^LOG2(v) <= v < 2^(LOG2(v) + 1), and the loop terminates for every v: it reaches value 0
after LOG2(v) + 1 iterations, so any larger iteration budget yields the same count. -/
theorem LOG2_floor_log2 (v : Nat) (hv : 0 < v) :
    ∃ n, LOG2 v = .ok n ∧ 2 ^ n ≤ v ∧ v < 2 ^ (n + 1) ∧
      ∀ fuel, n + 1 ≤ fuel → LOG2_loop fuel v 0 = n + 1 := by
  have hne : v ≠ 0 := by omega
  obtain ⟨l, hl, hlo, hhi⟩ := LOG2_loop_bounds v v 0 hne (le_refl v)
  refine ⟨l, ?_, hlo, hhi, fun fuel hfuel => ?_⟩
  · unfold LOG2
    rw [if_pos hv, hl]
    congr 1
    omega
  · have hlt : v < 2 ^ fuel := lt_of_lt_of_le hhi (Nat.pow_le_pow_right (by decide) hfuel)
    obtain ⟨l2, hl2, hlo2, hhi2⟩ := LOG2_loop_steps fuel v 0 hne hlt
    have h1 : l2 < l + 1 := (Nat.pow_lt_pow_iff_right (by decide)).1 (lt_of_le_of_lt hlo2 hhi)
    have h2 : l < l2 + 1 := (Nat.pow_lt_pow_iff_right (by decide)).1 (lt_of_le_of_lt hlo hhi2)
    rw [hl2]
    omega

theorem LOG2_floor_log2_witness :
    0 < 1000 ∧ LOG2 1000 = .ok 9 ∧ 2 ^ 9 ≤ 1000 ∧ 1000 < 2 ^ (9 + 1) ∧
      LOG2_loop 32 1000 0 = 9 + 1 := by
  obtain ⟨n, h1, h2, h3, h4⟩ := LOG2_floor_log2 1000 (by decide)
  have hn : n = 9 := by
    have h : LOG2 1000 = .ok 9 := by decide
    rw [h] at h1
    simp only [Outcome.ok.injEq] at h1
    exact h1.symm
  subst hn
  exact ⟨by decide, h1, h2, h3, h4 32 (by decide)⟩

end Alac

namespace Alac

/-! ## C30: `correlate_channels` is invertible -/

theorem correlate_channels_pos (L R : List Int) (s leftweight : Nat)
    (hlen : L.length = R.length) (hpos : 0 < leftweight) :
    correlate_channels [L, R] s leftweight =
      .ok [(List.range L.length).map (fun i =>
              R.getD i 0 + int32 (((L.getD i 0 - R.getD i 0) * (leftweight : Int)) >>> s)),
            (List.range L.length).map (fun i => L.getD i 0 - R.getD i 0)] := by
  unfold correlate_channels
  simp only [List.length_cons, List.length_nil, List.getD_cons_zero, List.getD_cons_succ]
  rw [if_neg (by omega), if_neg (by omega), if_pos hpos]

theorem correlate_channels_zero (L R : List Int) (s : Nat) (hlen : L.length = R.length) :
    correlate_channels [L, R] s 0 = .ok [L, R] := by
  unfold correlate_channels
  simp [hlen]

theorem sample_range_getD (B : Nat) (l : List Int) (h : ∀ x ∈ l, sample_range B x) (i : Nat)
    (hi : i < l.length) : sample_range B (l.getD i 0) := by
  rw [List.getD_eq_getElem?_getD, List.getElem?_eq_getElem hi]
  exact h _ (List.getElem_mem hi)

theorem eq_of_getD_eq (a b : List Int) (hlen : a.length = b.length)
    (h : ∀ i, i < a.length → a.getD i 0 = b.getD i 0) : a = b := by
  apply List.ext_getElem hlen
  intro i h1 h2
  have := h i h1
  rw [List.getD_eq_getElem?_getD, List.getD_eq_getElem?_getD, List.getElem?_eq_getElem h1,
    List.getElem?_eq_getElem h2] at this
  exact this

theorem shift_two_eq (x : Int) : x >>> (2 : Nat) = x / 4 := by
  rw [Int.shiftRight_eq_div_pow]
  norm_num

theorem correlated_entry (l r : Int) (leftweight : Nat) (hl : sample_range 16 l)
    (hr : sample_range 16 r) (hw : leftweight ≤ 4) :
    int32 (((l - r) * (leftweight : Int)) >>> (2 : Nat)) = ((l - r) * (leftweight : Int)) / 4 := by
  rw [shift_two_eq]
  unfold sample_range at hl hr
  norm_num at hl hr
  have h := weighted_difference_is_int (l - r) 2 leftweight
    (by unfold is_int; constructor <;> omega) (by norm_num; exact hw)
  norm_num at h
  exact int32_of_is_int _ h

/-- C30: correlate_channels is invertible: for every leftweight in 1..4, shift 2 and every
pair of equal-length channels (L, R) with 16-bit-range samples, the outputs (c0, c1) satisfy
R[i] = c0[i] - ((c1[i] * leftweight) >> 2) and L[i] = c1[i] + R[i] for every i, so any other
such pair with the same outputs is the same pair. -/
theorem correlate_channels_invertible (L R : List Int) (leftweight : Nat)
    (hw1 : 1 ≤ leftweight) (hw4 : leftweight ≤ 4) (hlen : L.length = R.length)
    (hL : ∀ x ∈ L, sample_range 16 x) (hR : ∀ x ∈ R, sample_range 16 x) :
    ∃ c0 c1, correlate_channels [L, R] 2 leftweight = .ok [c0, c1] ∧
      c0.length = L.length ∧ c1.length = L.length ∧
      (∀ i, i < L.length →
        R.getD i 0 = c0.getD i 0 - ((c1.getD i 0 * (leftweight : Int)) >>> (2 : Nat)) ∧
        L.getD i 0 = c1.getD i 0 + R.getD i 0) ∧
      ∀ L2 R2 : List Int, L2.length = R2.length →
        (∀ x ∈ L2, sample_range 16 x) → (∀ x ∈ R2, sample_range 16 x) →
        correlate_channels [L2, R2] 2 leftweight = .ok [c0, c1] → L2 = L ∧ R2 = R := by
  have hentry : ∀ (A B : List Int), A.length = B.length → (∀ x ∈ A, sample_range 16 x) →
      (∀ x ∈ B, sample_range 16 x) → ∀ i, i < A.length →
      ((List.range A.length).map (fun i =>
          B.getD i 0 + int32 (((A.getD i 0 - B.getD i 0) * (leftweight : Int)) >>> (2 : Nat)))).getD
            i 0 = B.getD i 0 + ((A.getD i 0 - B.getD i 0) * (leftweight : Int)) / 4 ∧
      ((List.range A.length).map (fun i => A.getD i 0 - B.getD i 0)).getD i 0 =
        A.getD i 0 - B.getD i 0 := by
    intro A B hAB hA hB i hi
    rw [getD_map_range _ _ _ hi, getD_map_range _ _ _ hi,
      correlated_entry _ _ _ (sample_range_getD 16 A hA i hi)
        (sample_range_getD 16 B hB i (by omega)) hw4]
    exact ⟨rfl, rfl⟩
  refine ⟨_, _, correlate_channels_pos L R 2 leftweight hlen (by omega), by simp, by simp,
    fun i hi => ?_, fun L2 R2 hlen2 hL2 hR2 heq => ?_⟩
  · obtain ⟨h0, h1⟩ := hentry L R hlen hL hR i hi
    rw [h0, h1, shift_two_eq]
    constructor <;> omega
  · rw [correlate_channels_pos L2 R2 2 leftweight hlen2 (by omega)] at heq
    simp only [Outcome.ok.injEq, List.cons.injEq, and_true] at heq
    obtain ⟨heq0, heq1⟩ := heq
    have hlen12 : L2.length = L.length := by
      have := congrArg List.length heq1
      simpa using this
    have hpoint : ∀ i, i < L.length → L2.getD i 0 = L.getD i 0 ∧ R2.getD i 0 = R.getD i 0 := by
      intro i hi
      obtain ⟨h0, h1⟩ := hentry L R hlen hL hR i hi
      obtain ⟨g0, g1⟩ := hentry L2 R2 hlen2 hL2 hR2 i (by omega)
      rw [heq0, h0] at g0
      rw [heq1, h1] at g1
      rw [← g1] at g0
      constructor <;> omega
    exact ⟨eq_of_getD_eq L2 L hlen12 (fun i hi => (hpoint i (by omega)).1),
      eq_of_getD_eq R2 R (by omega) (fun i hi => (hpoint i (by omega)).2)⟩

theorem correlate_channels_invertible_witness :
    1 ≤ 3 ∧ 3 ≤ 4 ∧ ([5, -3, 7] : List Int).length = ([1, 2, 3] : List Int).length ∧
    (∀ x ∈ ([5, -3, 7] : List Int), sample_range 16 x) ∧
    (∀ x ∈ ([1, 2, 3] : List Int), sample_range 16 x) ∧
    ∃ c0 c1, correlate_channels [[5, -3, 7], [1, 2, 3]] 2 3 = .ok [c0, c1] ∧
      ∀ i, i < 3 →
        ([1, 2, 3] : List Int).getD i 0 =
          c0.getD i 0 - ((c1.getD i 0 * ((3 : Nat) : Int)) >>> (2 : Nat)) ∧
        ([5, -3, 7] : List Int).getD i 0 = c1.getD i 0 + ([1, 2, 3] : List Int).getD i 0 :=
  ⟨by decide, by decide, rfl, by decide, by decide,
    match correlate_channels_invertible [5, -3, 7] [1, 2, 3] 3 (by decide) (by decide) rfl
      (by decide) (by decide) with
    | ⟨c0, c1, h, _, _, hinv, _⟩ => ⟨c0, c1, h, hinv⟩⟩

end Alac

namespace Alac

/-! ## C22, C23: the driver `encode_alac` -/

theorem reverse_frame_sizes_loop_eq (head : List alac_frame_size) :
    ∀ reversed, reverse_frame_sizes_loop head reversed = head.reverse ++ reversed := by
  induction head with
  | nil => intro reversed; rfl
  | cons top head ih =>
    intro reversed
    rw [reverse_frame_sizes_loop, ih, List.reverse_cons, List.append_assoc]
    rfl

theorem reverse_frame_sizes_eq (head : List alac_frame_size) :
    reverse_frame_sizes head = head.reverse := by
  unfold reverse_frame_sizes
  rw [reverse_frame_sizes_loop_eq, List.append_nil]

theorem push_frame_sizes_eq (records : List alac_frame_size) :
    ∀ head, records.foldl (fun h r => push_frame_size h r.byte_size r.pcm_frames_size) head =
      records.reverse ++ head := by
  induction records with
  | nil => intro head; rfl
  | cons r records ih =>
    intro head
    rw [List.foldl_cons, ih, List.reverse_cons, List.append_assoc]
    rfl

theorem write_frameset_aligned (pos : Nat) (e : alac_context) (analysis : lpc_analysis)
    (channels : List (List Int)) (out : Bits)
    (h : write_frameset pos e analysis channels = some out) : (pos + out.length) % 8 = 0 := by
  unfold write_frameset at h
  cases hf : write_frames e analysis (frameset_frames channels) with
  | none => rw [hf] at h; simp at h
  | some frames =>
    rw [hf] at h
    simp only [Option.some.injEq] at h
    rw [← h]
    simp only [byte_align, List.length_append, List.length_replicate]
    omega

theorem byte_counter_aligned (pos : Nat) (bits : Bits) (hpos : pos % 8 = 0)
    (hend : (pos + bits.length) % 8 = 0) : byte_counter pos bits = bits.length / 8 := by
  unfold byte_counter
  omega

theorem read_channels_length (channel_count : Nat) (r : pcm_read) :
    ∀ ch ∈ read_channels channel_count r, ch.length = r.pcm_frames_read := by
  intro ch hch
  unfold read_channels at hch
  simp only [List.mem_map, List.mem_range] at hch
  obtain ⟨c, -, rfl⟩ := hch
  simp

theorem encode_alac_loop_spec (o : alac_encoding_options) (bits_per_sample channel_count : Nat)
    (analysis : lpc_analysis) (scratch : Nat → Bits) (reads : List pcm_read) :
    ∀ (n : Nat) (output : Bits) (frame_sizes : List alac_frame_size) (output1 : Bits)
      (frame_sizes1 : List alac_frame_size),
      (∀ r ∈ reads, 0 < r.pcm_frames_read) → output.length % 8 = 0 →
      encode_alac_loop o bits_per_sample channel_count analysis scratch reads n output
        frame_sizes = some (output1, frame_sizes1) →
      ∃ framesets : List Bits,
        framesets.length = reads.length ∧
        output1 = output ++ framesets.flatten ∧
        frame_sizes1 =
          (List.zipWith (fun (frameset : Bits) (r : pcm_read) =>
            (⟨frameset.length / 8 % 4294967296, r.pcm_frames_read⟩ : alac_frame_size))
            framesets reads).reverse ++ frame_sizes ∧
        (∀ frameset ∈ framesets, frameset.length % 8 = 0) ∧
        ∀ j, j < reads.length →
          write_frameset (output ++ (framesets.take j).flatten).length
            ⟨o, bits_per_sample, scratch (n + j)⟩ analysis
            (read_channels channel_count (reads.getD j ⟨0, []⟩)) =
              some (framesets.getD j []) := by
  induction reads with
  | nil =>
    intro n output frame_sizes output1 frame_sizes1 _ _ h
    simp only [encode_alac_loop, Option.some.injEq, Prod.mk.injEq] at h
    refine ⟨[], rfl, by simp [h.1], by simp [h.2], by simp, fun j hj => absurd hj (by simp)⟩
  | cons r more ih =>
    intro n output frame_sizes output1 frame_sizes1 hreads hpos h
    have hr : 0 < r.pcm_frames_read := hreads r (List.mem_cons_self _ _)
    rw [encode_alac_loop, if_pos hr] at h
    cases hf : write_frameset output.length ⟨o, bits_per_sample, scratch n⟩ analysis
        (read_channels channel_count r) with
    | none => rw [hf] at h; simp at h
    | some frameset =>
      rw [hf] at h
      simp only at h
      have hal := write_frameset_aligned _ _ _ _ _ hf
      have hfl : frameset.length % 8 = 0 := by omega
      obtain ⟨framesets, hlen, hout, hsizes, halign, hj⟩ :=
        ih (n + 1) (output ++ frameset) _ output1 frame_sizes1
          (fun r' hr' => hreads r' (List.mem_cons_of_mem _ hr'))
          (by rw [List.length_append]; exact hal) h
      refine ⟨frameset :: framesets, by simp [hlen], ?_, ?_, ?_, ?_⟩
      · rw [hout, List.flatten_cons, List.append_assoc]
      · rw [hsizes, List.zipWith_cons_cons, List.reverse_cons, List.append_assoc,
          byte_counter_aligned _ _ hpos hal]
        rfl
      · intro f hfm
        rcases List.mem_cons.mp hfm with rfl | hfm
        · exact hfl
        · exact halign f hfm
      · intro j hjlt
        cases j with
        | zero =>
          simp only [List.take_zero, List.flatten_nil, List.append_nil, Nat.add_zero,
            List.getD_cons_zero]
          exact hf
        | succ j =>
          have := hj j (by simpa using hjlt)
          simp only [List.take_succ_cons, List.flatten_cons, List.getD_cons_succ]
          rw [← List.append_assoc, show n + (j + 1) = n + 1 + j by omega]
          exact this

theorem encode_alac_loop_isSome (o : alac_encoding_options) (ho : reference_parameters o)
    (bits_per_sample channel_count : Nat) (hb : bits_per_sample ≤ 30)
    (analysis : lpc_analysis) (scratch : Nat → Bits) (reads : List pcm_read) :
    ∀ (n : Nat) (output : Bits) (frame_sizes : List alac_frame_size),
      ∃ result, encode_alac_loop o bits_per_sample channel_count analysis scratch reads n output
        frame_sizes = some result := by
  induction reads with
  | nil => intro n output frame_sizes; exact ⟨_, rfl⟩
  | cons r more ih =>
    intro n output frame_sizes
    rw [encode_alac_loop]
    split
    · obtain ⟨frameset, hf⟩ := write_frameset_isSome output.length
        ⟨o, bits_per_sample, scratch n⟩ ho hb analysis (read_channels channel_count r)
        r.pcm_frames_read (read_channels_length channel_count r)
      rw [hf]
      exact ih _ _ _
    · exact ⟨_, rfl⟩

theorem total_mdat_size_eq (frame_sizes : List alac_frame_size) :
    total_mdat_size frame_sizes =
      (8 + (frame_sizes.map fun r => r.byte_size).sum) % 4294967296 := by
  have h : ∀ (l : List alac_frame_size) (a : Nat), a < 4294967296 →
      l.foldl (fun total frame_size => (total + frame_size.byte_size) % 4294967296) a =
        (a + (l.map fun r => r.byte_size).sum) % 4294967296 := by
    intro l
    induction l with
    | nil =>
      intro a ha
      simp only [List.foldl_nil, List.map_nil, List.sum_nil, Nat.add_zero]
      omega
    | cons r l ih =>
      intro a ha
      rw [List.foldl_cons, ih _ (Nat.mod_lt _ (by decide)), List.map_cons, List.sum_cons]
      omega
  exact h frame_sizes 8 (by decide)

theorem encode_alac_result (reads : List pcm_read) (status_ok : Bool)
    (channel_count bits_per_sample block_size initial_history history_multiplier maximum_k : Nat)
    (analysis : lpc_analysis) (scratch : Nat → Bits)
    (hreads : ∀ r ∈ reads, 0 < r.pcm_frames_read) (hb : bits_per_sample ≤ 30)
    (ho : reference_parameters
      ⟨block_size, initial_history, history_multiplier, maximum_k, 0, 4⟩) :
    ∃ framesets : List Bits,
      framesets.length = reads.length ∧
      (∀ frameset ∈ framesets, frameset.length % 8 = 0) ∧
      (∀ j, j < reads.length →
        write_frameset (64 + (framesets.take j).flatten.length)
          ⟨⟨block_size, initial_history, history_multiplier, maximum_k, 0, 4⟩, bits_per_sample,
            scratch j⟩ analysis
          (read_channels channel_count (reads.getD j ⟨0, []⟩)) = some (framesets.getD j [])) ∧
      encode_alac reads status_ok channel_count bits_per_sample block_size initial_history
          history_multiplier maximum_k analysis scratch =
        some (if status_ok then
            (write 32 (total_mdat_size
                (List.zipWith (fun (frameset : Bits) (r : pcm_read) =>
                  (⟨frameset.length / 8 % 4294967296, r.pcm_frames_read⟩ : alac_frame_size))
                  framesets reads).reverse) ++
              (mdat_placeholder ++ framesets.flatten).drop 32,
             some (List.zipWith (fun (frameset : Bits) (r : pcm_read) =>
                  (⟨frameset.length / 8 % 4294967296, r.pcm_frames_read⟩ : alac_frame_size))
                  framesets reads))
          else (mdat_placeholder ++ framesets.flatten, none)) := by
  obtain ⟨⟨output1, frame_sizes1⟩, hloop⟩ := encode_alac_loop_isSome _ ho bits_per_sample
    channel_count hb analysis scratch reads 0 mdat_placeholder []
  obtain ⟨framesets, hlen, hout, hsizes, halign, hj⟩ := encode_alac_loop_spec _ bits_per_sample
    channel_count analysis scratch reads 0 mdat_placeholder [] output1 frame_sizes1 hreads
    (by decide) hloop
  refine ⟨framesets, hlen, halign, fun j hjlt => ?_, ?_⟩
  · have := hj j hjlt
    rw [List.length_append, Nat.zero_add] at this
    exact this
  · unfold encode_alac
    rw [hloop]
    simp only
    rw [hout, hsizes, List.append_nil, reverse_frame_sizes_eq, List.reverse_reverse]
    cases status_ok <;> rfl

/-- C22: for every sequence of blocks read successfully from the PCM source (reference
parameters, any maximum_k >= 1, sample width at most 30), the list encode_alac returns has
exactly one (byte_size, pcm_frames_size) record per block and the records appear in the order
the blocks were read: record j holds the byte size of the frameset of block j and the number
of PCM frames of block j; push_frame_size prepends and reverse_frame_sizes reverses, so
reversing after n pushes yields the records in push order. -/
theorem encode_alac_frame_sizes_order (reads : List pcm_read)
    (channel_count bits_per_sample block_size initial_history history_multiplier maximum_k : Nat)
    (analysis : lpc_analysis) (scratch : Nat → Bits)
    (hreads : ∀ r ∈ reads, 0 < r.pcm_frames_read) (hb : bits_per_sample ≤ 30)
    (ho : reference_parameters
      ⟨block_size, initial_history, history_multiplier, maximum_k, 0, 4⟩) :
    (∃ (output : Bits) (sizes : List alac_frame_size) (framesets : List Bits),
      encode_alac reads true channel_count bits_per_sample block_size initial_history
        history_multiplier maximum_k analysis scratch = some (output, some sizes) ∧
      sizes.length = reads.length ∧
      framesets.length = reads.length ∧
      output.drop 64 = framesets.flatten ∧
      ∀ j, j < reads.length →
        write_frameset (64 + (framesets.take j).flatten.length)
          ⟨⟨block_size, initial_history, history_multiplier, maximum_k, 0, 4⟩, bits_per_sample,
            scratch j⟩ analysis
          (read_channels channel_count (reads.getD j ⟨0, []⟩)) = some (framesets.getD j []) ∧
        sizes[j]? = some ⟨(framesets.getD j []).length / 8 % 4294967296,
          (reads.getD j ⟨0, []⟩).pcm_frames_read⟩) ∧
    (∀ records : List alac_frame_size,
      reverse_frame_sizes
        (records.foldl (fun head r => push_frame_size head r.byte_size r.pcm_frames_size) []) =
          records) := by
  constructor
  · obtain ⟨framesets, hlen, -, hj, henc⟩ := encode_alac_result reads true channel_count
      bits_per_sample block_size initial_history history_multiplier maximum_k analysis scratch
      hreads hb ho
    refine ⟨_, _, framesets, henc, ?_, hlen, ?_, fun j hjlt => ⟨hj j hjlt, ?_⟩⟩
    · rw [List.length_zipWith, hlen, Nat.min_self]
    · have h32 : (write 32 (total_mdat_size
          (List.zipWith (fun (frameset : Bits) (r : pcm_read) =>
            (⟨frameset.length / 8 % 4294967296, r.pcm_frames_read⟩ : alac_frame_size))
            framesets reads).reverse)).length = 32 := write_length _ _
      have hm : mdat_placeholder.length = 64 := by decide
      rw [List.drop_append_eq_append_drop, h32, List.drop_of_length_le (by omega),
        List.nil_append, List.drop_drop, List.drop_append_eq_append_drop, hm,
        List.drop_of_length_le (by omega)]
      simp
    · have hjf : j < framesets.length := by omega
      rw [List.getElem?_zipWith, List.getD_eq_getElem?_getD, List.getD_eq_getElem?_getD,
        List.getElem?_eq_getElem hjf, List.getElem?_eq_getElem hjlt]
      rfl
  · intro records
    rw [reverse_frame_sizes_eq, push_frame_sizes_eq, List.append_nil, List.reverse_reverse]

theorem encode_alac_frame_sizes_order_witness :
    (∀ r ∈ ([⟨3, [1, 2, 3]⟩, ⟨2, [7, 8]⟩] : List pcm_read), 0 < r.pcm_frames_read) ∧
    16 ≤ 30 ∧ reference_parameters ⟨4096, 10, 40, 14, 0, 4⟩ ∧
    ∃ (output : Bits) (sizes : List alac_frame_size),
      encode_alac [⟨3, [1, 2, 3]⟩, ⟨2, [7, 8]⟩] true 1 16 4096 10 40 14 (fun _ => none)
        (fun _ => []) = some (output, some sizes) ∧
      sizes.length = 2 :=
  ⟨by decide, by decide, by decide,
    match (encode_alac_frame_sizes_order [⟨3, [1, 2, 3]⟩, ⟨2, [7, 8]⟩] 1 16 4096 10 40 14
      (fun _ => none) (fun _ => []) (by decide) (by decide) (by decide)).1 with
    | ⟨output, sizes, _, h, hlen, _⟩ => ⟨output, sizes, h, hlen⟩⟩

theorem encode_alac_example :
    (encode_alac [⟨3, [1, 2, 3]⟩, ⟨2, [7, 8]⟩] true 1 16 4096 10 40 14 (fun _ => none)
      (fun _ => [])).map (fun result => (bits_value (result.1.take 32), result.2)) =
      some (34, some [⟨14, 3⟩, ⟨12, 2⟩]) := by
  set_option maxRecDepth 1000000 in decide

/-- C23: when the PCM source ends with status OK, the 32-bit value encode_alac writes back
into the mdat size field equals 8 plus the sum of the byte_size fields of the records in the
list it returns, in the arithmetic of `unsigned` (so exactly that sum whenever it is below
2^32), and the sum is unchanged by the final reversal; when the source ends with an error
status, the placeholder header stays as written (no size is written back) and no record list
is returned. -/
theorem encode_alac_mdat_size (reads : List pcm_read)
    (channel_count bits_per_sample block_size initial_history history_multiplier maximum_k : Nat)
    (analysis : lpc_analysis) (scratch : Nat → Bits)
    (hreads : ∀ r ∈ reads, 0 < r.pcm_frames_read) (hb : bits_per_sample ≤ 30)
    (ho : reference_parameters
      ⟨block_size, initial_history, history_multiplier, maximum_k, 0, 4⟩) :
    (∃ (output : Bits) (sizes : List alac_frame_size),
      encode_alac reads true channel_count bits_per_sample block_size initial_history
        history_multiplier maximum_k analysis scratch = some (output, some sizes) ∧
      bits_value (output.take 32) =
        (8 + (sizes.map fun r => r.byte_size).sum) % 4294967296 ∧
      (8 + (sizes.map fun r => r.byte_size).sum < 4294967296 →
        bits_value (output.take 32) = 8 + (sizes.map fun r => r.byte_size).sum) ∧
      ((reverse_frame_sizes sizes).map fun r => r.byte_size).sum =
        (sizes.map fun r => r.byte_size).sum) ∧
    (∃ output : Bits,
      encode_alac reads false channel_count bits_per_sample block_size initial_history
        history_multiplier maximum_k analysis scratch = some (output, none) ∧
      output.take 64 = mdat_placeholder ∧ bits_value (output.take 32) = 0) := by
  have hrev : ∀ l : List alac_frame_size,
      (l.reverse.map fun r => r.byte_size).sum = (l.map fun r => r.byte_size).sum := by
    intro l
    rw [List.map_reverse, List.sum_reverse]
  constructor
  · obtain ⟨framesets, -, -, -, henc⟩ := encode_alac_result reads true channel_count
      bits_per_sample block_size initial_history history_multiplier maximum_k analysis scratch
      hreads hb ho
    have hval : bits_value ((write 32 (total_mdat_size
          (List.zipWith (fun (frameset : Bits) (r : pcm_read) =>
            (⟨frameset.length / 8 % 4294967296, r.pcm_frames_read⟩ : alac_frame_size))
            framesets reads).reverse) ++
          (mdat_placeholder ++ framesets.flatten).drop 32).take 32) =
        (8 + ((List.zipWith (fun (frameset : Bits) (r : pcm_read) =>
            (⟨frameset.length / 8 % 4294967296, r.pcm_frames_read⟩ : alac_frame_size))
            framesets reads).map fun r => r.byte_size).sum) % 4294967296 := by
      rw [List.take_append_of_le_length (by rw [write_length]),
        List.take_of_length_le (by rw [write_length]), bits_value_write, total_mdat_size_eq,
        hrev]
      norm_num
    refine ⟨_, _, henc, ?_, fun hlt => ?_, ?_⟩
    · exact hval
    · exact hval.trans (Nat.mod_eq_of_lt hlt)
    · rw [reverse_frame_sizes_eq, hrev]
  · obtain ⟨framesets, -, -, -, henc⟩ := encode_alac_result reads false channel_count
      bits_per_sample block_size initial_history history_multiplier maximum_k analysis scratch
      hreads hb ho
    have hm : mdat_placeholder.length = 64 := by decide
    refine ⟨_, henc, ?_, ?_⟩
    · show (mdat_placeholder ++ framesets.flatten).take 64 = mdat_placeholder
      rw [List.take_append_of_le_length (by omega), List.take_of_length_le (by omega)]
    · show bits_value ((mdat_placeholder ++ framesets.flatten).take 32) = 0
      rw [List.take_append_of_le_length (by omega)]
      decide

theorem encode_alac_mdat_size_witness :
    (∀ r ∈ ([⟨3, [1, 2, 3]⟩, ⟨2, [7, 8]⟩] : List pcm_read), 0 < r.pcm_frames_read) ∧
    16 ≤ 30 ∧ reference_parameters ⟨4096, 10, 40, 14, 0, 4⟩ ∧
    ∃ (output : Bits) (sizes : List alac_frame_size),
      encode_alac [⟨3, [1, 2, 3]⟩, ⟨2, [7, 8]⟩] true 1 16 4096 10 40 14 (fun _ => none)
        (fun _ => []) = some (output, some sizes) ∧
      bits_value (output.take 32) = (8 + (sizes.map fun r => r.byte_size).sum) % 4294967296 :=
  ⟨by decide, by decide, by decide,
    match (encode_alac_mdat_size [⟨3, [1, 2, 3]⟩, ⟨2, [7, 8]⟩] 1 16 4096 10 40 14
      (fun _ => none) (fun _ => []) (by decide) (by decide) (by decide)).1 with
    | ⟨output, sizes, h, hval, _⟩ => ⟨output, sizes, h, hval⟩⟩

end Alac

namespace Alac

/-! ## C29: the code of `write_residual` is prefix-free -/

theorem write_residual_code (value k sample_size : Nat) (hk : 1 ≤ k) :
    write_residual value k sample_size =
      .ok (if value / (2 ^ k - 1) > 8 then List.replicate 9 true ++ write sample_size value
        else List.replicate (value / (2 ^ k - 1)) true ++
          false :: (if k > 1 then
            (if value % (2 ^ k - 1) > 0 then write k (value % (2 ^ k - 1) + 1)
              else write (k - 1) 0)
            else [])) := by
  have hd := divisor_pos k hk
  have h9 : write 9 0x1FF = List.replicate 9 true := by decide
  rw [Nat.one_shiftLeft] at hd
  unfold write_residual
  simp only [Nat.one_shiftLeft, if_neg hd, h9, write_unary]
  split
  · rfl
  · simp

theorem write_injective (n a b : Nat) (ha : a < 2 ^ n) (hb : b < 2 ^ n)
    (h : write n a = write n b) : a = b := by
  have := congrArg bits_value h
  rw [bits_value_write, bits_value_write, Nat.mod_eq_of_lt ha, Nat.mod_eq_of_lt hb] at this
  exact this

theorem bits_value_append (a b : Bits) :
    bits_value (a ++ b) = bits_value a * 2 ^ b.length + bits_value b := by
  unfold bits_value
  rw [List.foldl_append, bits_value_foldl]
  rfl

theorem prefix_getElem? {α : Type} (l1 l2 : List α) (h : List.IsPrefix l1 l2) (i : Nat)
    (hi : i < l1.length) : l2[i]? = l1[i]? := by
  obtain ⟨t, rfl⟩ := h
  exact List.getElem?_append_left hi

theorem replicate_append_getElem?_lt (m i : Nat) (rest : Bits) (hi : i < m) :
    (List.replicate m true ++ rest)[i]? = some true := by
  rw [List.getElem?_append_left (by simpa using hi), List.getElem?_replicate]
  simp [hi]

theorem replicate_append_getElem?_eq (m : Nat) (rest : Bits) :
    (List.replicate m true ++ false :: rest)[m]? = some false := by
  rw [List.getElem?_append_right (by simp)]
  simp

theorem unary_prefix (m1 m2 : Nat) (x y : Bits)
    (h : List.IsPrefix (List.replicate m1 true ++ false :: x)
      (List.replicate m2 true ++ false :: y)) : m1 = m2 ∧ List.IsPrefix x y := by
  have hm : m1 = m2 := by
    rcases Nat.lt_trichotomy m1 m2 with hlt | heq | hgt
    · have h1 := prefix_getElem? _ _ h m1 (by simp)
      rw [replicate_append_getElem?_eq, replicate_append_getElem?_lt _ _ _ hlt] at h1
      simp at h1
    · exact heq
    · have h1 := prefix_getElem? _ _ h m2 (by simp; omega)
      rw [replicate_append_getElem?_eq, replicate_append_getElem?_lt _ _ _ hgt] at h1
      simp at h1
  subst hm
  refine ⟨rfl, ?_⟩
  have h2 := (List.prefix_append_right_inj (List.replicate m1 true)).1 h
  obtain ⟨t, ht⟩ := h2
  simp only [List.cons_append, List.cons.injEq, true_and] at ht
  exact ⟨t, ht⟩

theorem zero_field_prefix (k x : Nat) (hk : 1 < k)
    (h : List.IsPrefix (write (k - 1) 0) (write k x)) : x % 2 ^ k < 2 := by
  obtain ⟨t, ht⟩ := h
  have hlen : t.length = 1 := by
    have := congrArg List.length ht
    rw [List.length_append, write_length, write_length] at this
    omega
  have hval := congrArg bits_value ht
  rw [bits_value_append, bits_value_write, bits_value_write, hlen] at hval
  have ht1 : bits_value t ≤ 1 := by
    match t, hlen with
    | [b], _ => cases b <;> simp [bits_value]
  simp only [Nat.zero_mod, Nat.zero_mul, Nat.zero_add] at hval
  omega

/-- C29: the code produced by write_residual is prefix-free: for every k >= 1, every
sample_size and every two distinct values v1 != v2 both below 2^sample_size, write_residual
writes a bit string for each, and the string written for v1 is not a prefix of the string
written for v2 (in particular the two strings differ). -/
theorem write_residual_prefix_free (k sample_size v1 v2 : Nat) (hk : 1 ≤ k) (hne : v1 ≠ v2)
    (h1 : v1 < 2 ^ sample_size) (h2 : v2 < 2 ^ sample_size) :
    ∃ code1 code2, write_residual v1 k sample_size = .ok code1 ∧
      write_residual v2 k sample_size = .ok code2 ∧
      ¬ List.IsPrefix code1 code2 ∧ code1 ≠ code2 := by
  have hpow : 2 ≤ 2 ^ k := by
    calc 2 = 2 ^ 1 := rfl
      _ ≤ 2 ^ k := Nat.pow_le_pow_right (by decide) hk
  have hd : 0 < 2 ^ k - 1 := by omega
  have hnp : ¬ List.IsPrefix
      (if v1 / (2 ^ k - 1) > 8 then List.replicate 9 true ++ write sample_size v1
        else List.replicate (v1 / (2 ^ k - 1)) true ++
          false :: (if k > 1 then
            (if v1 % (2 ^ k - 1) > 0 then write k (v1 % (2 ^ k - 1) + 1)
              else write (k - 1) 0)
            else []))
      (if v2 / (2 ^ k - 1) > 8 then List.replicate 9 true ++ write sample_size v2
        else List.replicate (v2 / (2 ^ k - 1)) true ++
          false :: (if k > 1 then
            (if v2 % (2 ^ k - 1) > 0 then write k (v2 % (2 ^ k - 1) + 1)
              else write (k - 1) 0)
            else [])) := by
    intro hp
    have hdm1 := Nat.div_add_mod v1 (2 ^ k - 1)
    have hdm2 := Nat.div_add_mod v2 (2 ^ k - 1)
    have hl1 := Nat.mod_lt v1 hd
    have hl2 := Nat.mod_lt v2 hd
    by_cases hm1 : v1 / (2 ^ k - 1) > 8
    · rw [if_pos hm1] at hp
      by_cases hm2 : v2 / (2 ^ k - 1) > 8
      · rw [if_pos hm2] at hp
        have heq := hp.eq_of_length (by simp [write_length])
        have := List.append_cancel_left heq
        exact hne (write_injective _ _ _ h1 h2 this)
      · rw [if_neg hm2] at hp
        have hg := prefix_getElem? _ _ hp (v2 / (2 ^ k - 1)) (by simp; omega)
        rw [replicate_append_getElem?_eq, replicate_append_getElem?_lt _ _ _ (by omega)] at hg
        simp at hg
    · rw [if_neg hm1] at hp
      by_cases hm2 : v2 / (2 ^ k - 1) > 8
      · rw [if_pos hm2] at hp
        have hg := prefix_getElem? _ _ hp (v1 / (2 ^ k - 1)) (by simp)
        rw [replicate_append_getElem?_eq, replicate_append_getElem?_lt _ _ _ (by omega)] at hg
        simp at hg
      · rw [if_neg hm2] at hp
        obtain ⟨hmsb, htail⟩ := unary_prefix _ _ _ _ hp
        have hlsb : v1 % (2 ^ k - 1) ≠ v2 % (2 ^ k - 1) := by
          intro heq
          apply hne
          rw [← hdm1, ← hdm2, hmsb, heq]
        by_cases hk1 : k > 1
        · rw [if_pos hk1, if_pos hk1] at htail
          by_cases hz1 : v1 % (2 ^ k - 1) > 0
          · rw [if_pos hz1] at htail
            by_cases hz2 : v2 % (2 ^ k - 1) > 0
            · rw [if_pos hz2] at htail
              have heq := htail.eq_of_length (by simp [write_length])
              have := write_injective _ _ _ (by omega) (by omega) heq
              omega
            · rw [if_neg hz2] at htail
              have := htail.length_le
              rw [write_length, write_length] at this
              omega
          · rw [if_neg hz1] at htail
            by_cases hz2 : v2 % (2 ^ k - 1) > 0
            · rw [if_pos hz2] at htail
              have := zero_field_prefix k _ hk1 htail
              rw [Nat.mod_eq_of_lt (by omega)] at this
              omega
            · omega
        · have hk1' : k = 1 := by omega
          subst hk1'
          simp only [pow_one, Nat.add_one_sub_one, Nat.mod_one] at hlsb
          exact hlsb rfl
  exact ⟨_, _, write_residual_code v1 k sample_size hk, write_residual_code v2 k sample_size hk,
    hnp, fun heq => hnp (heq ▸ List.prefix_refl _)⟩

theorem write_residual_prefix_free_witness :
    1 ≤ 2 ∧ 5 ≠ 6 ∧ 5 < 2 ^ 16 ∧ 6 < 2 ^ 16 ∧
    ∃ code1 code2, write_residual 5 2 16 = .ok code1 ∧ write_residual 6 2 16 = .ok code2 ∧
      ¬ List.IsPrefix code1 code2 :=
  ⟨by decide, by decide, by decide, by decide,
    match write_residual_prefix_free 2 16 5 6 (by decide) (by decide) (by decide)
      (by decide) with
    | ⟨code1, code2, h1, h2, h3, _⟩ => ⟨code1, code2, h1, h2, h3⟩⟩

end Alac

namespace Alac

/-! ## C25: the parameter k of every `write_residual` call -/

theorem write_residual_ok_divisor (value k sample_size : Nat) (code : Bits)
    (h : write_residual value k sample_size = .ok code) : (1 <<< k) - 1 ≠ 0 := by
  intro hd
  unfold write_residual at h
  simp only [hd, if_true] at h
  exact absurd h (by simp)

theorem encode_residuals_calls_bounds (o : alac_encoding_options)
    (ho : reference_parameters o) (sample_size : Nat) (fuel : Nat) :
    ∀ (history : Int) (sign_modifier : Nat) (remaining : List Int),
      (∀ r ∈ remaining.tail, is_int r) → 0 ≤ history → history ≤ 33554432 →
      (history = 0 → ∀ r, remaining.head? = some r → is_int r ∧ r ≠ 0) →
      ∀ call ∈ encode_residuals_calls o sample_size fuel history sign_modifier remaining,
        1 ≤ call.2.1 ∧ call.2.1 ≤ o.maximum_k := by
  obtain ⟨-, hm, hk⟩ := ho
  induction fuel with
  | zero =>
    intro history sign_modifier remaining _ _ _ _ call hcall
    simp [encode_residuals_calls] at hcall
  | succ fuel ih =>
    intro history sign_modifier remaining hint h0 h1 hhead call hcall
    cases remaining with
    | nil => simp [encode_residuals_calls] at hcall
    | cons r rest =>
      have hrest : ∀ x ∈ rest, is_int x := fun x hx => hint x hx
      have htail : ∀ x ∈ rest.tail, is_int x := fun x hx => hrest x (List.mem_of_mem_tail hx)
      have hdrop : ∀ x ∈ (rest.dropWhile (fun x => decide (x = 0))).tail, is_int x :=
        fun x hx => hrest x ((List.dropWhile_suffix _).subset (List.mem_of_mem_tail hx))
      have hpos : 1 ≤ history ∨ 1 ≤ fold_residual r := by
        by_cases hz : history = 0
        · right; exact fold_residual_pos r (hhead hz r rfl).1 (hhead hz r rfl).2
        · left; omega
      rw [encode_residuals_calls] at hcall
      simp only [hm] at hcall
      by_cases hov : fold_residual r ≥ 1 <<< sample_size
      · rw [if_pos hov] at hcall; simp at hcall
      · rw [if_neg hov] at hcall
        obtain ⟨hv, hl⟩ := main_k_bounds history h0 h1
        rw [LOG2_eq _ hv] at hcall
        simp only at hcall
        have hmain : 1 ≤ min (Nat.log2 (uint32 ((history >>> (9 : Nat)) + 3))) o.maximum_k ∧
            min (Nat.log2 (uint32 ((history >>> (9 : Nat)) + 3))) o.maximum_k ≤ o.maximum_k :=
          ⟨by omega, Nat.min_le_right _ _⟩
        split at hcall
        · simp only [List.mem_singleton] at hcall
          rw [hcall]; exact hmain
        by_cases hu : fold_residual r ≤ 0xFFFF
        · rw [if_pos hu] at hcall
          obtain ⟨hb1, hb2⟩ := history_update_bounds history (fold_residual r) h0 h1 hu hpos
          split at hcall
          · rename_i hrun
            obtain ⟨hv0, hk0⟩ := run_k_bounds _ hb1 hrun.1
            rw [LOG2_eq _ hv0] at hcall
            simp only at hcall
            have hrunk : 1 ≤ min (uint32 (7 - (Nat.log2 (uint32 (history +
                  (int32 ((fold_residual r * 40 : Nat) : Int) -
                    ((history * int32 ((40 : Nat) : Int)) >>> (9 : Nat))))) : Int) +
                (uint32 ((history + (int32 ((fold_residual r * 40 : Nat) : Int) -
                    ((history * int32 ((40 : Nat) : Int)) >>> (9 : Nat))) + 16) >>> (6 : Nat)) :
                  Int))) o.maximum_k ∧
                min (uint32 (7 - (Nat.log2 (uint32 (history +
                  (int32 ((fold_residual r * 40 : Nat) : Int) -
                    ((history * int32 ((40 : Nat) : Int)) >>> (9 : Nat))))) : Int) +
                (uint32 ((history + (int32 ((fold_residual r * 40 : Nat) : Int) -
                    ((history * int32 ((40 : Nat) : Int)) >>> (9 : Nat))) + 16) >>> (6 : Nat)) :
                  Int))) o.maximum_k ≤ o.maximum_k :=
              ⟨by omega, Nat.min_le_right _ _⟩
            split at hcall
            · simp only [List.mem_cons, List.mem_singleton, List.not_mem_nil, or_false] at hcall
              rcases hcall with rfl | rfl
              · exact hmain
              · exact hrunk
            · simp only [List.mem_cons] at hcall
              rcases hcall with rfl | rfl | hcall
              · exact hmain
              · exact hrunk
              · refine ih _ _ _ hdrop (le_refl _) (by norm_num) ?_ call hcall
                intro _ x hx
                have hmem : x ∈ rest.dropWhile (fun x => decide (x = 0)) :=
                  List.mem_of_mem_head? hx
                have := List.head?_dropWhile_not (fun x => decide (x = 0)) rest
                rw [hx] at this
                exact ⟨hrest x ((List.dropWhile_suffix _).subset hmem), by simpa using this⟩
          · simp only [List.mem_cons] at hcall
            rcases hcall with rfl | hcall
            · exact hmain
            · exact ih _ _ _ htail (by omega) hb2 (by intro hz; omega) call hcall
        · rw [if_neg hu] at hcall
          simp only [List.mem_cons] at hcall
          rcases hcall with rfl | hcall
          · exact hmain
          · exact ih _ _ _ htail (by norm_num) (by norm_num) (by norm_num) call hcall

theorem encode_residuals_calls_codes (o : alac_encoding_options) (sample_size : Nat)
    (fuel : Nat) :
    ∀ (history : Int) (sign_modifier : Nat) (remaining : List Int) (block : Bits),
      encode_residuals_loop o sample_size fuel history sign_modifier remaining = .ok block →
      ∃ codes : List Bits,
        List.Forall₂ (fun (call : Nat × Nat × Nat) (code : Bits) =>
            write_residual call.1 call.2.1 call.2.2 = .ok code)
          (encode_residuals_calls o sample_size fuel history sign_modifier remaining) codes ∧
        block = codes.flatten := by
  induction fuel with
  | zero =>
    intro history sign_modifier remaining block h
    simp only [encode_residuals_loop, Outcome.ok.injEq] at h
    exact ⟨[], by simp [encode_residuals_calls], by simp [← h]⟩
  | succ fuel ih =>
    intro history sign_modifier remaining block h
    cases remaining with
    | nil =>
      simp only [encode_residuals_loop, Outcome.ok.injEq] at h
      exact ⟨[], by simp [encode_residuals_calls], by simp [← h]⟩
    | cons r rest =>
      rw [encode_residuals_loop] at h
      rw [encode_residuals_calls]
      simp only at h ⊢
      by_cases hov : fold_residual r ≥ 1 <<< sample_size
      · rw [if_pos hov] at h; simp at h
      · rw [if_neg hov] at h ⊢
        rw [Outcome.bind_eq_ok] at h
        obtain ⟨l, hl, h⟩ := h
        rw [hl]
        simp only
        rw [Outcome.bind_eq_ok] at h
        obtain ⟨code, hcode, h⟩ := h
        rw [if_neg (write_residual_ok_divisor _ _ _ _ hcode)]
        by_cases hu : fold_residual r ≤ 0xFFFF
        · rw [if_pos hu] at h ⊢
          split at h
          · rename_i hrun
            rw [if_pos hrun]
            rw [Outcome.bind_eq_ok] at h
            obtain ⟨l0, hl0, h⟩ := h
            rw [hl0]
            simp only
            rw [Outcome.bind_eq_ok] at h
            obtain ⟨run, hrunc, h⟩ := h
            rw [if_neg (write_residual_ok_divisor _ _ _ _ hrunc)]
            rw [Outcome.bind_eq_ok] at h
            obtain ⟨tail, htail, h⟩ := h
            simp only [Outcome.ok.injEq] at h
            obtain ⟨codes, hcodes, hflat⟩ := ih _ _ _ _ htail
            refine ⟨code :: run :: codes, List.Forall₂.cons hcode (List.Forall₂.cons hrunc hcodes),
              ?_⟩
            rw [← h, hflat]
            simp
          · rename_i hrun
            rw [if_neg hrun]
            rw [Outcome.bind_eq_ok] at h
            obtain ⟨tail, htail, h⟩ := h
            simp only [Outcome.ok.injEq] at h
            obtain ⟨codes, hcodes, hflat⟩ := ih _ _ _ _ htail
            refine ⟨code :: codes, List.Forall₂.cons hcode hcodes, ?_⟩
            rw [← h, hflat]
            simp
        · rw [if_neg hu] at h ⊢
          rw [Outcome.bind_eq_ok] at h
          obtain ⟨tail, htail, h⟩ := h
          simp only [Outcome.ok.injEq] at h
          obtain ⟨codes, hcodes, hflat⟩ := ih _ _ _ _ htail
          refine ⟨code :: codes, List.Forall₂.cons hcode hcodes, ?_⟩
          rw [← h, hflat]
          simp

/-- C25: for every residual sequence (of C ints), with the reference parameters
(initial_history 10, history_multiplier 40) and any maximum_k >= 1, every call
encode_residuals makes to write_residual has 1 <= k <= maximum_k, so the divisor
(1 << k) - 1 is never zero; the calls listed are both those with
k = min(LOG2((history >> 9) + 3), maximum_k) and the zero-run calls with
k = min(7 - LOG2(history) + ((history + 16) >> 6), maximum_k), and when the sequence does not
overflow the residual block is exactly the concatenation of what these calls write. -/
theorem encode_residuals_k_bounds (o : alac_encoding_options) (ho : reference_parameters o)
    (sample_size : Nat) (residuals : List Int) (hint : ∀ r ∈ residuals, is_int r) :
    (∀ call ∈ encode_residuals_calls o sample_size residuals.length (int32 o.initial_history) 0
        residuals,
      1 ≤ call.2.1 ∧ call.2.1 ≤ o.maximum_k ∧ (1 <<< call.2.1) - 1 ≠ 0) ∧
    (∀ block, encode_residuals o sample_size residuals = .ok block →
      ∃ codes : List Bits,
        List.Forall₂ (fun (call : Nat × Nat × Nat) (code : Bits) =>
            write_residual call.1 call.2.1 call.2.2 = .ok code)
          (encode_residuals_calls o sample_size residuals.length (int32 o.initial_history) 0
            residuals) codes ∧
        block = codes.flatten) := by
  constructor
  · intro call hcall
    have hi : int32 (o.initial_history : Int) = 10 := by rw [ho.1]; decide
    rw [hi] at hcall
    obtain ⟨h1, h2⟩ := encode_residuals_calls_bounds o ho sample_size residuals.length 10 0
      residuals (fun r hr => hint r (List.mem_of_mem_tail hr)) (by norm_num) (by norm_num)
      (by norm_num) call hcall
    exact ⟨h1, h2, divisor_pos _ h1⟩
  · intro block h
    exact encode_residuals_calls_codes o sample_size residuals.length _ _ _ block h

theorem encode_residuals_k_bounds_witness :
    reference_parameters ⟨4096, 10, 40, 14, 0, 4⟩ ∧
    (∀ r ∈ ([0, 1, -1, 0, 0, 36, 63, 0, 0, -6400] : List Int), is_int r) ∧
    encode_residuals_calls ⟨4096, 10, 40, 14, 0, 4⟩ 16 10 (int32 ((10 : Nat) : Int)) 0
      [0, 1, -1, 0, 0, 36, 63, 0, 0, -6400] =
      [(0, 1, 16), (0, 4, 16), (1, 1, 16), (0, 2, 16), (0, 1, 16), (2, 2, 16), (71, 1, 16),
        (126, 3, 16), (0, 4, 16), (0, 4, 16), (12799, 3, 16)] ∧
    ∀ call ∈ encode_residuals_calls ⟨4096, 10, 40, 14, 0, 4⟩ 16 10 (int32 ((10 : Nat) : Int)) 0
        [0, 1, -1, 0, 0, 36, 63, 0, 0, -6400],
      1 ≤ call.2.1 ∧ call.2.1 ≤ 14 ∧ (1 <<< call.2.1) - 1 ≠ 0 :=
  ⟨by decide, by decide, by decide,
    (encode_residuals_k_bounds ⟨4096, 10, 40, 14, 0, 4⟩ (by decide) 16
      [0, 1, -1, 0, 0, 36, 63, 0, 0, -6400] (by decide)).1⟩

end Alac

namespace Alac

/-! ## C21: the working coefficients of `calculate_residuals` -/

theorem SIGN_ONLY_bounds (value : Int) : -1 ≤ SIGN_ONLY value ∧ SIGN_ONLY value ≤ 1 := by
  unfold SIGN_ONLY
  split
  · omega
  · split <;> omega

theorem getD_set (l : List Int) (p i : Nat) (v : Int) :
    (l.set p v).getD i 0 = if i = p ∧ p < l.length then v else l.getD i 0 := by
  rw [List.getD_eq_getElem?_getD, List.getD_eq_getElem?_getD, List.getElem?_set]
  by_cases hip : p = i
  · subst hip
    by_cases hlt : p < l.length
    · simp [hlt]
    · simp [hlt]
      rw [List.getElem?_eq_none (by omega)]
      rfl
  · have : ¬ (i = p ∧ p < l.length) := fun h => hip h.1.symm
    simp [hip, this]

theorem refine_positive_drift (samples : List Int) (i coeff_count : Nat) (base_sample : Int)
    (n : Nat) :
    ∀ (j : Nat) (error : Int) (coefficients : List Int), j + n ≤ coeff_count →
      (refine_positive samples i coeff_count base_sample n j error coefficients).length =
        coefficients.length ∧
      ∀ index,
        (coeff_count - j ≤ index →
          (refine_positive samples i coeff_count base_sample n j error coefficients).getD index 0 =
            coefficients.getD index 0) ∧
        coefficients.getD index 0 - 1 ≤
          (refine_positive samples i coeff_count base_sample n j error coefficients).getD index 0 ∧
        (refine_positive samples i coeff_count base_sample n j error coefficients).getD index 0 ≤
          coefficients.getD index 0 + 1 := by
  induction n with
  | zero =>
    intro j error coefficients _
    rw [refine_positive]
    exact ⟨rfl, fun index => ⟨fun _ => rfl, by omega, by omega⟩⟩
  | succ n ih =>
    intro j error coefficients hj
    have hs := SIGN_ONLY_bounds (base_sample - samples.getD (i - coeff_count + j) 0)
    have hset : ∀ index,
        (coeff_count - j ≤ index →
          (coefficients.set (coeff_count - j - 1)
            (coefficients.getD (coeff_count - j - 1) 0 -
              SIGN_ONLY (base_sample - samples.getD (i - coeff_count + j) 0))).getD index 0 =
            coefficients.getD index 0) ∧
        coefficients.getD index 0 - 1 ≤
          (coefficients.set (coeff_count - j - 1)
            (coefficients.getD (coeff_count - j - 1) 0 -
              SIGN_ONLY (base_sample - samples.getD (i - coeff_count + j) 0))).getD index 0 ∧
        (coefficients.set (coeff_count - j - 1)
            (coefficients.getD (coeff_count - j - 1) 0 -
              SIGN_ONLY (base_sample - samples.getD (i - coeff_count + j) 0))).getD index 0 ≤
          coefficients.getD index 0 + 1 := by
      intro index
      rw [getD_set]
      by_cases hc : index = coeff_count - j - 1 ∧ coeff_count - j - 1 < coefficients.length
      · rw [if_pos hc, ← hc.1]
        exact ⟨fun h => by omega, by omega, by omega⟩
      · rw [if_neg hc]
        exact ⟨fun _ => rfl, by omega, by omega⟩
    rw [refine_positive]
    split
    · exact ⟨by simp, hset⟩
    · obtain ⟨hlen, hidx⟩ := ih (j + 1)
        (int32 (error - ((base_sample - samples.getD (i - coeff_count + j) 0) *
          SIGN_ONLY (base_sample - samples.getD (i - coeff_count + j) 0)) >>> (9 : Nat) *
            ((j + 1 : Nat) : Int)))
        (coefficients.set (coeff_count - j - 1)
          (coefficients.getD (coeff_count - j - 1) 0 -
            SIGN_ONLY (base_sample - samples.getD (i - coeff_count + j) 0))) (by omega)
      refine ⟨by rw [hlen]; simp, fun index => ?_⟩
      obtain ⟨h1, h2, h3⟩ := hidx index
      obtain ⟨g1, g2, g3⟩ := hset index
      refine ⟨fun h => ?_, ?_, ?_⟩
      · rw [h1 (by omega), g1 h]
      · by_cases hi : coeff_count - (j + 1) ≤ index
        · rw [h1 hi]; exact g2
        · rw [getD_set, if_neg (by omega)] at h2
          exact h2
      · by_cases hi : coeff_count - (j + 1) ≤ index
        · rw [h1 hi]; exact g3
        · rw [getD_set, if_neg (by omega)] at h3
          exact h3

theorem refine_negative_drift (samples : List Int) (i coeff_count : Nat) (base_sample : Int)
    (n : Nat) :
    ∀ (j : Nat) (error : Int) (coefficients : List Int), j + n ≤ coeff_count →
      (refine_negative samples i coeff_count base_sample n j error coefficients).length =
        coefficients.length ∧
      ∀ index,
        (coeff_count - j ≤ index →
          (refine_negative samples i coeff_count base_sample n j error coefficients).getD index 0 =
            coefficients.getD index 0) ∧
        coefficients.getD index 0 - 1 ≤
          (refine_negative samples i coeff_count base_sample n j error coefficients).getD index 0 ∧
        (refine_negative samples i coeff_count base_sample n j error coefficients).getD index 0 ≤
          coefficients.getD index 0 + 1 := by
  induction n with
  | zero =>
    intro j error coefficients _
    rw [refine_negative]
    exact ⟨rfl, fun index => ⟨fun _ => rfl, by omega, by omega⟩⟩
  | succ n ih =>
    intro j error coefficients hj
    have hs := SIGN_ONLY_bounds (base_sample - samples.getD (i - coeff_count + j) 0)
    have hset : ∀ index,
        (coeff_count - j ≤ index →
          (coefficients.set (coeff_count - j - 1)
            (coefficients.getD (coeff_count - j - 1) 0 +
              SIGN_ONLY (base_sample - samples.getD (i - coeff_count + j) 0))).getD index 0 =
            coefficients.getD index 0) ∧
        coefficients.getD index 0 - 1 ≤
          (coefficients.set (coeff_count - j - 1)
            (coefficients.getD (coeff_count - j - 1) 0 +
              SIGN_ONLY (base_sample - samples.getD (i - coeff_count + j) 0))).getD index 0 ∧
        (coefficients.set (coeff_count - j - 1)
            (coefficients.getD (coeff_count - j - 1) 0 +
              SIGN_ONLY (base_sample - samples.getD (i - coeff_count + j) 0))).getD index 0 ≤
          coefficients.getD index 0 + 1 := by
      intro index
      rw [getD_set]
      by_cases hc : index = coeff_count - j - 1 ∧ coeff_count - j - 1 < coefficients.length
      · rw [if_pos hc, ← hc.1]
        exact ⟨fun h => by omega, by omega, by omega⟩
      · rw [if_neg hc]
        exact ⟨fun _ => rfl, by omega, by omega⟩
    rw [refine_negative]
    split
    · exact ⟨by simp, hset⟩
    · obtain ⟨hlen, hidx⟩ := ih (j + 1)
        (int32 (error - ((base_sample - samples.getD (i - coeff_count + j) 0) *
          -SIGN_ONLY (base_sample - samples.getD (i - coeff_count + j) 0)) >>> (9 : Nat) *
            ((j + 1 : Nat) : Int)))
        (coefficients.set (coeff_count - j - 1)
          (coefficients.getD (coeff_count - j - 1) 0 +
            SIGN_ONLY (base_sample - samples.getD (i - coeff_count + j) 0))) (by omega)
      refine ⟨by rw [hlen]; simp, fun index => ?_⟩
      obtain ⟨h1, h2, h3⟩ := hidx index
      obtain ⟨g1, g2, g3⟩ := hset index
      refine ⟨fun h => ?_, ?_, ?_⟩
      · rw [h1 (by omega), g1 h]
      · by_cases hi : coeff_count - (j + 1) ≤ index
        · rw [h1 hi]; exact g2
        · rw [getD_set, if_neg (by omega)] at h2
          exact h2
      · by_cases hi : coeff_count - (j + 1) ≤ index
        · rw [h1 hi]; exact g3
        · rw [getD_set, if_neg (by omega)] at h3
          exact h3


theorem calculate_residuals_steps_fst (samples : List Int) (sample_size coeff_count : Nat)
    (n : Nat) : ∀ (i : Nat) (coefficients : List Int),
      (calculate_residuals_steps samples sample_size coeff_count n i coefficients).map Prod.fst =
        calculate_residuals_loop samples sample_size coeff_count n i coefficients := by
  induction n with
  | zero => intro i coefficients; rfl
  | succ n ih =>
    intro i coefficients
    rw [calculate_residuals_steps, calculate_residuals_loop, List.map_cons, ih]

theorem calculate_residuals_steps_drift (samples : List Int) (sample_size coeff_count : Nat)
    (n : Nat) : ∀ (i : Nat) (coefficients : List Int) (k : Nat) (state : List Int),
      ((calculate_residuals_steps samples sample_size coeff_count n i coefficients).map
        Prod.snd)[k]? = some state →
      state.length = coefficients.length ∧
      ∀ index, coefficients.getD index 0 - ((k : Int) + 1) ≤ state.getD index 0 ∧
        state.getD index 0 ≤ coefficients.getD index 0 + ((k : Int) + 1) := by
  induction n with
  | zero =>
    intro i coefficients k state h
    simp [calculate_residuals_steps] at h
  | succ n ih =>
    intro i coefficients k state h
    rw [calculate_residuals_steps, List.map_cons] at h
    have hstep : ∀ c1 : List Int,
        c1 = (if TRUNCATE_BITS (samples.getD i 0 - samples.getD (i - coeff_count - 1) 0 -
              int32 (lpc_sum samples coefficients i coeff_count
                (samples.getD (i - coeff_count - 1) 0) >>> (9 : Nat))) sample_size > 0 then
            refine_positive samples i coeff_count (samples.getD (i - coeff_count - 1) 0)
              coeff_count 0
              (TRUNCATE_BITS (samples.getD i 0 - samples.getD (i - coeff_count - 1) 0 -
                int32 (lpc_sum samples coefficients i coeff_count
                  (samples.getD (i - coeff_count - 1) 0) >>> (9 : Nat))) sample_size)
              coefficients
          else if TRUNCATE_BITS (samples.getD i 0 - samples.getD (i - coeff_count - 1) 0 -
              int32 (lpc_sum samples coefficients i coeff_count
                (samples.getD (i - coeff_count - 1) 0) >>> (9 : Nat))) sample_size < 0 then
            refine_negative samples i coeff_count (samples.getD (i - coeff_count - 1) 0)
              coeff_count 0
              (TRUNCATE_BITS (samples.getD i 0 - samples.getD (i - coeff_count - 1) 0 -
                int32 (lpc_sum samples coefficients i coeff_count
                  (samples.getD (i - coeff_count - 1) 0) >>> (9 : Nat))) sample_size)
              coefficients
          else coefficients) →
        c1.length = coefficients.length ∧
        ∀ index, coefficients.getD index 0 - 1 ≤ c1.getD index 0 ∧
          c1.getD index 0 ≤ coefficients.getD index 0 + 1 := by
      intro c1 hc1
      rw [hc1]
      split
      · obtain ⟨hl, hi⟩ := refine_positive_drift samples i coeff_count
          (samples.getD (i - coeff_count - 1) 0) coeff_count 0
          (TRUNCATE_BITS (samples.getD i 0 - samples.getD (i - coeff_count - 1) 0 -
            int32 (lpc_sum samples coefficients i coeff_count
              (samples.getD (i - coeff_count - 1) 0) >>> (9 : Nat))) sample_size)
          coefficients (by omega)
        exact ⟨hl, fun index => (hi index).2⟩
      · split
        · obtain ⟨hl, hi⟩ := refine_negative_drift samples i coeff_count
            (samples.getD (i - coeff_count - 1) 0) coeff_count 0
            (TRUNCATE_BITS (samples.getD i 0 - samples.getD (i - coeff_count - 1) 0 -
              int32 (lpc_sum samples coefficients i coeff_count
                (samples.getD (i - coeff_count - 1) 0) >>> (9 : Nat))) sample_size)
            coefficients (by omega)
          exact ⟨hl, fun index => (hi index).2⟩
        · exact ⟨rfl, fun index => ⟨by omega, by omega⟩⟩
    cases k with
    | zero =>
      simp only [List.getElem?_cons_zero, Option.some.injEq] at h
      obtain ⟨hl, hi⟩ := hstep state h.symm
      refine ⟨hl, fun index => ?_⟩
      have := hi index
      push_cast
      constructor <;> omega
    | succ k =>
      rw [List.getElem?_cons_succ] at h
      obtain ⟨hl1, hi1⟩ := hstep _ rfl
      obtain ⟨hl, hi⟩ := ih _ _ k state h
      refine ⟨hl.trans hl1, fun index => ?_⟩
      have h1 := hi1 index
      have h2 := hi index
      push_cast
      constructor <;> omega

/-- C21 (as stated, refuted): the coefficient list [0, 0, 0, 32767] lies in the quantizer
range, and for the 16-bit samples 0, 1, 0, 0, 0, 100, 0, 0, 0, 0 the residual of sample 5 is
36 > 0 with base_sample - samples[1] = -1, so the first refinement step subtracts the sign -1
from coefficient 3 and the working copy becomes [0, 0, 0, 32768], outside [-2^15, 2^15 - 1]. -/
theorem working_coefficients_leave_range :
    (∀ c ∈ ([0, 0, 0, 32767] : List Int), -(2 : Int) ^ 15 ≤ c ∧ c ≤ 2 ^ 15 - 1) ∧
    calculate_residuals [0, 1, 0, 0, 0, 100, 0, 0, 0, 0] 16 [0, 0, 0, 32767] =
      [0, 1, -1, 0, 0, 36, 63, 0, 0, -6400] ∧
    working_coefficients [0, 1, 0, 0, 0, 100, 0, 0, 0, 0] 16 [0, 0, 0, 32767] =
      [[0, 0, 0, 32768], [1, -1, -1, 32767], [1, -1, -1, 32767], [1, -1, -1, 32767],
        [1, -1, -1, 32766]] ∧
    ¬ ((32768 : Int) ≤ 2 ^ 15 - 1) := by
  decide

/-- C21 (amended): for every sample sequence and every initial coefficient list q, a
refinement loop of calculate_residuals, stopped after any number of its steps, leaves every
entry of the working copy within 1 of its value before the loop (each step moves one entry by
a sign in -1, 0, 1 and no entry is visited twice), so after the refinement of the k-th sample
of the prediction loop (k = 1, 2, ...) the working copy has the length of q and every entry
is within k of the initial entry: with initial entries in [-2^15, 2^15 - 1] the entries lie in
[-2^15 - k, 2^15 - 1 + k] (there is no saturation, and the range [-2^15, 2^15 - 1] itself is
not preserved). -/
theorem working_coefficients_drift (s q : List Int) (W k : Nat) (state : List Int)
    (hq : ∀ c ∈ q, -(2 : Int) ^ 15 ≤ c ∧ c ≤ 2 ^ 15 - 1)
    (hstate : (working_coefficients s W q)[k]? = some state) :
    state.length = q.length ∧
    (∀ index, q.getD index 0 - ((k : Int) + 1) ≤ state.getD index 0 ∧
      state.getD index 0 ≤ q.getD index 0 + ((k : Int) + 1)) ∧
    (∀ c ∈ state, -(2 : Int) ^ 15 - ((k : Int) + 1) ≤ c ∧ c ≤ 2 ^ 15 - 1 + ((k : Int) + 1)) ∧
    (∀ (samples : List Int) (i coeff_count : Nat) (base_sample error : Int) (steps : Nat)
        (coefficients : List Int) (index : Nat), steps ≤ coeff_count →
      (coefficients.getD index 0 - 1 ≤
          (refine_positive samples i coeff_count base_sample steps 0 error coefficients).getD
            index 0 ∧
        (refine_positive samples i coeff_count base_sample steps 0 error coefficients).getD
            index 0 ≤ coefficients.getD index 0 + 1) ∧
      (coefficients.getD index 0 - 1 ≤
          (refine_negative samples i coeff_count base_sample steps 0 error coefficients).getD
            index 0 ∧
        (refine_negative samples i coeff_count base_sample steps 0 error coefficients).getD
            index 0 ≤ coefficients.getD index 0 + 1)) := by
  have hlt : q.length < 31 := by
    by_contra hge
    unfold working_coefficients at hstate
    rw [if_neg hge] at hstate
    simp at hstate
  unfold working_coefficients at hstate
  rw [if_pos hlt] at hstate
  obtain ⟨hlen, hidx⟩ := calculate_residuals_steps_drift s W q.length _ _ q k state hstate
  refine ⟨hlen, hidx, fun c hc => ?_, ?_⟩
  · obtain ⟨index, hi, rfl⟩ := List.getElem_of_mem hc
    have hget : state[index] = state.getD index 0 := by
      rw [List.getD_eq_getElem?_getD, List.getElem?_eq_getElem hi]
      rfl
    have hqi : index < q.length := by omega
    have hqr := hq (q[index]) (List.getElem_mem hqi)
    have hqget : q[index] = q.getD index 0 := by
      rw [List.getD_eq_getElem?_getD, List.getElem?_eq_getElem hqi]
      rfl
    rw [hqget] at hqr
    rw [hget]
    have := hidx index
    constructor <;> omega
  · intro samples i coeff_count base_sample error steps coefficients index hsteps
    obtain ⟨-, hp⟩ := refine_positive_drift samples i coeff_count base_sample steps 0 error
      coefficients (by omega)
    obtain ⟨-, hn⟩ := refine_negative_drift samples i coeff_count base_sample steps 0 error
      coefficients (by omega)
    exact ⟨(hp index).2, (hn index).2⟩

theorem working_coefficients_drift_witness :
    (∀ c ∈ ([0, 0, 0, 32767] : List Int), -(2 : Int) ^ 15 ≤ c ∧ c ≤ 2 ^ 15 - 1) ∧
    (working_coefficients [0, 1, 0, 0, 0, 100, 0, 0, 0, 0] 16 [0, 0, 0, 32767])[4]? =
      some [1, -1, -1, 32766] ∧
    ∀ c ∈ ([1, -1, -1, 32766] : List Int),
      -(2 : Int) ^ 15 - (((4 : Nat) : Int) + 1) ≤ c ∧ c ≤ 2 ^ 15 - 1 + (((4 : Nat) : Int) + 1) :=
  ⟨by decide, by set_option maxRecDepth 1000000 in decide,
    (working_coefficients_drift [0, 1, 0, 0, 0, 100, 0, 0, 0, 0] [0, 0, 0, 32767] 16 4
      [1, -1, -1, 32766] (by decide) (by set_option maxRecDepth 1000000 in decide)).2.2.1⟩

end Alac

namespace Alac

/-! ## C28: `calculate_residuals` is injective on in-range samples -/

theorem TRUNCATE_BITS_emod (value : Int) (bits : Nat) (h : 1 ≤ bits) :
    TRUNCATE_BITS value bits % 2 ^ bits = value % 2 ^ bits := by
  obtain ⟨-, -, hc | hc⟩ := TRUNCATE_BITS_spec value bits h
  · rw [hc, Int.emod_emod_of_dvd _ (dvd_refl _)]
  · rw [hc, Int.sub_emod, Int.emod_self, sub_zero, Int.emod_emod_of_dvd _ (dvd_refl _),
      Int.emod_emod_of_dvd _ (dvd_refl _)]

theorem TRUNCATE_BITS_injective (x y a b : Int) (W : Nat) (hW : 1 ≤ W)
    (h : TRUNCATE_BITS x W = TRUNCATE_BITS y W) (hxy : x - y = a - b)
    (ha : sample_range W a) (hb : sample_range W b) : a = b := by
  have hmod : x % 2 ^ W = y % 2 ^ W := by
    rw [← TRUNCATE_BITS_emod x W hW, ← TRUNCATE_BITS_emod y W hW, h]
  have hdvd : (2 : Int) ^ W ∣ a - b := by
    rw [← hxy]
    exact Int.dvd_of_emod_eq_zero (Int.emod_eq_emod_iff_emod_sub_eq_zero.1 hmod)
  have hpow : (2 : Int) ^ W = 2 * 2 ^ (W - 1) := by
    obtain ⟨w, rfl⟩ : ∃ w, W = w + 1 := ⟨W - 1, by omega⟩
    rw [pow_succ, Nat.add_sub_cancel]
    ring
  unfold sample_range at ha hb
  have habs : |a - b| < 2 ^ W := by
    rw [abs_lt, hpow]
    constructor <;> linarith [ha.1, ha.2, hb.1, hb.2]
  have := Int.eq_zero_of_abs_lt_dvd hdvd habs
  omega

theorem lpc_sum_congr (s t coefficients : List Int) (i coeff_count : Nat) (base_sample : Int)
    (hi : 1 ≤ i) (hagree : ∀ j, j < i → s.getD j 0 = t.getD j 0) :
    lpc_sum t coefficients i coeff_count base_sample =
      lpc_sum s coefficients i coeff_count base_sample := by
  rw [lpc_sum_eq, lpc_sum_eq]
  congr 2
  apply List.map_congr_left
  intro j _
  rw [hagree (i - j - 1) (by omega)]

theorem refine_positive_congr (s t : List Int) (i coeff_count : Nat) (base_sample : Int)
    (hi : coeff_count ≤ i) (hagree : ∀ j, j < i → s.getD j 0 = t.getD j 0) (n : Nat) :
    ∀ (j : Nat) (error : Int) (coefficients : List Int), j + n ≤ coeff_count →
      refine_positive t i coeff_count base_sample n j error coefficients =
        refine_positive s i coeff_count base_sample n j error coefficients := by
  induction n with
  | zero => intro j error coefficients _; rfl
  | succ n ih =>
    intro j error coefficients hj
    rw [refine_positive, refine_positive, hagree (i - coeff_count + j) (by omega)]
    split
    · rfl
    · exact ih _ _ _ (by omega)

theorem refine_negative_congr (s t : List Int) (i coeff_count : Nat) (base_sample : Int)
    (hi : coeff_count ≤ i) (hagree : ∀ j, j < i → s.getD j 0 = t.getD j 0) (n : Nat) :
    ∀ (j : Nat) (error : Int) (coefficients : List Int), j + n ≤ coeff_count →
      refine_negative t i coeff_count base_sample n j error coefficients =
        refine_negative s i coeff_count base_sample n j error coefficients := by
  induction n with
  | zero => intro j error coefficients _; rfl
  | succ n ih =>
    intro j error coefficients hj
    rw [refine_negative, refine_negative, hagree (i - coeff_count + j) (by omega)]
    split
    · rfl
    · exact ih _ _ _ (by omega)

theorem calculate_residuals_loop_injective (s t : List Int) (W coeff_count : Nat) (hW : 1 ≤ W)
    (n : Nat) :
    ∀ (i : Nat) (coefficients : List Int), coeff_count + 1 ≤ i →
      (∀ j, j < i → s.getD j 0 = t.getD j 0) →
      (∀ j, j < i + n → sample_range W (s.getD j 0) ∧ sample_range W (t.getD j 0)) →
      calculate_residuals_loop s W coeff_count n i coefficients =
        calculate_residuals_loop t W coeff_count n i coefficients →
      ∀ j, j < i + n → s.getD j 0 = t.getD j 0 := by
  induction n with
  | zero => intro i coefficients _ hagree _ _ j hj; exact hagree j (by omega)
  | succ n ih =>
    intro i coefficients hi hagree hrange h
    have hbase : t.getD (i - coeff_count - 1) 0 = s.getD (i - coeff_count - 1) 0 :=
      (hagree _ (by omega)).symm
    have hsum : ∀ c base, lpc_sum t c i coeff_count base = lpc_sum s c i coeff_count base :=
      fun c base => lpc_sum_congr s t c i coeff_count base (by omega) hagree
    have hrp : ∀ base error c, refine_positive t i coeff_count base coeff_count 0 error c =
        refine_positive s i coeff_count base coeff_count 0 error c :=
      fun base error c => refine_positive_congr s t i coeff_count base (by omega) hagree
        coeff_count 0 error c (by omega)
    have hrn : ∀ base error c, refine_negative t i coeff_count base coeff_count 0 error c =
        refine_negative s i coeff_count base coeff_count 0 error c :=
      fun base error c => refine_negative_congr s t i coeff_count base (by omega) hagree
        coeff_count 0 error c (by omega)
    rw [calculate_residuals_loop, calculate_residuals_loop] at h
    simp only [hbase, hsum, hrp, hrn, List.cons.injEq] at h
    obtain ⟨hhead, htail⟩ := h
    have hsi : s.getD i 0 = t.getD i 0 :=
      TRUNCATE_BITS_injective _ _ _ _ W hW hhead (by ring) (hrange i (by omega)).1
        (hrange i (by omega)).2
    rw [← hsi] at htail
    intro j0 hj0
    refine ih (i + 1) _ (by omega) (fun j hj => ?_) (fun j hj => hrange j (by omega)) htail
      j0 (by omega)
    rcases Nat.lt_succ_iff_lt_or_eq.mp hj with hlt | heq
    · exact hagree j hlt
    · rw [heq]; exact hsi

theorem warm_up_injective (s t : List Int) (W M : Nat) (hW : 1 ≤ W)
    (h0 : s.getD 0 0 = t.getD 0 0)
    (hrange : ∀ j, j < M + 1 → sample_range W (s.getD j 0) ∧ sample_range W (t.getD j 0))
    (h : ((List.range M).map fun u => TRUNCATE_BITS (s.getD (u + 1) 0 - s.getD u 0) W) =
      (List.range M).map fun u => TRUNCATE_BITS (t.getD (u + 1) 0 - t.getD u 0) W) :
    ∀ j, j < M + 1 → s.getD j 0 = t.getD j 0 := by
  have hu : ∀ u, u < M →
      TRUNCATE_BITS (s.getD (u + 1) 0 - s.getD u 0) W =
        TRUNCATE_BITS (t.getD (u + 1) 0 - t.getD u 0) W := by
    intro u hlt
    have := congrArg (fun l => l.getD u 0) h
    simp only at this
    rw [getD_map_range _ _ _ hlt, getD_map_range _ _ _ hlt] at this
    exact this
  intro j
  induction j with
  | zero => intro _; exact h0
  | succ j ih =>
    intro hj
    have hprev := ih (by omega)
    exact TRUNCATE_BITS_injective _ _ _ _ W hW (hu j (by omega)) (by rw [hprev]; ring)
      (hrange (j + 1) hj).1 (hrange (j + 1) hj).2

/-- C28: calculate_residuals is lossless on in-range input: for every width W >= 1 (the claim
has 1 <= W < 32), every coefficient list q of length M in {4, 8} and every two sample
sequences s and t of the same length N >= M + 1 whose entries all lie in
[-2^(W-1), 2^(W-1)), calculate_residuals(s, W, q) = calculate_residuals(t, W, q) implies
s = t. -/
theorem calculate_residuals_injective (s t q : List Int) (W : Nat) (hW : 1 ≤ W)
    (hM : q.length = 4 ∨ q.length = 8) (hlen : s.length = t.length)
    (hN : q.length + 1 ≤ s.length)
    (hs : ∀ x ∈ s, sample_range W x) (ht : ∀ x ∈ t, sample_range W x)
    (h : calculate_residuals s W q = calculate_residuals t W q) : s = t := by
  have hM31 : q.length < 31 := by omega
  rw [calculate_residuals_unfold s q W hM31, calculate_residuals_unfold t q W hM31] at h
  simp only [List.cons.injEq] at h
  obtain ⟨h0, hrest⟩ := h
  obtain ⟨hwarm, hloop⟩ := List.append_inj hrest (by simp)
  have hrange : ∀ j, j < s.length → sample_range W (s.getD j 0) ∧ sample_range W (t.getD j 0) :=
    fun j hj => ⟨sample_range_getD W s hs j hj, sample_range_getD W t ht j (by omega)⟩
  have hagree := warm_up_injective s t W q.length hW h0 (fun j hj => hrange j (by omega)) hwarm
  rw [← hlen] at hloop
  have hall := calculate_residuals_loop_injective s t W q.length hW
    (s.length - (q.length + 1)) (q.length + 1) q (le_refl _) hagree
    (fun j hj => hrange j (by omega)) hloop
  exact eq_of_getD_eq s t hlen (fun i hi => hall i (by omega))

theorem calculate_residuals_injective_witness :
    1 ≤ 16 ∧ (([160, -80, 32, -8] : List Int).length = 4 ∨
      ([160, -80, 32, -8] : List Int).length = 8) ∧
    ([4, -3, 12, 40, 1, 7, 0, -20, 5, 9] : List Int).length =
      ([4, -3, 12, 40, 1, 7, 0, -20, 5, 9] : List Int).length ∧
    ([160, -80, 32, -8] : List Int).length + 1 ≤
      ([4, -3, 12, 40, 1, 7, 0, -20, 5, 9] : List Int).length ∧
    (∀ x ∈ ([4, -3, 12, 40, 1, 7, 0, -20, 5, 9] : List Int), sample_range 16 x) ∧
    ([4, -3, 12, 40, 1, 7, 0, -20, 5, 9] : List Int) = [4, -3, 12, 40, 1, 7, 0, -20, 5, 9] :=
  ⟨by decide, Or.inl rfl, rfl, by decide, by decide,
    calculate_residuals_injective [4, -3, 12, 40, 1, 7, 0, -20, 5, 9]
      [4, -3, 12, 40, 1, 7, 0, -20, 5, 9] [160, -80, 32, -8] 16 (by decide) (Or.inl rfl) rfl
      (by decide) (by decide) (by decide) rfl⟩

theorem calculate_residuals_distinct_example :
    calculate_residuals [4, -3, 12, 40, 1, 7, 0, -20, 5, 9] 16 [160, -80, 32, -8] ≠
      calculate_residuals [4, -3, 12, 40, 1, 7, 0, -20, 5, 10] 16 [160, -80, 32, -8] := by
  decide

end Alac

namespace Alac

/-! ## C27: residual overflow is unreachable for in-range samples -/

theorem pow_pred_double (W : Nat) (hW : 1 ≤ W) : (2 : Int) ^ W = 2 * 2 ^ (W - 1) := by
  obtain ⟨w, rfl⟩ : ∃ w, W = w + 1 := ⟨W - 1, by omega⟩
  rw [pow_succ, Nat.add_sub_cancel]
  ring

theorem spec_fold_lt (r : Int) (W : Nat) (hW : 1 ≤ W) (h : sample_range W r) :
    spec_fold r < 2 ^ W := by
  unfold sample_range at h
  rw [pow_pred_double W hW]
  unfold spec_fold
  split <;> omega

theorem sample_range_is_int (r : Int) (W : Nat) (hW : W ≤ 32) (h : sample_range W r) :
    is_int r := by
  unfold sample_range at h
  have hle : (2 : Int) ^ (W - 1) ≤ 2 ^ 31 := pow_le_pow_right₀ (by norm_num) (by omega)
  norm_num at hle
  unfold is_int
  constructor <;> omega

theorem sample_range_mono (r : Int) (V W : Nat) (hVW : V ≤ W) (h : sample_range V r) :
    sample_range W r := by
  unfold sample_range at h ⊢
  have hle : (2 : Int) ^ (V - 1) ≤ 2 ^ (W - 1) := pow_le_pow_right₀ (by norm_num) (by omega)
  constructor <;> omega

theorem TRUNCATE_BITS_range (value : Int) (W : Nat) (hW : 1 ≤ W) :
    sample_range W (TRUNCATE_BITS value W) :=
  ⟨(TRUNCATE_BITS_spec value W hW).1, (TRUNCATE_BITS_spec value W hW).2.1⟩

theorem calculate_residuals_loop_range (samples : List Int) (W coeff_count : Nat) (hW : 1 ≤ W)
    (n : Nat) : ∀ (i : Nat) (coefficients : List Int),
      ∀ r ∈ calculate_residuals_loop samples W coeff_count n i coefficients,
        sample_range W r := by
  induction n with
  | zero => intro i coefficients r hr; simp [calculate_residuals_loop] at hr
  | succ n ih =>
    intro i coefficients r hr
    rw [calculate_residuals_loop] at hr
    rcases List.mem_cons.mp hr with rfl | hr
    · exact TRUNCATE_BITS_range _ _ hW
    · exact ih _ _ r hr

theorem calculate_residuals_range (samples : List Int) (W : Nat) (q : List Int) (hW : 1 ≤ W)
    (h0 : sample_range W (samples.getD 0 0)) :
    ∀ r ∈ calculate_residuals samples W q, sample_range W r := by
  intro r hr
  unfold calculate_residuals at hr
  simp only at hr
  split at hr
  · rcases List.mem_cons.mp hr with rfl | hr
    · exact h0
    · rcases List.mem_append.mp hr with hr | hr
      · obtain ⟨u, -, rfl⟩ := List.mem_map.mp hr
        exact TRUNCATE_BITS_range _ _ hW
      · exact calculate_residuals_loop_range samples W _ hW _ _ _ r hr
  · rcases List.mem_cons.mp hr with rfl | hr
    · exact h0
    · obtain ⟨u, -, rfl⟩ := List.mem_map.mp hr
      exact TRUNCATE_BITS_range _ _ hW

theorem encode_residuals_no_overflow (o : alac_encoding_options) (W : Nat)
    (residuals : List Int) (hW : 1 ≤ W) (hW32 : W ≤ 32)
    (h : ∀ r ∈ residuals, sample_range W r) :
    encode_residuals o W residuals ≠ .residual_overflow := by
  intro hov
  obtain ⟨r, hr, hlt⟩ := (encode_residuals_sound o W residuals
    (fun r hr => sample_range_is_int r W hW32 (h r hr))).1 hov
  have := spec_fold_lt r W hW (h r hr)
  omega

theorem compute_coefficients_ok (o : alac_encoding_options) (ho : reference_parameters o)
    (analysis : lpc_analysis) (samples : List Int) (W : Nat) (hW : 1 ≤ W) (hW31 : W ≤ 31)
    (h0 : sample_range W (samples.getD 0 0)) :
    ∃ result, compute_coefficients o analysis samples W = .ok result := by
  have hno : ∀ q, encode_residuals o W (calculate_residuals samples W q) ≠
      .residual_overflow :=
    fun q => encode_residuals_no_overflow o W _ hW (by omega)
      (calculate_residuals_range samples W q hW h0)
  cases hres : compute_coefficients o analysis samples W with
  | ok result => exact ⟨result, rfl⟩
  | abort => exact absurd hres (compute_coefficients_ne_abort o ho analysis samples W hW31)
  | residual_overflow =>
    exfalso
    unfold compute_coefficients at hres
    cases ha : analysis samples with
    | none =>
      rw [ha] at hres
      simp only [Outcome.bind_eq_overflow] at hres
      rcases hres with hres | ⟨b, -, hres⟩
      · exact hno _ hres
      · simp at hres
    | some q =>
      rw [ha] at hres
      simp only [Outcome.bind_eq_overflow] at hres
      rcases hres with hres | ⟨b4, -, hres | ⟨b8, -, hres⟩⟩
      · exact hno _ hres
      · exact hno _ hres
      · split at hres <;> simp at hres

theorem leftweight_search_ok (candidate : Nat → Outcome Bits) (ws : List Nat)
    (h : ∀ w ∈ ws, ∃ c, candidate w = .ok c) :
    ∀ (best_bits : Nat) (best : Bits),
      ∃ payload, leftweight_search candidate ws best_bits best = .ok payload := by
  induction ws with
  | nil => intro best_bits best; exact ⟨best, rfl⟩
  | cons w ws ih =>
    intro best_bits best
    obtain ⟨c, hc⟩ := h w (List.mem_cons_self _ _)
    rw [leftweight_search, hc, Outcome.ok_bind]
    split
    · exact ih (fun w' hw' => h w' (List.mem_cons_of_mem _ hw')) _ _
    · exact ih (fun w' hw' => h w' (List.mem_cons_of_mem _ hw')) _ _

theorem MSB_range (x : Int) (h : sample_range 24 x) :
    sample_range 16 (x >>> ((24 : Nat) - 16)) := by
  unfold sample_range at h ⊢
  rw [Int.shiftRight_eq_div_pow]
  have e24 : (2 : Int) ^ (24 - 1) = 8388608 := by norm_num
  have e16 : (2 : Int) ^ (16 - 1) = 32768 := by norm_num
  have e8 : ((2 ^ ((24 : Nat) - 16) : Nat) : Int) = 256 := by norm_num
  rw [e24] at h
  rw [e16, e8]
  constructor <;> omega

theorem MSB_channel_range (channel : List Int) (L : Nat) (hL : L ≤ channel.length)
    (h : ∀ x ∈ channel, sample_range 24 x) :
    ∀ x ∈ (List.range L).map (fun i => channel.getD i 0 >>> ((24 : Nat) - 16)),
      sample_range 16 x := by
  intro x hx
  obtain ⟨i, hi, rfl⟩ := List.mem_map.mp hx
  exact MSB_range _ (sample_range_getD 24 channel h i (by
    have := List.mem_range.mp hi
    omega))

theorem correlate_channels_range (A B : List Int) (w : Nat) (hw : w ≤ 4)
    (hlen : A.length = B.length) (h1 : 1 ≤ A.length)
    (hA : ∀ x ∈ A, sample_range 16 x) (hB : ∀ x ∈ B, sample_range 16 x) :
    ∃ cc, correlate_channels [A, B] INTERLACING_SHIFT w = .ok cc ∧
      ∀ c, c < 2 → sample_range 17 ((cc.getD c []).getD 0 0) := by
  have ha := sample_range_getD 16 A hA 0 (by omega)
  have hb := sample_range_getD 16 B hB 0 (by omega)
  rcases Nat.eq_zero_or_pos w with h0 | hpos
  · subst h0
    refine ⟨[A, B], correlate_channels_zero A B _ hlen, fun c hc => ?_⟩
    have hc2 : c = 0 ∨ c = 1 := by omega
    rcases hc2 with rfl | rfl
    · exact sample_range_mono _ 16 17 (by decide) ha
    · exact sample_range_mono _ 16 17 (by decide) hb
  · refine ⟨_, correlate_channels_pos A B INTERLACING_SHIFT w hlen hpos, fun c hc => ?_⟩
    have hc2 : c = 0 ∨ c = 1 := by omega
    have hent := correlated_entry (A.getD 0 0) (B.getD 0 0) w ha hb hw
    have e16 : (2 : Int) ^ (16 - 1) = 32768 := by norm_num
    have e17 : (2 : Int) ^ (17 - 1) = 65536 := by norm_num
    unfold sample_range at ha hb
    rw [e16] at ha hb
    rcases hc2 with rfl | rfl
    · rw [List.getD_cons_zero, getD_map_range _ _ _ (by omega)]
      show sample_range 17 (B.getD 0 0 +
        int32 (((A.getD 0 0 - B.getD 0 0) * (w : Int)) >>> (2 : Nat)))
      rw [hent]
      unfold sample_range
      rw [e17]
      have hw4 : w = 1 ∨ w = 2 ∨ w = 3 ∨ w = 4 := by omega
      rcases hw4 with rfl | rfl | rfl | rfl <;> constructor <;> omega
    · rw [List.getD_cons_succ, List.getD_cons_zero, getD_map_range _ _ _ (by omega)]
      unfold sample_range
      rw [e17]
      constructor <;> omega

theorem residuals_fit (o : alac_encoding_options) (samples : List Int) (W : Nat) (hW : 1 ≤ W)
    (hW32 : W ≤ 32) (h0 : sample_range W (samples.getD 0 0)) (q : List Int) :
    (∀ r ∈ calculate_residuals samples W q, spec_fold r < 2 ^ W) ∧
    encode_residuals o W (calculate_residuals samples W q) ≠ .residual_overflow :=
  ⟨fun r hr => spec_fold_lt r W hW (calculate_residuals_range samples W q hW h0 r hr),
    encode_residuals_no_overflow o W _ hW hW32 (calculate_residuals_range samples W q hW h0)⟩

theorem write_non_interlaced_frame_ok (e : alac_context) (ho : reference_parameters e.options)
    (analysis : lpc_analysis) (uncompressed_LSBs : Nat) (LSBs : List Int) (channel : List Int)
    (hss : e.bits_per_sample - uncompressed_LSBs * 8 = 16)
    (h0 : sample_range 16 (channel.getD 0 0)) :
    ∃ payload, write_non_interlaced_frame e analysis uncompressed_LSBs LSBs [channel] =
      .ok payload := by
  rw [write_non_interlaced_frame_eq, hss]
  obtain ⟨⟨q, block⟩, hres⟩ := compute_coefficients_ok e.options ho analysis channel 16
    (by decide) (by decide) h0
  rw [hres]
  exact ⟨_, rfl⟩

theorem write_interlaced_frame_ok (e : alac_context) (ho : reference_parameters e.options)
    (analysis : lpc_analysis) (uncompressed_LSBs : Nat) (LSBs : List Int) (w : Nat)
    (A B : List Int) (hw : w ≤ 4)
    (hss : e.bits_per_sample - uncompressed_LSBs * 8 + 1 = 17)
    (hlen : A.length = B.length) (h1 : 1 ≤ A.length)
    (hA : ∀ x ∈ A, sample_range 16 x) (hB : ∀ x ∈ B, sample_range 16 x) :
    ∃ payload, write_interlaced_frame e analysis uncompressed_LSBs LSBs INTERLACING_SHIFT w
      [A, B] = .ok payload := by
  obtain ⟨cc, hcc, hrange⟩ := correlate_channels_range A B w hw hlen h1 hA hB
  rw [write_interlaced_frame_eq, hcc, Outcome.ok_bind, hss]
  obtain ⟨⟨q0, block0⟩, hres0⟩ := compute_coefficients_ok e.options ho analysis (cc.getD 0 [])
    17 (by decide) (by decide) (hrange 0 (by decide))
  obtain ⟨⟨q1, block1⟩, hres1⟩ := compute_coefficients_ok e.options ho analysis (cc.getD 1 [])
    17 (by decide) (by decide) (hrange 1 (by decide))
  rw [hres0, Outcome.ok_bind, hres1]
  exact ⟨_, rfl⟩

theorem write_frame_of_compressed_ok (e : alac_context) (analysis : lpc_analysis)
    (channels : List (List Int)) (payload : Bits)
    (hC : channels.length = 1 ∨ channels.length = 2)
    (h10 : 10 ≤ (channels.getD 0 []).length)
    (h : write_compressed_frame e analysis channels = .ok payload) :
    write_frame e analysis channels = some (write 3 (channels.length - 1) ++ payload) := by
  unfold write_frame
  rw [if_neg (not_not.mpr hC), if_pos h10, h]

theorem interlaced_candidate_ok (e : alac_context) (ho : reference_parameters e.options)
    (analysis : lpc_analysis) (channel0 channel1 : List Int) (w : Nat) (hw : w ≤ 4)
    (hB : e.bits_per_sample = 16 ∨ e.bits_per_sample = 24)
    (hlen : channel0.length = channel1.length) (h1 : 1 ≤ channel0.length)
    (h0r : ∀ x ∈ channel0, sample_range e.bits_per_sample x)
    (h1r : ∀ x ∈ channel1, sample_range e.bits_per_sample x) :
    ∃ payload, interlaced_candidate e analysis [channel0, channel1] w = .ok payload := by
  unfold interlaced_candidate
  rcases hB with hb | hb
  · rw [if_pos (by omega)]
    rw [hb] at h0r h1r
    exact write_interlaced_frame_ok e ho analysis 0 [] w channel0 channel1 hw (by omega) hlen h1
      h0r h1r
  · rw [if_neg (by omega), extract_MSBs_two, hb]
    rw [hb] at h0r h1r
    exact write_interlaced_frame_ok e ho analysis _ _ w _ _ hw (by rw [hb]) (by simp)
      (by simpa using h1) (MSB_channel_range channel0 _ (le_refl _) h0r)
      (MSB_channel_range channel1 _ (by omega) h1r)

/-- C27: residual overflow is unreachable for in-range input: under the reference
parameters (any maximum_k >= 1) and the leftweight range 0..4, for B in {16, 24} and every
mono or stereo frame of equal-length channels of length L >= 10 whose samples all lie in
[-2^(B-1), 2^(B-1)), for every leftweight in 0..4 and every coefficient list, each residual
produced by calculate_residuals on a channel handed to compute_coefficients (including the
untruncated e[0]) has folded value u < 2^sample_size (16 for mono, 17 for stereo), so
encode_residuals does not signal overflow, and write_frame emits the compressed payload. -/
theorem residual_overflow_unreachable (e : alac_context) (analysis : lpc_analysis)
    (channels : List (List Int)) (L : Nat) (ho : reference_parameters e.options)
    (hmin : e.options.minimum_interlacing_leftweight = 0)
    (hmax : e.options.maximum_interlacing_leftweight = 4)
    (hB : e.bits_per_sample = 16 ∨ e.bits_per_sample = 24)
    (hC : channels.length = 1 ∨ channels.length = 2)
    (hL : ∀ ch ∈ channels, ch.length = L) (h10 : 10 ≤ L)
    (hrange : ∀ ch ∈ channels, ∀ x ∈ ch, sample_range e.bits_per_sample x) :
    (channels.length = 1 → ∀ q : List Int,
      (∀ r ∈ calculate_residuals
          ((if e.bits_per_sample ≤ 16 then channels
            else extract_MSBs e.bits_per_sample channels).getD 0 []) 16 q,
        spec_fold r < 2 ^ 16) ∧
      encode_residuals e.options 16 (calculate_residuals
          ((if e.bits_per_sample ≤ 16 then channels
            else extract_MSBs e.bits_per_sample channels).getD 0 []) 16 q) ≠
        .residual_overflow) ∧
    (channels.length = 2 → ∀ w, w ≤ 4 →
      ∃ correlated_channels,
        correlate_channels
          (if e.bits_per_sample ≤ 16 then channels
            else extract_MSBs e.bits_per_sample channels) INTERLACING_SHIFT w =
          .ok correlated_channels ∧
        ∀ (c : Nat) (q : List Int), c < 2 →
          (∀ r ∈ calculate_residuals (correlated_channels.getD c []) 17 q,
            spec_fold r < 2 ^ 17) ∧
          encode_residuals e.options 17
              (calculate_residuals (correlated_channels.getD c []) 17 q) ≠
            .residual_overflow) ∧
    ∃ payload, write_compressed_frame e analysis channels = .ok payload ∧
      write_frame e analysis channels = some (write 3 (channels.length - 1) ++ payload) := by
  rcases hC with hC1 | hC2
  · obtain ⟨ch, rfl⟩ := List.length_eq_one.mp hC1
    have hlen : ch.length = L := hL ch (List.mem_singleton_self _)
    have hr := hrange ch (List.mem_singleton_self _)
    have hfed : sample_range 16 (((if e.bits_per_sample ≤ 16 then [ch]
        else extract_MSBs e.bits_per_sample [ch]).getD 0 []).getD 0 0) := by
      rcases hB with hb | hb
      · rw [if_pos (by omega), List.getD_cons_zero]
        rw [hb] at hr
        exact sample_range_getD 16 ch hr 0 (by omega)
      · rw [if_neg (by omega), extract_MSBs_one, List.getD_cons_zero, hb]
        rw [hb] at hr
        exact sample_range_getD 16 _ (MSB_channel_range ch _ (le_refl _) hr) 0
          (by simp; omega)
    refine ⟨fun _ q => residuals_fit e.options _ 16 (by decide) (by decide) hfed q,
      fun h2 => absurd h2 (by simp), ?_⟩
    have hcomp : ∃ payload, write_compressed_frame e analysis [ch] = .ok payload := by
      unfold write_compressed_frame
      rcases hB with hb | hb
      · rw [if_pos (by omega), if_pos (by rfl)]
        rw [if_pos (by omega), List.getD_cons_zero] at hfed
        exact write_non_interlaced_frame_ok e ho analysis 0 [] ch (by omega) hfed
      · rw [if_neg (by omega)]
        simp only [List.length_cons, List.length_nil]
        rw [if_pos trivial, extract_MSBs_one]
        rw [if_neg (by omega), extract_MSBs_one, List.getD_cons_zero] at hfed
        exact write_non_interlaced_frame_ok e ho analysis _ _ _ (by rw [hb]) hfed
    obtain ⟨payload, hp⟩ := hcomp
    exact ⟨payload, hp, write_frame_of_compressed_ok e analysis [ch] payload (Or.inl rfl)
      (by rw [List.getD_cons_zero]; omega) hp⟩
  · obtain ⟨c0, c1, rfl⟩ := List.length_eq_two.mp hC2
    have hlen0 : c0.length = L := hL c0 (by simp)
    have hlen1 : c1.length = L := hL c1 (by simp)
    have hr0 := hrange c0 (by simp)
    have hr1 := hrange c1 (by simp)
    refine ⟨fun h1 => absurd h1 (by simp), fun _ w hw => ?_, ?_⟩
    · have hcc : ∃ cc, correlate_channels
            (if e.bits_per_sample ≤ 16 then [c0, c1]
              else extract_MSBs e.bits_per_sample [c0, c1]) INTERLACING_SHIFT w = .ok cc ∧
          ∀ c, c < 2 → sample_range 17 ((cc.getD c []).getD 0 0) := by
        rcases hB with hb | hb
        · rw [if_pos (by omega)]
          rw [hb] at hr0 hr1
          exact correlate_channels_range c0 c1 w hw (by omega) (by omega) hr0 hr1
        · rw [if_neg (by omega), extract_MSBs_two, hb]
          rw [hb] at hr0 hr1
          exact correlate_channels_range _ _ w hw (by simp) (by simp; omega)
            (MSB_channel_range c0 _ (le_refl _) hr0) (MSB_channel_range c1 _ (by omega) hr1)
      obtain ⟨cc, hcc1, hcc2⟩ := hcc
      exact ⟨cc, hcc1, fun c q hc =>
        residuals_fit e.options _ 17 (by decide) (by decide) (hcc2 c hc) q⟩
    · have hws : leftweights e.options = [0, 1, 2, 3, 4] := by
        unfold leftweights
        rw [hmin, hmax]
        rfl
      obtain ⟨payload, hp⟩ := leftweight_search_ok (interlaced_candidate e analysis [c0, c1])
        (leftweights e.options) (by
          intro w hw
          rw [hws] at hw
          exact interlaced_candidate_ok e ho analysis c0 c1 w (by
            simp only [List.mem_cons, List.mem_singleton, List.not_mem_nil, or_false] at hw
            omega) hB (by omega) (by omega) hr0 hr1) UINT_MAX e.best_interlaced_frame
      rw [← write_compressed_frame_stereo e analysis [c0, c1] rfl] at hp
      exact ⟨payload, hp, write_frame_of_compressed_ok e analysis [c0, c1] payload (Or.inr rfl)
        (by rw [List.getD_cons_zero]; omega) hp⟩

theorem residual_overflow_unreachable_witness :
    reference_parameters (⟨⟨4096, 10, 40, 14, 0, 4⟩, 16, []⟩ : alac_context).options ∧
    (∀ ch ∈ ([[32767, -32768, 32767, -32768, 32767, -32768, 32767, -32768, 32767, -32768],
        [-32768, 32767, -32768, 32767, -32768, 32767, -32768, 32767, -32768, 32767]] :
        List (List Int)), ch.length = 10) ∧
    (∀ ch ∈ ([[32767, -32768, 32767, -32768, 32767, -32768, 32767, -32768, 32767, -32768],
        [-32768, 32767, -32768, 32767, -32768, 32767, -32768, 32767, -32768, 32767]] :
        List (List Int)), ∀ x ∈ ch, sample_range 16 x) ∧
    ∃ payload,
      write_compressed_frame ⟨⟨4096, 10, 40, 14, 0, 4⟩, 16, []⟩ (fun _ => none)
        [[32767, -32768, 32767, -32768, 32767, -32768, 32767, -32768, 32767, -32768],
          [-32768, 32767, -32768, 32767, -32768, 32767, -32768, 32767, -32768, 32767]] =
        .ok payload ∧
      write_frame ⟨⟨4096, 10, 40, 14, 0, 4⟩, 16, []⟩ (fun _ => none)
        [[32767, -32768, 32767, -32768, 32767, -32768, 32767, -32768, 32767, -32768],
          [-32768, 32767, -32768, 32767, -32768, 32767, -32768, 32767, -32768, 32767]] =
        some (write 3 (2 - 1) ++ payload) :=
  ⟨by decide, by decide, by decide,
    (residual_overflow_unreachable ⟨⟨4096, 10, 40, 14, 0, 4⟩, 16, []⟩ (fun _ => none)
      [[32767, -32768, 32767, -32768, 32767, -32768, 32767, -32768, 32767, -32768],
        [-32768, 32767, -32768, 32767, -32768, 32767, -32768, 32767, -32768, 32767]] 10
      (by decide) rfl rfl (Or.inl rfl) (Or.inr rfl) (by decide) (by decide) (by decide)).2.2⟩

end Alac

namespace Alac

/-! ## C24: the frameset does not depend on scratch state -/

theorem window_signal_valid {D : Type} (tukey : Nat → Nat → D) (scale : Int → D → D)
    (tukey_window : List D) (samples : List Int)
    (hvalid : tukey_window = tukey_values tukey tukey_window.length) :
    window_signal tukey scale tukey_window samples =
      (tukey_values tukey samples.length,
        List.zipWith scale samples (tukey_values tukey samples.length)) := by
  unfold window_signal
  by_cases h : tukey_window.length ≠ samples.length
  · simp only [if_pos h]
  · simp only [if_neg h]
    have hlen : tukey_window.length = samples.length := not_not.mp h
    rw [hlen] at hvalid
    rw [← hvalid]

theorem tukey_values_length {D : Type} (tukey : Nat → Nat → D) (N : Nat) :
    (tukey_values tukey N).length = N := by
  simp [tukey_values]

theorem window_signal_calls_valid {D : Type} (tukey : Nat → Nat → D) (scale : Int → D → D)
    (calls : List (List Int)) :
    ∀ tukey_window : List D, tukey_window = tukey_values tukey tukey_window.length →
      window_signal_calls tukey scale tukey_window calls =
        tukey_values tukey (window_signal_calls tukey scale tukey_window calls).length := by
  induction calls with
  | nil => intro tukey_window h; exact h
  | cons samples calls ih =>
    intro tukey_window h
    unfold window_signal_calls
    rw [List.foldl_cons]
    apply ih
    rw [window_signal_valid tukey scale tukey_window samples h, tukey_values_length]

theorem cached_analysis_valid {D : Type} (tukey : Nat → Nat → D) (scale : Int → D → D)
    (rest : List D → Option qlp_orders) (tukey_window : List D)
    (hvalid : tukey_window = tukey_values tukey tukey_window.length) :
    cached_analysis tukey scale rest tukey_window = cached_analysis tukey scale rest [] := by
  funext samples
  unfold cached_analysis
  rw [window_signal_valid tukey scale tukey_window samples hvalid,
    window_signal_valid tukey scale [] samples rfl]

theorem calculate_residuals_length_le (s q : List Int) (W : Nat) (hq : q.length ≤ 8) :
    (calculate_residuals s W q).length ≤ s.length + 9 := by
  rw [calculate_residuals_unfold s q W (by omega)]
  simp only [List.length_cons, List.length_append, List.length_map, List.length_range,
    calculate_residuals_loop_length]
  omega

theorem compute_coefficients_length (o : alac_encoding_options) (analysis : lpc_analysis)
    (samples : List Int) (sample_size : Nat) (q : List Int) (residual : Bits)
    (h : compute_coefficients o analysis samples sample_size = .ok (q, residual)) :
    q.length ≤ 8 ∧
    residual.length ≤ (samples.length + 9) * (34 + sample_size + 2 * o.maximum_k) := by
  have hbound : ∀ (c : List Int) (b : Bits), c.length ≤ 8 →
      encode_residuals o sample_size (calculate_residuals samples sample_size c) = .ok b →
      b.length ≤ (samples.length + 9) * (34 + sample_size + 2 * o.maximum_k) := by
    intro c b hc hb
    exact le_trans (encode_residuals_length_le o sample_size _ b hb)
      (Nat.mul_le_mul_right _ (calculate_residuals_length_le samples c sample_size hc))
  unfold compute_coefficients at h
  cases ha : analysis samples with
  | none =>
    rw [ha] at h
    simp only [Outcome.bind_eq_ok, Outcome.ok.injEq, Prod.mk.injEq] at h
    obtain ⟨b, hb, hq, hr⟩ := h
    subst hq hr
    exact ⟨by simp, hbound _ _ (by simp) hb⟩
  | some orders =>
    rw [ha] at h
    simp only [Outcome.bind_eq_ok] at h
    obtain ⟨b4, hb4, b8, hb8, h⟩ := h
    split at h
    · simp only [Outcome.ok.injEq, Prod.mk.injEq] at h
      obtain ⟨hq, hr⟩ := h
      subst hq hr
      exact ⟨by rw [orders.length4]; decide, hbound _ _ (by rw [orders.length4]; decide) hb4⟩
    · simp only [Outcome.ok.injEq, Prod.mk.injEq] at h
      obtain ⟨hq, hr⟩ := h
      subst hq hr
      exact ⟨by rw [orders.length8], hbound _ _ (by rw [orders.length8]) hb8⟩

theorem correlate_channels_lengths (A B : List Int) (s w : Nat) (cc : List (List Int))
    (h : correlate_channels [A, B] s w = .ok cc) :
    (cc.getD 0 []).length = A.length ∧ (cc.getD 1 []).length = A.length := by
  have hlen : A.length = B.length := by
    by_contra hne
    unfold correlate_channels at h
    simp only [List.length_cons, List.length_nil, List.getD_cons_zero, List.getD_cons_succ] at h
    rw [if_neg (by omega), if_pos hne] at h
    simp at h
  rcases Nat.eq_zero_or_pos w with h0 | hpos
  · subst h0
    rw [correlate_channels_zero A B s hlen] at h
    simp only [Outcome.ok.injEq] at h
    subst h
    exact ⟨rfl, hlen.symm⟩
  · rw [correlate_channels_pos A B s w hlen hpos] at h
    simp only [Outcome.ok.injEq] at h
    subst h
    simp

theorem write_interlaced_frame_length_le (e : alac_context) (analysis : lpc_analysis)
    (uncompressed_LSBs : Nat) (LSBs : List Int) (s w : Nat) (A B : List Int) (payload : Bits)
    (h : write_interlaced_frame e analysis uncompressed_LSBs LSBs s w [A, B] = .ok payload) :
    payload.length ≤ 356 + (write_LSBs uncompressed_LSBs LSBs).length +
      2 * ((A.length + 9) *
        (34 + (e.bits_per_sample - uncompressed_LSBs * 8 + 1) + 2 * e.options.maximum_k)) := by
  obtain ⟨cc, q0, r0, q1, r1, hcc, h0, h1, hp⟩ :=
    write_interlaced_frame_parts e analysis uncompressed_LSBs LSBs s w A B payload h
  obtain ⟨hl0, hl1⟩ := correlate_channels_lengths A B s w cc hcc
  obtain ⟨hq0, hr0⟩ := compute_coefficients_length _ _ _ _ _ _ h0
  obtain ⟨hq1, hr1⟩ := compute_coefficients_length _ _ _ _ _ _ h1
  rw [hl0] at hr0
  rw [hl1] at hr1
  have hh := spec_frame_header_length e.options.block_size A.length uncompressed_LSBs s w
  have hh68 : (spec_frame_header e.options.block_size A.length uncompressed_LSBs s w).length ≤
      68 := by
    rw [hh]; split <;> omega
  rw [hp]
  simp only [List.length_append, write_subframe_header_length]
  omega

theorem interlaced_candidate_shorter (e : alac_context) (analysis : lpc_analysis)
    (channel0 channel1 : List Int) (w L : Nat) (h0 : channel0.length = L)
    (h1 : channel1.length = L)
    (hsize : (L + 9) * (4 * e.bits_per_sample + 4 * e.options.maximum_k + 70) + 356 <
      UINT_MAX) :
    shorter_than (interlaced_candidate e analysis [channel0, channel1] w) UINT_MAX := by
  unfold UINT_MAX at hsize ⊢
  have hexp : (L + 9) * (4 * e.bits_per_sample + 4 * e.options.maximum_k + 70) =
      2 * ((L + 9) * e.bits_per_sample) +
        2 * ((L + 9) * (35 + e.bits_per_sample + 2 * e.options.maximum_k)) := by ring
  cases hc : interlaced_candidate e analysis [channel0, channel1] w with
  | residual_overflow => trivial
  | abort => trivial
  | ok payload =>
    show payload.length < 4294967295
    unfold interlaced_candidate at hc
    by_cases hb : e.bits_per_sample ≤ 16
    · rw [if_pos hb] at hc
      have hle := write_interlaced_frame_length_le e analysis 0 [] _ w _ _ payload hc
      rw [write_LSBs_zero, h0] at hle
      simp only [List.length_nil, Nat.zero_mul, Nat.sub_zero, Nat.add_zero] at hle
      have hmono : (L + 9) * (34 + (e.bits_per_sample + 1) + 2 * e.options.maximum_k) =
          (L + 9) * (35 + e.bits_per_sample + 2 * e.options.maximum_k) := by ring
      rw [hmono] at hle
      omega
    · rw [if_neg hb, extract_MSBs_two] at hc
      have hle := write_interlaced_frame_length_le e analysis _ _ _ w _ _ payload hc
      simp only [List.length_map, List.length_range] at hle
      rw [h0] at hle
      have hlsb : (write_LSBs ((e.bits_per_sample - 16) / 8)
          (extract_LSBs e.bits_per_sample [channel0, channel1])).length ≤
          2 * ((L + 9) * e.bits_per_sample) := by
        rcases Nat.eq_zero_or_pos ((e.bits_per_sample - 16) / 8) with hz | hpos
        · rw [hz, write_LSBs_zero]
          exact Nat.zero_le _
        · rw [write_LSBs_length _ _ hpos,
            extract_LSBs_length e.bits_per_sample [channel0, channel1] L (by
              intro ch hch
              simp only [List.mem_cons, List.mem_singleton, List.not_mem_nil, or_false] at hch
              rcases hch with rfl | rfl
              · exact h0
              · exact h1)]
          simp only [List.length_cons, List.length_nil]
          have hu : (e.bits_per_sample - 16) / 8 * 8 ≤ e.bits_per_sample := by omega
          calc L * (0 + 1 + 1) * ((e.bits_per_sample - 16) / 8 * 8)
              ≤ L * (0 + 1 + 1) * e.bits_per_sample := Nat.mul_le_mul_left _ hu
            _ = 2 * (L * e.bits_per_sample) := by ring
            _ ≤ 2 * ((L + 9) * e.bits_per_sample) :=
                Nat.mul_le_mul_left _ (Nat.mul_le_mul_right _ (by omega))
      have hss : (L + 9) * (34 + (e.bits_per_sample - (e.bits_per_sample - 16) / 8 * 8 + 1) +
            2 * e.options.maximum_k) ≤
          (L + 9) * (35 + e.bits_per_sample + 2 * e.options.maximum_k) :=
        Nat.mul_le_mul_left _ (by omega)
      omega

theorem leftweight_search_best_irrelevant (candidate : Nat → Outcome Bits) (w : Nat)
    (ws : List Nat) (best_bits : Nat) (h : shorter_than (candidate w) best_bits)
    (best1 best2 : Bits) :
    leftweight_search candidate (w :: ws) best_bits best1 =
      leftweight_search candidate (w :: ws) best_bits best2 := by
  rw [leftweight_search, leftweight_search]
  cases hc : candidate w with
  | residual_overflow => rfl
  | abort => rfl
  | ok c =>
    rw [hc] at h
    have hlt : bits_written c < best_bits := h
    simp only [Outcome.ok_bind, if_pos hlt]

theorem write_frame_stale_irrelevant (o : alac_encoding_options) (bits_per_sample : Nat)
    (analysis : lpc_analysis) (channels : List (List Int)) (L : Nat)
    (hL : ∀ ch ∈ channels, ch.length = L)
    (hmin : o.minimum_interlacing_leftweight = 0) (hmax : o.maximum_interlacing_leftweight = 4)
    (hsize : (L + 9) * (4 * bits_per_sample + 4 * o.maximum_k + 70) + 356 < UINT_MAX)
    (stale1 stale2 : Bits) :
    write_frame ⟨o, bits_per_sample, stale1⟩ analysis channels =
      write_frame ⟨o, bits_per_sample, stale2⟩ analysis channels := by
  by_cases hC : channels.length = 1 ∨ channels.length = 2
  · have hcomp : write_compressed_frame ⟨o, bits_per_sample, stale1⟩ analysis channels =
        write_compressed_frame ⟨o, bits_per_sample, stale2⟩ analysis channels := by
      rcases hC with h1 | h2
      · unfold write_compressed_frame
        simp only [if_pos h1]
        rfl
      · obtain ⟨c0, c1, rfl⟩ := List.length_eq_two.mp h2
        rw [write_compressed_frame_stereo ⟨o, bits_per_sample, stale1⟩ analysis [c0, c1] rfl,
          write_compressed_frame_stereo ⟨o, bits_per_sample, stale2⟩ analysis [c0, c1] rfl]
        have hws : leftweights o = [0, 1, 2, 3, 4] := by
          unfold leftweights
          rw [hmin, hmax]
          rfl
        have hcand : interlaced_candidate ⟨o, bits_per_sample, stale1⟩ analysis [c0, c1] =
            interlaced_candidate ⟨o, bits_per_sample, stale2⟩ analysis [c0, c1] := rfl
        show leftweight_search (interlaced_candidate ⟨o, bits_per_sample, stale1⟩ analysis
            [c0, c1]) (leftweights o) UINT_MAX stale1 =
          leftweight_search (interlaced_candidate ⟨o, bits_per_sample, stale2⟩ analysis
            [c0, c1]) (leftweights o) UINT_MAX stale2
        rw [hcand, hws]
        exact leftweight_search_best_irrelevant _ 0 _ UINT_MAX
          (interlaced_candidate_shorter ⟨o, bits_per_sample, stale2⟩ analysis c0 c1 0 L
            (hL c0 (by simp)) (hL c1 (by simp)) hsize) stale1 stale2
    unfold write_frame
    simp only [hcomp]
    rfl
  · unfold write_frame
    rw [if_pos hC, if_pos hC]

theorem frameset_frames_lengths (channels : List (List Int)) (L : Nat)
    (hL : ∀ ch ∈ channels, ch.length = L) :
    ∀ frame ∈ frameset_frames channels, ∀ ch ∈ frame, ch.length = L := by
  intro frame hframe ch hch
  rw [frameset_frames_eq_layout] at hframe
  obtain ⟨g, hg, rfl⟩ := List.mem_map.mp hframe
  unfold select_channels at hch
  obtain ⟨index, hindex, rfl⟩ := List.mem_map.mp hch
  exact getD_length_of_mem channels L hL index ((spec_layout_groups channels.length g hg).2
    index hindex)

theorem write_frames_congr (e1 e2 : alac_context) (analysis : lpc_analysis)
    (frames : List (List (List Int)))
    (h : ∀ frame ∈ frames, write_frame e1 analysis frame = write_frame e2 analysis frame) :
    write_frames e1 analysis frames = write_frames e2 analysis frames := by
  induction frames with
  | nil => rfl
  | cons frame more ih =>
    rw [write_frames, write_frames, h frame (List.mem_cons_self _ _),
      ih (fun f hf => h f (List.mem_cons_of_mem _ hf))]

theorem write_frameset_stale_irrelevant (pos : Nat) (o : alac_encoding_options)
    (bits_per_sample : Nat) (analysis : lpc_analysis) (channels : List (List Int)) (L : Nat)
    (hL : ∀ ch ∈ channels, ch.length = L)
    (hmin : o.minimum_interlacing_leftweight = 0) (hmax : o.maximum_interlacing_leftweight = 4)
    (hsize : (L + 9) * (4 * bits_per_sample + 4 * o.maximum_k + 70) + 356 < UINT_MAX)
    (stale1 stale2 : Bits) :
    write_frameset pos ⟨o, bits_per_sample, stale1⟩ analysis channels =
      write_frameset pos ⟨o, bits_per_sample, stale2⟩ analysis channels := by
  unfold write_frameset
  rw [write_frames_congr ⟨o, bits_per_sample, stale1⟩ ⟨o, bits_per_sample, stale2⟩ analysis
    (frameset_frames channels) (fun frame hframe =>
      write_frame_stale_irrelevant o bits_per_sample analysis frame L
        (frameset_frames_lengths channels L hL frame hframe) hmin hmax hsize stale1 stale2)]

/-- C24: the bits write_frameset emits for a block depend only on that block and the encoder
options, never on scratch state left by earlier blocks.  The two pieces of scratch state that
are not reset before use are the Tukey window cache, which after any sequence of earlier
window_signal calls (of any lengths) holds the window of its own length, and the recorder
best_interlaced_frame, whose old content is replaced as soon as one candidate has fewer than
UINT_MAX bits.  For every block X of equal-length channels within the size bound, with the
leftweight range 0..4 that encode_alac sets, every sequence of earlier calls and every old
recorder content, encoding X yields the same bits as encoding X with a freshly initialised
encoder (empty cache, empty recorder). -/
theorem write_frameset_history_independent {D : Type} (tukey : Nat → Nat → D)
    (scale : Int → D → D) (rest : List D → Option qlp_orders) (earlier : List (List Int))
    (stale : Bits) (pos : Nat) (o : alac_encoding_options) (bits_per_sample : Nat)
    (X : List (List Int)) (L : Nat) (hL : ∀ ch ∈ X, ch.length = L)
    (hmin : o.minimum_interlacing_leftweight = 0) (hmax : o.maximum_interlacing_leftweight = 4)
    (hsize : (L + 9) * (4 * bits_per_sample + 4 * o.maximum_k + 70) + 356 < UINT_MAX) :
    write_frameset pos ⟨o, bits_per_sample, stale⟩
        (cached_analysis tukey scale rest (window_signal_calls tukey scale [] earlier)) X =
      write_frameset pos ⟨o, bits_per_sample, []⟩ (cached_analysis tukey scale rest []) X ∧
    window_signal_calls tukey scale [] earlier =
      tukey_values tukey (window_signal_calls tukey scale [] earlier).length ∧
    ∀ samples : List Int,
      window_signal tukey scale (window_signal_calls tukey scale [] earlier) samples =
        (tukey_values tukey samples.length,
          List.zipWith scale samples (tukey_values tukey samples.length)) := by
  have hvalid := window_signal_calls_valid tukey scale earlier [] rfl
  refine ⟨?_, hvalid, fun samples => window_signal_valid tukey scale _ samples hvalid⟩
  rw [cached_analysis_valid tukey scale rest _ hvalid]
  exact write_frameset_stale_irrelevant pos o bits_per_sample _ X L hL hmin hmax hsize stale []

theorem write_frameset_history_independent_witness :
    (∀ ch ∈ ([[3, 1, 4, 1, 5, 9, 2, 6, 5, 3], [2, 7, 1, 8, 2, 8, 1, 8, 2, 8]] :
      List (List Int)), ch.length = 10) ∧
    (10 + 9) * (4 * 16 + 4 * 14 + 70) + 356 < UINT_MAX ∧
    write_frameset 64 ⟨⟨4096, 10, 40, 14, 0, 4⟩, 16, [true, false, true]⟩
        (cached_analysis (fun N n => ((N + n : Nat) : Int)) (fun s w => s * w) (fun _ => none)
          (window_signal_calls (fun N n => ((N + n : Nat) : Int)) (fun s w => s * w) []
            [[1, 2, 3], [4, 5], [6, 7, 8]]))
        [[3, 1, 4, 1, 5, 9, 2, 6, 5, 3], [2, 7, 1, 8, 2, 8, 1, 8, 2, 8]] =
      write_frameset 64 ⟨⟨4096, 10, 40, 14, 0, 4⟩, 16, []⟩
        (cached_analysis (fun N n => ((N + n : Nat) : Int)) (fun s w => s * w) (fun _ => none)
          [])
        [[3, 1, 4, 1, 5, 9, 2, 6, 5, 3], [2, 7, 1, 8, 2, 8, 1, 8, 2, 8]] :=
  ⟨by decide, by decide,
    (write_frameset_history_independent (fun N n => ((N + n : Nat) : Int)) (fun s w => s * w)
      (fun _ => none) [[1, 2, 3], [4, 5], [6, 7, 8]] [true, false, true] 64
      ⟨4096, 10, 40, 14, 0, 4⟩ 16
      [[3, 1, 4, 1, 5, 9, 2, 6, 5, 3], [2, 7, 1, 8, 2, 8, 1, 8, 2, 8]] 10 (by decide) rfl rfl
      (by decide)).1⟩

theorem write_frame_stale_example :
    write_frame ⟨⟨4096, 10, 40, 14, 1, 0⟩, 16, [true]⟩ (fun _ => none)
        [[3, 1, 4, 1, 5, 9, 2, 6, 5, 3], [2, 7, 1, 8, 2, 8, 1, 8, 2, 8]] ≠
      write_frame ⟨⟨4096, 10, 40, 14, 1, 0⟩, 16, []⟩ (fun _ => none)
        [[3, 1, 4, 1, 5, 9, 2, 6, 5, 3], [2, 7, 1, 8, 2, 8, 1, 8, 2, 8]] := by
  decide

end Alac

namespace Alac

/-! ## C31: `unsigned_i - sign_modifier` does not wrap -/

theorem encode_residuals_iterations_sign (o : alac_encoding_options) (sample_size : Nat)
    (fuel : Nat) :
    ∀ (history : Int) (sign_modifier : Nat) (remaining : List Int),
      (∀ r ∈ remaining, is_int r) → sign_modifier ≤ 1 →
      (sign_modifier = 1 → ∀ r, remaining.head? = some r → r ≠ 0) →
      ∀ it ∈ encode_residuals_iterations o sample_size fuel history sign_modifier remaining,
        it.sign_modifier ≤ 1 ∧ is_int it.residual ∧
          (it.sign_modifier = 1 → it.residual ≠ 0) := by
  induction fuel with
  | zero =>
    intro history sign_modifier remaining _ _ _ it hit
    simp [encode_residuals_iterations] at hit
  | succ fuel ih =>
    intro history sign_modifier remaining hint hsm hhead it hit
    cases remaining with
    | nil => simp [encode_residuals_iterations] at hit
    | cons r rest =>
      have hrest : ∀ x ∈ rest, is_int x := fun x hx => hint x (List.mem_cons_of_mem _ hx)
      have hdrop : ∀ x ∈ rest.dropWhile (fun x => decide (x = 0)), is_int x :=
        fun x hx => hrest x ((List.dropWhile_suffix _).subset hx)
      have hrec : ∀ (called : Bool) (updated : Option Int) (zero_run : Bool),
          (⟨history, sign_modifier, r, called, updated, zero_run⟩ :
              residual_iteration).sign_modifier ≤ 1 ∧
            is_int (⟨history, sign_modifier, r, called, updated, zero_run⟩ :
              residual_iteration).residual ∧
            ((⟨history, sign_modifier, r, called, updated, zero_run⟩ :
              residual_iteration).sign_modifier = 1 →
              (⟨history, sign_modifier, r, called, updated, zero_run⟩ :
                residual_iteration).residual ≠ 0) :=
        fun _ _ _ => ⟨hsm, hint r (List.mem_cons_self _ _), fun h1 => hhead h1 r rfl⟩
      have hzero : ∀ it ∈ encode_residuals_iterations o sample_size fuel 0
          (if (rest.takeWhile (fun x => decide (x = 0))).length < 0xFFFF then 1 else 0)
          (rest.dropWhile (fun x => decide (x = 0))),
          it.sign_modifier ≤ 1 ∧ is_int it.residual ∧
            (it.sign_modifier = 1 → it.residual ≠ 0) := by
        refine ih _ _ _ hdrop (by split <;> omega) ?_
        intro _ x hx
        have := List.head?_dropWhile_not (fun x => decide (x = 0)) rest
        rw [hx] at this
        simpa using this
      have hnext : ∀ h, ∀ it ∈ encode_residuals_iterations o sample_size fuel h 0 rest,
          it.sign_modifier ≤ 1 ∧ is_int it.residual ∧
            (it.sign_modifier = 1 → it.residual ≠ 0) :=
        fun h => ih h 0 rest hrest (by omega) (by intro h0; omega)
      rw [encode_residuals_iterations] at hit
      simp only at hit
      by_cases hov : fold_residual r ≥ 1 <<< sample_size
      · rw [if_pos hov] at hit
        simp only [List.mem_singleton] at hit
        rw [hit]; exact hrec _ _ _
      · rw [if_neg hov] at hit
        cases hl : LOG2 (uint32 ((history >>> (9 : Nat)) + 3)) with
        | residual_overflow =>
          rw [hl] at hit
          simp only [List.mem_singleton] at hit
          rw [hit]; exact hrec _ _ _
        | abort =>
          rw [hl] at hit
          simp only [List.mem_singleton] at hit
          rw [hit]; exact hrec _ _ _
        | ok l =>
          rw [hl] at hit
          simp only at hit
          by_cases hd : (1 <<< min l o.maximum_k) - 1 = 0
          · rw [if_pos hd] at hit
            simp only [List.mem_singleton] at hit
            rw [hit]; exact hrec _ _ _
          · rw [if_neg hd] at hit
            by_cases hu : fold_residual r ≤ 0xFFFF
            · rw [if_pos hu] at hit
              split at hit
              · rcases List.mem_cons.mp hit with rfl | hit
                · exact hrec _ _ _
                · split at hit
                  · split at hit
                    · simp at hit
                    · exact hzero it hit
                  · simp at hit
              · rcases List.mem_cons.mp hit with rfl | hit
                · exact hrec _ _ _
                · exact hnext _ it hit
            · rw [if_neg hu] at hit
              rcases List.mem_cons.mp hit with rfl | hit
              · exact hrec _ _ _
              · exact hnext _ it hit

/-- C31: in encode_residuals the subtraction unsigned_i - sign_modifier never wraps below
zero: for every residual sequence (of C ints) and every iteration of the loop, sign_modifier
is 0 or 1, and whenever it is 1 (right after a zero run shorter than 0xFFFF) the residual
being coded is non-zero, so its folded value u is >= 1 and the unsigned difference
u - sign_modifier is the true difference. -/
theorem sign_modifier_no_wrap (o : alac_encoding_options) (sample_size : Nat)
    (residuals : List Int) (hint : ∀ r ∈ residuals, is_int r) :
    ∀ it ∈ encode_residuals_iterations o sample_size residuals.length
        (int32 o.initial_history) 0 residuals,
      it.sign_modifier ≤ 1 ∧
      (it.sign_modifier = 1 → it.residual ≠ 0 ∧ 1 ≤ fold_residual it.residual) ∧
      it.sign_modifier ≤ fold_residual it.residual ∧
      uint32 ((fold_residual it.residual : Int) - it.sign_modifier) =
        fold_residual it.residual - it.sign_modifier := by
  intro it hit
  obtain ⟨h1, h2, h3⟩ := encode_residuals_iterations_sign o sample_size residuals.length _ 0
    residuals hint (by omega) (by intro h0; omega) it hit
  have hpos : it.sign_modifier = 1 → 1 ≤ fold_residual it.residual :=
    fun hs => fold_residual_pos _ h2 (h3 hs)
  have hle : it.sign_modifier ≤ fold_residual it.residual := by
    rcases Nat.lt_or_ge it.sign_modifier 1 with h0 | h0
    · omega
    · have := hpos (by omega)
      omega
  have hlt : fold_residual it.residual < 4294967296 := by
    unfold fold_residual uint32
    split <;> omega
  refine ⟨h1, fun hs => ⟨h3 hs, hpos hs⟩, hle, ?_⟩
  unfold uint32
  omega

theorem sign_modifier_no_wrap_witness :
    (∀ r ∈ ([0, 1, -1, 0, 0, 36, 63, 0, 0, -6400] : List Int), is_int r) ∧
    (encode_residuals_iterations ⟨4096, 10, 40, 14, 0, 4⟩ 16 10 (int32 ((10 : Nat) : Int)) 0
      [0, 1, -1, 0, 0, 36, 63, 0, 0, -6400]).map
        (fun it => (it.sign_modifier, it.residual)) =
      [(0, 0), (1, 1), (1, -1), (1, 36), (0, 63), (0, 0), (0, 0), (0, -6400)] ∧
    ∀ it ∈ encode_residuals_iterations ⟨4096, 10, 40, 14, 0, 4⟩ 16 10
        (int32 ((10 : Nat) : Int)) 0 [0, 1, -1, 0, 0, 36, 63, 0, 0, -6400],
      it.sign_modifier = 1 → it.residual ≠ 0 ∧ 1 ≤ fold_residual it.residual :=
  ⟨by decide, by decide,
    fun it hit => (sign_modifier_no_wrap ⟨4096, 10, 40, 14, 0, 4⟩ 16
      [0, 1, -1, 0, 0, 36, 63, 0, 0, -6400] (by decide) it hit).2.1⟩

end Alac

namespace Alac

/-! ## C32: range of `history` -/

theorem history_update_lt (history : Int) (u : Nat) (h0 : 0 ≤ history)
    (h1 : history ≤ 33554431) (hu : u ≤ 0xFFFF) (hpos : 1 ≤ history ∨ 1 ≤ u) :
    1 ≤ history + (int32 ((u * 40 : Nat) : Int) -
      ((history * int32 ((40 : Nat) : Int)) >>> (9 : Nat))) ∧
    history + (int32 ((u * 40 : Nat) : Int) -
      ((history * int32 ((40 : Nat) : Int)) >>> (9 : Nat))) ≤ 33554431 := by
  have e1 : int32 ((40 : Nat) : Int) = 40 := by decide
  have e2 : int32 ((u * 40 : Nat) : Int) = (u : Int) * 40 := by
    unfold int32
    push_cast
    omega
  rw [e1, e2, Int.shiftRight_eq_div_pow]
  norm_num
  omega

theorem encode_residuals_iterations_history (o : alac_encoding_options)
    (ho : reference_parameters o) (sample_size : Nat) (fuel : Nat) :
    ∀ (history : Int) (sign_modifier : Nat) (remaining : List Int),
      (∀ r ∈ remaining.tail, is_int r) → 0 ≤ history → history ≤ 33554431 →
      (history = 0 → ∀ r, remaining.head? = some r → is_int r ∧ r ≠ 0) →
      ∀ it ∈ encode_residuals_iterations o sample_size fuel history sign_modifier remaining,
        0 ≤ it.history ∧ it.history ≤ 33554431 ∧
        (∀ h1, it.updated = some h1 → 0 ≤ h1 ∧ h1 ≤ 33554431) ∧
        (it.zero_run = true → ∃ h1, it.updated = some h1 ∧ 1 ≤ h1 ∧ h1 < 128) := by
  obtain ⟨-, hm, hk⟩ := ho
  induction fuel with
  | zero =>
    intro history sign_modifier remaining _ _ _ _ it hit
    simp [encode_residuals_iterations] at hit
  | succ fuel ih =>
    intro history sign_modifier remaining hint h0 h1 hhead it hit
    cases remaining with
    | nil => simp [encode_residuals_iterations] at hit
    | cons r rest =>
      have hrest : ∀ x ∈ rest, is_int x := fun x hx => hint x hx
      have htail : ∀ x ∈ rest.tail, is_int x := fun x hx => hrest x (List.mem_of_mem_tail hx)
      have hdrop : ∀ x ∈ (rest.dropWhile (fun x => decide (x = 0))).tail, is_int x :=
        fun x hx => hrest x ((List.dropWhile_suffix _).subset (List.mem_of_mem_tail hx))
      have hpos : 1 ≤ history ∨ 1 ≤ fold_residual r := by
        by_cases hz : history = 0
        · right; exact fold_residual_pos r (hhead hz r rfl).1 (hhead hz r rfl).2
        · left; omega
      have hrec : ∀ (called : Bool) (updated : Option Int) (zero_run : Bool),
          (∀ h1, updated = some h1 → 0 ≤ h1 ∧ h1 ≤ 33554431) →
          (zero_run = true → ∃ h1, updated = some h1 ∧ 1 ≤ h1 ∧ h1 < 128) →
          0 ≤ (⟨history, sign_modifier, r, called, updated, zero_run⟩ :
              residual_iteration).history ∧
            (⟨history, sign_modifier, r, called, updated, zero_run⟩ :
              residual_iteration).history ≤ 33554431 ∧
            (∀ h1, (⟨history, sign_modifier, r, called, updated, zero_run⟩ :
              residual_iteration).updated = some h1 → 0 ≤ h1 ∧ h1 ≤ 33554431) ∧
            ((⟨history, sign_modifier, r, called, updated, zero_run⟩ :
              residual_iteration).zero_run = true →
              ∃ h1, (⟨history, sign_modifier, r, called, updated, zero_run⟩ :
                residual_iteration).updated = some h1 ∧ 1 ≤ h1 ∧ h1 < 128) :=
        fun _ _ _ hu hz => ⟨h0, h1, hu, hz⟩
      have hnone : ∀ (called : Bool),
          0 ≤ (⟨history, sign_modifier, r, called, none, false⟩ : residual_iteration).history ∧
            (⟨history, sign_modifier, r, called, none, false⟩ :
              residual_iteration).history ≤ 33554431 ∧
            (∀ h1, (⟨history, sign_modifier, r, called, none, false⟩ :
              residual_iteration).updated = some h1 → 0 ≤ h1 ∧ h1 ≤ 33554431) ∧
            ((⟨history, sign_modifier, r, called, none, false⟩ :
              residual_iteration).zero_run = true →
              ∃ h1, (⟨history, sign_modifier, r, called, none, false⟩ :
                residual_iteration).updated = some h1 ∧ 1 ≤ h1 ∧ h1 < 128) :=
        fun c => hrec c none false (by intro h1 h; simp at h) (by intro h; simp at h)
      rw [encode_residuals_iterations] at hit
      simp only [hm] at hit
      by_cases hov : fold_residual r ≥ 1 <<< sample_size
      · rw [if_pos hov] at hit
        simp only [List.mem_singleton] at hit
        rw [hit]; exact hnone _
      · rw [if_neg hov] at hit
        obtain ⟨hv, hl⟩ := main_k_bounds history h0 (by omega)
        rw [LOG2_eq _ hv] at hit
        simp only at hit
        by_cases hd : (1 <<< min (Nat.log2 (uint32 ((history >>> (9 : Nat)) + 3)))
            o.maximum_k) - 1 = 0
        · rw [if_pos hd] at hit
          simp only [List.mem_singleton] at hit
          rw [hit]; exact hnone _
        · rw [if_neg hd] at hit
          by_cases hu : fold_residual r ≤ 0xFFFF
          · rw [if_pos hu] at hit
            obtain ⟨hb1, hb2⟩ := history_update_lt history (fold_residual r) h0 h1 hu hpos
            split at hit
            · rename_i hrun
              rcases List.mem_cons.mp hit with rfl | hit
              · exact hrec _ _ _
                  (by intro h1 h; simp only [Option.some.injEq] at h; subst h
                      exact ⟨by omega, hb2⟩)
                  (fun _ => ⟨_, rfl, hb1, hrun.1⟩)
              · obtain ⟨hv0, hk0⟩ := run_k_bounds _ hb1 hrun.1
                rw [LOG2_eq _ hv0] at hit
                simp only at hit
                split at hit
                · simp at hit
                · refine ih _ _ _ hdrop (le_refl _) (by norm_num) ?_ it hit
                  intro _ x hx
                  have hmem : x ∈ rest.dropWhile (fun x => decide (x = 0)) :=
                    List.mem_of_mem_head? hx
                  have := List.head?_dropWhile_not (fun x => decide (x = 0)) rest
                  rw [hx] at this
                  exact ⟨hrest x ((List.dropWhile_suffix _).subset hmem), by simpa using this⟩
            · rcases List.mem_cons.mp hit with rfl | hit
              · exact hrec _ _ _
                  (by intro h1 h; simp only [Option.some.injEq] at h; subst h
                      exact ⟨by omega, hb2⟩)
                  (by intro h; simp at h)
              · exact ih _ _ _ htail (by omega) hb2 (by intro hz; omega) it hit
          · rw [if_neg hu] at hit
            rcases List.mem_cons.mp hit with rfl | hit
            · exact hrec _ _ _
                (by intro h1 h; simp only [Option.some.injEq] at h; subst h; norm_num)
                (by intro h; simp at h)
            · exact ih _ _ _ htail (by norm_num) (by norm_num) (by norm_num) it hit

/-- C32: with the reference parameters (initial_history 10, history_multiplier 40, any
maximum_k >= 1) and every residual sequence of C ints (in particular those whose folded
values are below 2^17), at every iteration of the loop of encode_residuals the history
register satisfies 0 <= history < 2^25, before and after its update, so history * 40 is an
int, and at every evaluation of LOG2(history) in the zero-run branch 1 <= history < 128, so
the assertion value > 0 of LOG2 holds. -/
theorem history_register_range (o : alac_encoding_options) (ho : reference_parameters o)
    (sample_size : Nat) (residuals : List Int) (hint : ∀ r ∈ residuals, is_int r) :
    ∀ it ∈ encode_residuals_iterations o sample_size residuals.length
        (int32 o.initial_history) 0 residuals,
      0 ≤ it.history ∧ it.history < 2 ^ 25 ∧
      is_int (it.history * int32 o.history_multiplier) ∧
      (∀ h1, it.updated = some h1 → 0 ≤ h1 ∧ h1 < 2 ^ 25) ∧
      (it.zero_run = true →
        ∃ h1, it.updated = some h1 ∧ 1 ≤ h1 ∧ h1 < 128 ∧ 0 < uint32 h1 ∧
          LOG2 (uint32 h1) = .ok (Nat.log2 (uint32 h1))) := by
  intro it hit
  have hi : int32 (o.initial_history : Int) = 10 := by rw [ho.1]; decide
  have hm : int32 (o.history_multiplier : Int) = 40 := by rw [ho.2.1]; decide
  rw [hi] at hit
  obtain ⟨h0, h1, hu, hz⟩ := encode_residuals_iterations_history o ho sample_size
    residuals.length 10 0 residuals (fun r hr => hint r (List.mem_of_mem_tail hr)) (by norm_num)
    (by norm_num) (by norm_num) it hit
  refine ⟨h0, by norm_num; omega, ?_, fun h1' hh => ?_, fun hzr => ?_⟩
  · rw [hm]
    unfold is_int
    constructor <;> omega
  · have := hu h1' hh
    exact ⟨this.1, by norm_num; omega⟩
  · obtain ⟨h1', hh, hlo, hhi⟩ := hz hzr
    have hv := (run_k_bounds h1' hlo hhi).1
    exact ⟨h1', hh, hlo, hhi, hv, LOG2_eq _ hv⟩

theorem history_register_range_witness :
    reference_parameters ⟨4096, 10, 40, 14, 0, 4⟩ ∧
    (∀ r ∈ ([0, 1, -1, 0, 0, 36, 63, 0, 0, -6400] : List Int), is_int r) ∧
    (encode_residuals_iterations ⟨4096, 10, 40, 14, 0, 4⟩ 16 10 (int32 ((10 : Nat) : Int)) 0
      [0, 1, -1, 0, 0, 36, 63, 0, 0, -6400]).map
        (fun it => (it.history, it.updated, it.zero_run)) =
      [(10, some 10, true), (0, some 80, true), (0, some 40, true), (0, some 2880, false),
        (2880, some 7695, false), (7695, some 7094, false), (7094, some 6540, false),
        (6540, some 517990, false)] ∧
    ∀ it ∈ encode_residuals_iterations ⟨4096, 10, 40, 14, 0, 4⟩ 16 10
        (int32 ((10 : Nat) : Int)) 0 [0, 1, -1, 0, 0, 36, 63, 0, 0, -6400],
      0 ≤ it.history ∧ it.history < 2 ^ 25 :=
  ⟨by decide, by decide, by decide,
    fun it hit =>
      ⟨(history_register_range ⟨4096, 10, 40, 14, 0, 4⟩ (by decide) 16
        [0, 1, -1, 0, 0, 36, 63, 0, 0, -6400] (by decide) it hit).1,
       (history_register_range ⟨4096, 10, 40, 14, 0, 4⟩ (by decide) 16
        [0, 1, -1, 0, 0, 36, 63, 0, 0, -6400] (by decide) it hit).2.1⟩⟩

end Alac

namespace Alac

/-! ## C33: index safety of the compressed path -/

theorem calculate_residuals_indices_range (L M : Nat) (hM : M < 31) (hL : M + 1 ≤ L) :
    ∀ index ∈ calculate_residuals_indices L M, 0 ≤ index ∧ index < L := by
  intro index hindex
  unfold calculate_residuals_indices at hindex
  rw [if_pos hM] at hindex
  simp only [List.mem_cons, List.mem_append, List.mem_flatMap, List.mem_range, List.mem_map,
    List.mem_singleton, List.not_mem_nil, or_false] at hindex
  rcases hindex with rfl | ⟨t, ht, rfl | rfl⟩ | ⟨n, hn, ((rfl | ⟨j, hj, rfl⟩) | rfl) | ⟨j, hj, rfl⟩⟩
  all_goals (constructor <;> omega)

theorem autocorrelate_reads_from_ok (L : Nat) (hL32 : L < 4294967296) (lags : List Nat)
    (hlags : ∀ lag ∈ lags, lag < L) :
    ∃ reads, autocorrelate_reads_from L lags = .ok reads ∧
      ∀ index ∈ reads, 0 ≤ index ∧ index < L := by
  induction lags with
  | nil => exact ⟨[], rfl, fun index h => absurd h (List.not_mem_nil _)⟩
  | cons lag lags ih =>
    obtain ⟨more, hmore, hrange⟩ := ih (fun l hl => hlags l (List.mem_cons_of_mem _ hl))
    have hlag := hlags lag (List.mem_cons_self _ _)
    have hu : uint32 ((L : Int) - lag) = L - lag := by
      unfold uint32
      omega
    rw [autocorrelate_reads_from, hu, if_pos (by omega), hmore, Outcome.ok_bind]
    refine ⟨_, rfl, fun index hindex => ?_⟩
    rcases List.mem_append.mp hindex with h | h
    · simp only [List.mem_flatMap, List.mem_range, List.mem_cons, List.mem_singleton,
        List.not_mem_nil, or_false] at h
      obtain ⟨i, hi, rfl | rfl⟩ := h
      · constructor <;> omega
      · constructor <;> omega
    · exact hrange index h

theorem window_signal_length {D : Type} (tukey : Nat → Nat → D) (scale : Int → D → D)
    (tukey_window : List D) (samples : List Int) :
    (window_signal tukey scale tukey_window samples).2.length = samples.length := by
  unfold window_signal
  simp only [List.length_zipWith]
  by_cases h : tukey_window.length ≠ samples.length
  · rw [if_pos h]
    simp only [tukey_values, List.length_map, List.length_range, min_self]
  · rw [if_neg h, not_not.mp h, min_self]

/-- The guard is needed: a channel of 8 samples with 8 coefficients makes
`calculate_residuals` subscript `samples` at index 8, one past the end. -/
theorem calculate_residuals_indices_short : (8 : Int) ∈ calculate_residuals_indices 8 8 := by
  decide

/-- C33: the guard `channels->_[0]->len >= 10` of write_frame makes the compressed path
index-safe.  A mono or stereo frame whose channel length is below 10 takes the uncompressed
path; for every channel length L with 10 <= L (L an unsigned, so below 2^32) and coefficient
count M equal to 4 or 8, every index at which calculate_residuals subscripts the samples
(i, i-1, i-j-1, i-M-1, i-M+j) lies in [0, L), the windowed signal handed to autocorrelate has
L entries whatever the cached window, the assertion of autocorrelate holds for every lag
0..8 (the loop completes), and every index i and i + lag it reads lies in [0, L). -/
theorem compressed_path_index_safe (L M : Nat) (hL : 10 ≤ L) (hL32 : L < 4294967296)
    (hM : M = 4 ∨ M = 8) :
    (∀ (e : alac_context) (analysis : lpc_analysis) (channels : List (List Int)),
      (channels.length = 1 ∨ channels.length = 2) → (channels.getD 0 []).length < 10 →
      write_frame e analysis channels =
        some (write 3 (channels.length - 1) ++ write_uncompressed_frame e channels)) ∧
    (∀ index ∈ calculate_residuals_indices L M, 0 ≤ index ∧ index < L) ∧
    (∀ (D : Type) (tukey : Nat → Nat → D) (scale : Int → D → D) (tukey_window : List D)
      (samples : List Int), samples.length = L →
      (window_signal tukey scale tukey_window samples).2.length = L) ∧
    ∃ reads, autocorrelate_reads L = .ok reads ∧ ∀ index ∈ reads, 0 ≤ index ∧ index < L := by
  refine ⟨fun e analysis channels hC hshort => write_frame_short_eq e analysis channels hC hshort,
    calculate_residuals_indices_range L M (by omega) (by omega),
    fun D tukey scale tukey_window samples hlen => ?_, ?_⟩
  · rw [window_signal_length, hlen]
  · refine autocorrelate_reads_from_ok L hL32 _ (fun lag hlag => ?_)
    have := List.mem_range.mp hlag
    unfold MAX_LPC_ORDER at this
    omega

/-- C33 at a channel of 10 samples with 8 coefficients. -/
theorem compressed_path_index_safe_witness :
    (∀ index ∈ calculate_residuals_indices 10 8, 0 ≤ index ∧ index < ((10 : Nat) : Int)) ∧
    ∃ reads, autocorrelate_reads 10 = .ok reads ∧
      ∀ index ∈ reads, 0 ≤ index ∧ index < ((10 : Nat) : Int) :=
  ⟨(compressed_path_index_safe 10 8 (by decide) (by decide) (Or.inr rfl)).2.1,
    (compressed_path_index_safe 10 8 (by decide) (by decide) (Or.inr rfl)).2.2.2⟩

end Alac

namespace Alac

/-! ## C34: the channel groups of a frameset partition the source channels -/

theorem spec_layout_perm (C : Nat) : (spec_layout C).flatten.Perm (List.range C) := by
  by_cases h : 8 < C ∨ C = 0
  · rw [spec_layout_large C h]
    have : ∀ l : List Nat, (l.map fun i => [i]).flatten = l := by
      intro l
      induction l with
      | nil => rfl
      | cons a l ih => simp only [List.map_cons, List.flatten_cons, ih, List.singleton_append]
    rw [this]
  · have h8 : C ≤ 8 := by omega
    have h1 : 1 ≤ C := by omega
    interval_cases C <;> decide

theorem spec_layout_count (C i : Nat) (hi : i < C) : (spec_layout C).flatten.count i = 1 := by
  rw [(spec_layout_perm C).count_eq]
  exact List.count_eq_one_of_mem (List.nodup_range C) (List.mem_range.mpr hi)

theorem spec_layout_ne_nil (C : Nat) (hC : 1 ≤ C) : spec_layout C ≠ [] := by
  by_cases h : 8 < C
  · rw [spec_layout_large C (Or.inl h)]
    obtain ⟨n, rfl⟩ : ∃ n, C = n + 1 := ⟨C - 1, by omega⟩
    rw [List.range_succ_eq_map]
    simp only [List.map_cons, ne_eq, reduceCtorEq, not_false_eq_true]
  · have h8 : C ≤ 8 := by omega
    interval_cases C <;> decide

theorem select_channels_mem (channels : List (List Int)) (g : List Nat)
    (hg : ∀ index ∈ g, index < channels.length) :
    ∀ ch ∈ select_channels channels g, ch ∈ channels := by
  intro ch hch
  unfold select_channels at hch
  obtain ⟨index, hindex, rfl⟩ := List.mem_map.mp hch
  rw [List.getD_eq_getElem _ _ (hg index hindex)]
  exact List.getElem_mem _

/-- C34: for every channel count C with 1 <= C, the channel sets that write_frameset passes to
write_frame are the source channels selected by a list of index groups which is not empty and
in which every index 0..C-1 occurs exactly once and nothing else occurs (no channel is dropped
or encoded twice); every group, and so every channel set passed, has 1 or 2 channels, as
write_frame asserts; and every channel passed is the channel of the block itself, never a slot
already emptied by a swap of extract_1ch or extract_2ch: when no channel of the block is empty,
no channel passed to write_frame is empty. -/
theorem write_frameset_groups_partition (C : Nat) (hC : 1 ≤ C) :
    spec_layout C ≠ [] ∧
    (∀ i, i < C → (spec_layout C).flatten.count i = 1) ∧
    (∀ i ∈ (spec_layout C).flatten, i < C) ∧
    (∀ g ∈ spec_layout C, g.length = 1 ∨ g.length = 2) ∧
    ∀ channels : List (List Int), channels.length = C →
      frameset_frames channels = (spec_layout C).map (select_channels channels) ∧
      (∀ frame ∈ frameset_frames channels, frame.length = 1 ∨ frame.length = 2) ∧
      ((∀ ch ∈ channels, ch ≠ []) →
        ∀ frame ∈ frameset_frames channels, ∀ ch ∈ frame, ch ≠ []) := by
  refine ⟨spec_layout_ne_nil C hC, fun i hi => spec_layout_count C i hi, fun i hi => ?_,
    fun g hg => (spec_layout_groups C g hg).1, fun channels hlen => ?_⟩
  · exact List.mem_range.mp ((spec_layout_perm C).mem_iff.mp hi)
  · subst hlen
    have hframes := frameset_frames_eq_layout channels
    refine ⟨hframes, fun frame hframe => ?_, fun hne frame hframe ch hch => ?_⟩
    · rw [hframes] at hframe
      obtain ⟨g, hg, rfl⟩ := List.mem_map.mp hframe
      unfold select_channels
      rw [List.length_map]
      exact (spec_layout_groups _ g hg).1
    · rw [hframes] at hframe
      obtain ⟨g, hg, rfl⟩ := List.mem_map.mp hframe
      exact hne ch (select_channels_mem channels g (spec_layout_groups _ g hg).2 ch hch)

/-- C34 at a block of 7 one-sample channels holding 1 .. 7: the five channel sets passed to
write_frame hold each channel once. -/
theorem write_frameset_groups_partition_witness :
    spec_layout 7 = [[2], [0, 1], [4, 5], [6], [3]] ∧
    (spec_layout 7).flatten.count 3 = 1 ∧
    frameset_frames [[1], [2], [3], [4], [5], [6], [7]] =
      [[[3]], [[1], [2]], [[5], [6]], [[7]], [[4]]] :=
  ⟨rfl, (write_frameset_groups_partition 7 (by decide)).2.1 3 (by decide),
    ((write_frameset_groups_partition 7 (by decide)).2.2.2.2
      [[1], [2], [3], [4], [5], [6], [7]] rfl).1.trans (by decide)⟩

end Alac
